import Mathlib

/-!
# PLADS coordinator: rankers, change-detection decider and metric series

A shallow embedding of the parts of `plads.c`, `main.c` and `utility.c` that
score normative patterns, aggregate anomalous instances, decide about
rediscovery and maintain the rolling metric series.

Modelling conventions.

* The holding directories are functions from `(partition, number)` to the
  parsed contents of the file of that name, `none` when `fopen` returns `NULL`.
* The external matcher (`gm`) is a Boolean function of the two file names it is
  called with; `true` stands for exit status `0`.
* `ULONG` scores are natural numbers reduced modulo `2 ^ 64` after every
  arithmetic operation. Partition ordinals and ranks are loop counters that
  stay far below `2 ^ 64` and are plain natural numbers.
* `double` values are exact rational numbers; rounding, also that of the
  decimal text written with `%lf`, is not modelled. `DBL_MAX` is the rational
  value of the largest finite `double`.
* A `for` loop over `1..n` is a recursion or a fold over `List.range' 1 n`;
  `break` ends the recursion.
-/

set_option autoImplicit false

namespace PLADS

/-! ## Data model -/

/-- Number of values of the C type `ULONG` (`unsigned long`, 64 bits). -/
def ULONG_SIZE : Nat := 2 ^ 64

/-- Parsed contents of a normative pattern file `norm_p_r`: the first header
line carries the graph input file name, the second one the size and the number
of instances, the remaining lines are the pattern. -/
structure NormFile where
  graphInputFileName : String
  subSize : Nat
  subNumInstances : Nat
  graph : List String
deriving DecidableEq

/-- The text lines of a normative pattern file. -/
def NormFile.lines (f : NormFile) : List String :=
  ("% " ++ f.graphInputFileName) ::
    ("% " ++ toString f.subSize ++ " " ++ toString f.subNumInstances) :: f.graph

/-- Directory `NORM_SUBSTRUCTURE_FILES_DIR`, by partition and rank. -/
abbrev NormDir := Nat → Nat → Option NormFile

/-- The matcher, on two files named by `(partition, number)`. -/
abbrev Matcher := Nat × Nat → Nat × Nat → Bool

/-- Record `NormativePattern` of `plads.h`. -/
structure NormativePattern where
  partitionNumber : Nat
  bestSubNumber : Nat
  score : Nat
  graphInputFileName : String
deriving DecidableEq

/-- The ranks `1..M` of the loops over `NUM_NORMATIVE_PATTERNS`. -/
def ranks (M : Nat) : List Nat := List.range' 1 M

/-- The partitions `firstPartition..lastPartition` in loop order. -/
def window (firstPartition lastPartition : Nat) : List Nat :=
  List.range' firstPartition (lastPartition + 1 - firstPartition)

/-! ## Normative ranker (`FindBestNormativePattern`, plads.c 158-303) -/

/-- Loop over `nextNumBestSub` (plads.c 213-254) for one `nextPartition`,
threading `normativePattern->score`. A missing file leaves the loop (`break`);
a match adds the other pattern's `size * instances` and sets the counter to
`NUM_NORMATIVE_PATTERNS`, which ends the loop as well. -/
def nextNumBestSubLoop (norm : NormDir) (gm : Matcher)
    (partition numBestSub nextPartition : Nat) : List Nat → Nat → Nat
  | [], score => score
  | nextNumBestSub :: rest, score =>
    if partition ≠ nextPartition then
      match norm nextPartition nextNumBestSub with
      | none => score
      | some other =>
        if gm (partition, numBestSub) (nextPartition, nextNumBestSub) then
          (score + (other.subSize * other.subNumInstances) % ULONG_SIZE) % ULONG_SIZE
        else nextNumBestSubLoop norm gm partition numBestSub nextPartition rest score
    else nextNumBestSubLoop norm gm partition numBestSub nextPartition rest score

/-- Loop over `nextPartition` (plads.c 211-255). -/
def nextPartitionLoop (norm : NormDir) (gm : Matcher) (M firstPartition lastPartition : Nat)
    (partition numBestSub : Nat) (score : Nat) : Nat :=
  (window firstPartition lastPartition).foldl
    (fun s nextPartition =>
      nextNumBestSubLoop norm gm partition numBestSub nextPartition (ranks M) s)
    score

/-- Score given to `norm_partition_numBestSub` (plads.c 207-255). -/
def patternScore (norm : NormDir) (gm : Matcher) (M firstPartition lastPartition : Nat)
    (partition numBestSub : Nat) (f : NormFile) : Nat :=
  nextPartitionLoop norm gm M firstPartition lastPartition partition numBestSub
    ((f.subSize * f.subNumInstances) % ULONG_SIZE)

/-- Local variables of `FindBestNormativePattern` that survive an iteration.
`maxScoreFileName` is `none` while the buffer has never been written. -/
structure RankerState where
  maxScore : Nat
  maxScoreFileName : Option (Nat × Nat)
  normativePatternExists : Bool
  normativePatternList : List NormativePattern
deriving DecidableEq

/-- State at function entry (plads.c 162-171) with the caller's list. -/
def RankerState.init (normativePatternList : List NormativePattern) : RankerState :=
  ⟨0, none, false, normativePatternList⟩

/-- Loop over `numBestSub` (plads.c 182-270) for one partition. A missing file
leaves the loop (`break`, line 193). -/
def numBestSubLoop (norm : NormDir) (gm : Matcher) (M firstPartition lastPartition : Nat)
    (partition : Nat) : List Nat → RankerState → RankerState
  | [], st => st
  | numBestSub :: rest, st =>
    match norm partition numBestSub with
    | none => st
    | some f =>
      let score := patternScore norm gm M firstPartition lastPartition partition numBestSub f
      let pattern : NormativePattern := ⟨partition, numBestSub, score, f.graphInputFileName⟩
      let st1 : RankerState :=
        ⟨st.maxScore, st.maxScoreFileName, true, pattern :: st.normativePatternList⟩
      let st2 : RankerState :=
        if score > st1.maxScore then
          ⟨score, some (partition, numBestSub), st1.normativePatternExists,
            st1.normativePatternList⟩
        else st1
      numBestSubLoop norm gm M firstPartition lastPartition partition rest st2

/-- Loop over `partition` (plads.c 180-271). -/
def partitionLoop (norm : NormDir) (gm : Matcher) (M firstPartition lastPartition : Nat)
    (st : RankerState) : RankerState :=
  (window firstPartition lastPartition).foldl
    (fun s partition =>
      numBestSubLoop norm gm M firstPartition lastPartition partition (ranks M) s)
    st

/-- What `FindBestNormativePattern` hands back: the returned score, the list
and the contents written to `bestSub.g` (`none` when it is not written). -/
structure RankerResult where
  maxScore : Nat
  normativePatternList : List NormativePattern
  elected : Option (Nat × Nat)
  bestSub : Option (List String)
deriving DecidableEq

/-- Function `FindBestNormativePattern` (plads.c 158-303). The result is `none` when
the function does not return: `maxScoreFileName` is opened although it was
never written (or names a file that is gone) and the program leaves through
`exit(1)` (plads.c 284-289). -/
def FindBestNormativePattern (norm : NormDir) (gm : Matcher) (M : Nat)
    (firstPartition lastPartition : Nat) (normativePatternList : List NormativePattern) :
    Option RankerResult :=
  let st := partitionLoop norm gm M firstPartition lastPartition
    (RankerState.init normativePatternList)
  if st.normativePatternExists then
    match st.maxScoreFileName with
    | none => none
    | some (p, r) =>
      match norm p r with
      | none => none
      | some f => some ⟨st.maxScore, st.normativePatternList, some (p, r), some (f.lines.drop 2)⟩
  else some ⟨st.maxScore, st.normativePatternList, none, none⟩

/-! ## Anomaly ranker (`FindMostAnomalousSubstructures`, plads.c 322-461) -/

/-- Directory `ANOMALOUS_SUBSTRUCTURE_FILES_DIR`: the score on the leading
line of `anom_p_k`, by partition and instance number. -/
abbrev AnomDir := Nat → Nat → Option ℚ

/-- Record `AnomalousSubstructure` of `plads.h`. -/
structure AnomalousSubstructure where
  partitionNumber : Nat
  anomalousNumber : Nat
  score : ℚ
deriving DecidableEq

/-- Largest finite `double`. -/
def DBL_MAX : ℚ := (2 ^ 53 - 1) * 2 ^ 971

/-- Loop over `nextNumAnomSub` (plads.c 388-424), threading
`anomScore[partition][numAnomSub]`. -/
def nextNumAnomSubLoop (anom : AnomDir) (gm : Matcher)
    (firstPartition numAnomalousInstances partition numAnomSub nextPartition : Nat)
    (score : ℚ) : ℚ :=
  (List.range' 1 numAnomalousInstances).foldl
    (fun s nextNumAnomSub =>
      if partition ≠ nextPartition ∨ numAnomSub ≠ nextNumAnomSub then
        match anom (nextPartition + (firstPartition - 1)) nextNumAnomSub with
        | some nextPartitionScore =>
          if gm (partition + (firstPartition - 1), numAnomSub)
              (nextPartition + (firstPartition - 1), nextNumAnomSub) then
            s + nextPartitionScore
          else s
        | none => s
      else s)
    score

/-- Loop over `nextPartition` (plads.c 385-425). -/
def nextAnomPartitionLoop (anom : AnomDir) (gm : Matcher)
    (NUM_PARTITIONS firstPartition numAnomalousInstances partition numAnomSub : Nat)
    (score : ℚ) : ℚ :=
  (List.range' 1 NUM_PARTITIONS).foldl
    (fun s nextPartition =>
      nextNumAnomSubLoop anom gm firstPartition numAnomalousInstances partition numAnomSub
        nextPartition s)
    score

/-- Local variables of `FindMostAnomalousSubstructures` that survive an
iteration. -/
structure AnomState where
  minScore : ℚ
  anomScore : Nat → Nat → ℚ
  mostAnomalousSubstructureList : List AnomalousSubstructure

/-- The array `anomSubsSoFar` after it has been reset and the cell of the
current instance has been set (plads.c 373-382). -/
def anomSubsSoFar (partition numAnomSub : Nat) : Nat → Nat → Bool :=
  fun i j => decide (i = partition) && decide (j = numAnomSub)

/-- Loops that extend `mostAnomalousSubstructureList` (plads.c 435-450):
every flagged cell is inserted at the head with score `minScore`. -/
def createMostAnomalousSubstructureList (flags : Nat → Nat → Bool)
    (NUM_PARTITIONS firstPartition numAnomalousInstances : Nat) (minScore : ℚ)
    (list : List AnomalousSubstructure) : List AnomalousSubstructure :=
  (List.range' 1 NUM_PARTITIONS).foldl
    (fun l i =>
      (List.range' 1 numAnomalousInstances).foldl
        (fun l2 j => if flags i j then ⟨i + (firstPartition - 1), j, minScore⟩ :: l2 else l2)
        l)
    list

/-- Body of the loop over `numAnomSub` (plads.c 364-452). -/
def anomStep (anom : AnomDir) (gm : Matcher)
    (NUM_PARTITIONS firstPartition numAnomalousInstances : Nat)
    (partition : Nat) (st : AnomState) (numAnomSub : Nat) : AnomState :=
  match anom (partition + (firstPartition - 1)) numAnomSub with
  | none => st
  | some tempScore =>
    let score := nextAnomPartitionLoop anom gm NUM_PARTITIONS firstPartition
      numAnomalousInstances partition numAnomSub tempScore
    let anomScore : Nat → Nat → ℚ :=
      fun i j => if i = partition ∧ j = numAnomSub then score else st.anomScore i j
    if score ≤ st.minScore then
      ⟨score, anomScore,
        createMostAnomalousSubstructureList (anomSubsSoFar partition numAnomSub)
          NUM_PARTITIONS firstPartition numAnomalousInstances score
          st.mostAnomalousSubstructureList⟩
    else ⟨st.minScore, anomScore, st.mostAnomalousSubstructureList⟩

/-- Loops over `partition` and `numAnomSub` (plads.c 359-454). -/
def anomSweep (anom : AnomDir) (gm : Matcher)
    (NUM_PARTITIONS firstPartition numAnomalousInstances : Nat) (st : AnomState) : AnomState :=
  (List.range' 1 NUM_PARTITIONS).foldl
    (fun s partition =>
      (List.range' 1 numAnomalousInstances).foldl
        (anomStep anom gm NUM_PARTITIONS firstPartition numAnomalousInstances partition) s)
    st

/-- Function `FindMostAnomalousSubstructures` (plads.c 322-461): the returned
`minScore` and the caller's list after the call. The score array is allocated
without being initialised; its first contents are never read. -/
def FindMostAnomalousSubstructures (anom : AnomDir) (gm : Matcher)
    (NUM_PARTITIONS firstPartition numAnomalousInstances : Nat)
    (mostAnomalousSubstructureList : List AnomalousSubstructure) :
    ℚ × List AnomalousSubstructure :=
  let st := anomSweep anom gm NUM_PARTITIONS firstPartition numAnomalousInstances
    ⟨DBL_MAX, fun _ _ => 0, mostAnomalousSubstructureList⟩
  (st.minScore, st.mostAnomalousSubstructureList)

/-- Walk over the list in the report of `main` (main.c 1071-1095): the
`(partition, anomalous number)` pairs that are printed. -/
def reportLoop (anomScore : ℚ) : List AnomalousSubstructure → List (Nat × Nat)
  | [] => []
  | node :: next =>
    if |node.score - anomScore| < 1 / 1000000 then
      (node.partitionNumber, node.anomalousNumber) :: reportLoop anomScore next
    else reportLoop anomScore next

/-- Outcome of the report of `main` (main.c 1057-1111). -/
structure AnomalyReport where
  reported : List (Nat × Nat)
  countAnomSubs : Nat
  noneToReport : Bool
deriving DecidableEq

/-- Report of the most anomalous substructures (main.c 1057-1111): the
message "No anomalous substructures to report." is printed exactly when
nothing was printed by the walk. -/
def reportMostAnomalous (mostAnomalousSubstructureList : List AnomalousSubstructure)
    (anomScore : ℚ) : AnomalyReport :=
  let reported := reportLoop anomScore mostAnomalousSubstructureList
  ⟨reported, reported.length, decide (reported.length = 0)⟩

/-- Step 5f of `main` (main.c 1040-1111): rank, then report. -/
def rankAndReport (anom : AnomDir) (gm : Matcher)
    (NUM_PARTITIONS firstPartition numAnomalousInstances : Nat) : AnomalyReport :=
  let r := FindMostAnomalousSubstructures anom gm NUM_PARTITIONS firstPartition
    numAnomalousInstances []
  reportMostAnomalous r.2 r.1

/-! ## Change-detection decider (main.c 432-691) -/

/-- The `int` settings of `Configuration` (plads.h) read by the decider. -/
structure Configuration where
  CHANGE_DETECTION_APPROACH : Int
  THRESHOLD_FOR_NUM_EXCEEDED_METRICS : Int

/-- The seven graph-property metrics, in the order of main.c 432-611. -/
inductive Metric where
  | connected | density | cluster | eigen | community | triangle | entropy
deriving DecidableEq

/-- The three numbers kept per metric: the value of the new partition and the
mean and standard deviation of its series. -/
structure MetricStats where
  value : ℚ
  mean : ℚ
  stddev : ℚ
deriving DecidableEq

/-- The initial `0.0` of all metric variables (main.c 386-411). -/
def MetricStats.zero : MetricStats := ⟨0, 0, 0⟩

/-- Conversion of an `int` to `ULONG` in a mixed comparison. -/
def intToULONG (i : Int) : Nat := (i % (ULONG_SIZE : Int)).toNat

/-- Whether the block of the metric numbered `k` runs (main.c 432, 458, ...). -/
def metricEnabled (approach : Int) (k : Int) : Bool :=
  decide (approach = k) || decide (approach = 9)

/-- The metric blocks with their numbers, in program order. -/
def metricBlocks : List (Int × Metric) :=
  [(1, .connected), (2, .density), (3, .cluster), (4, .eigen), (5, .community),
    (6, .triangle), (7, .entropy)]

/-- Variables `valueX`, `averageGPX`, `stddevGPX` of one metric after the
blocks: the measured numbers when its block ran, `0.0` otherwise. -/
def metricVars (approach : Int) (measure : Metric → MetricStats) (k : Int) (m : Metric) :
    MetricStats :=
  if metricEnabled approach k then measure m else MetricStats.zero

/-- Variables `value`, `averageGP`, `stddevGP` after the blocks: every block
that runs overwrites them. -/
def singleVars (approach : Int) (measure : Metric → MetricStats) : MetricStats :=
  metricBlocks.foldl
    (fun cur km => if metricEnabled approach km.1 then measure km.2 else cur)
    MetricStats.zero

/-- The one-sided test `(value - mean) > stddev`. -/
def tooHigh (s : MetricStats) : Bool := decide (s.value - s.mean > s.stddev)

/-- Variable `numberMetricsTooHigh` before the gate (main.c 635-688). -/
def numberMetricsTooHigh (approach : Int) (measure : Metric → MetricStats) : Nat :=
  let n0 : Nat := 0
  let n1 : Nat :=
    if approach = 9 then
      metricBlocks.foldl
        (fun n km => if tooHigh (metricVars approach measure km.1 km.2) then n + 1 else n) n0
    else n0
  if 0 < approach ∧ approach < 8 then
    if tooHigh (singleVars approach measure) then 4 else n1
  else n1

/-- The gate of main.c 690-691: `true` when the controller runs
`RunGBADForNormativePatterns` for the new partition. -/
def rediscovers (cfg : Configuration) (measure : Metric → MetricStats) : Bool :=
  decide (intToULONG cfg.THRESHOLD_FOR_NUM_EXCEEDED_METRICS ≤
      numberMetricsTooHigh cfg.CHANGE_DETECTION_APPROACH measure) ||
    decide (cfg.CHANGE_DETECTION_APPROACH = 0)

/-! ## Metric series (`utility.c` 940-1065) -/

/-- Record `gpNode` of `plads.h`: one line `partition value` of a series file. -/
structure gpNode where
  partition : Nat
  value : ℚ
deriving DecidableEq

/-- A series file `gp_<metric>.txt`: `none` when the file does not exist. -/
abbrev GPFile := Option (List gpNode)

/-- Function `AddEntryToGPFile` (utility.c 940-947): opens for appending, which
creates a missing file, and writes one line. -/
def AddEntryToGPFile (partition : Nat) (value : ℚ) (file : GPFile) : GPFile :=
  some (file.getD [] ++ [⟨partition, value⟩])

/-- Loop `for (j=1; j<num; j++)` of `UpdateGPFile` (utility.c 1059-1060). -/
def saveOldEntries (entries : List gpNode) (num : Nat) (file : GPFile) : GPFile :=
  (List.range' 1 (num - 1)).foldl
    (fun f j =>
      match entries[j]? with
      | some e => AddEntryToGPFile e.partition e.value f
      | none => f)
    file

/-- Function `UpdateGPFile` (utility.c 1033-1065): the file after the call. The result
is `none` when the call does not complete: the file is missing (`exit(-1)`),
or it holds more lines than the array `entries[NUM_PARTITIONS]` has cells. -/
def UpdateGPFile (NUM_PARTITIONS : Nat) (partition : Nat) (value : ℚ) (file : GPFile) :
    Option (List gpNode) :=
  match file with
  | none => none
  | some entries =>
    if NUM_PARTITIONS < entries.length then none
    else
      let num := entries.length
      AddEntryToGPFile partition value (saveOldEntries entries num none)

/-- Step 1 for one metric (plads.c 37-124): one `AddEntryToGPFile` per
initial partition, on a series file that does not exist yet. -/
def appendInitial (entries : List gpNode) : GPFile :=
  entries.foldl (fun f e => AddEntryToGPFile e.partition e.value f) none

/-- Step 5b for one metric, repeated (main.c 440): one `UpdateGPFile` per
later partition. -/
def rollAll (NUM_PARTITIONS : Nat) : List gpNode → GPFile → Option (List gpNode)
  | [], file => file
  | e :: rest, file =>
    match UpdateGPFile NUM_PARTITIONS e.partition e.value file with
    | none => none
    | some entries => rollAll NUM_PARTITIONS rest (some entries)

/-! ## Reference formulas for the normative ranker -/

/-- Ranks of a partition that a scan reaches: `1..M` up to, and without, the
first rank whose file is missing. -/
def reachedRanks (norm : NormDir) (M partition : Nat) : List Nat :=
  (ranks M).takeWhile (fun r => (norm partition r).isSome)

/-- The rank of `nextPartition` that contributes to the score of
`norm_partition_numBestSub`: the smallest reached rank that matches. -/
def contributingRank (norm : NormDir) (gm : Matcher) (M partition numBestSub : Nat)
    (nextPartition : Nat) : Option Nat :=
  (reachedRanks norm M nextPartition).find?
    (fun r => gm (partition, numBestSub) (nextPartition, r))

/-- The contributing rank as the specification words it: the smallest rank
in `1..M` whose file exists and matches. -/
def specContributingRank (norm : NormDir) (gm : Matcher) (M partition numBestSub : Nat)
    (nextPartition : Nat) : Option Nat :=
  (ranks M).find?
    (fun r => (norm nextPartition r).isSome && gm (partition, numBestSub) (nextPartition, r))

/-- The product `size * numInstances` of the file of a partition at a rank,
`0` when there is no rank or no file. -/
def sizeTimesInstances (norm : NormDir) (partition : Nat) : Option Nat → Nat
  | none => 0
  | some r =>
    match norm partition r with
    | some f => f.subSize * f.subNumInstances
    | none => 0

/-- Own product plus the products of the contributing ranks of the other
partitions of the window, for a given choice of contributing ranks. -/
def scoreFormula (norm : NormDir) (rankOf : Nat → Option Nat)
    (firstPartition lastPartition partition : Nat) (f : NormFile) : Nat :=
  f.subSize * f.subNumInstances +
    (((window firstPartition lastPartition).filter (fun q => decide (q ≠ partition))).map
      (fun q => sizeTimesInstances norm q (rankOf q))).sum

/-- The list entry that the scan builds for `norm_partition_numBestSub`. -/
def scoredPattern (norm : NormDir) (gm : Matcher) (M firstPartition lastPartition : Nat)
    (partition numBestSub : Nat) : Option NormativePattern :=
  (norm partition numBestSub).map
    (fun f => ⟨partition, numBestSub,
      patternScore norm gm M firstPartition lastPartition partition numBestSub f,
      f.graphInputFileName⟩)

/-- Closed form of the update of the ranker state by one scored pattern
(plads.c 257-269). -/
def electStep (st : RankerState) (e : NormativePattern) : RankerState :=
  if e.score > st.maxScore then
    ⟨e.score, some (e.partitionNumber, e.bestSubNumber), true, e :: st.normativePatternList⟩
  else ⟨st.maxScore, st.maxScoreFileName, true, e :: st.normativePatternList⟩

/-- The scored patterns of the window in scan order. -/
def scoredPatterns (norm : NormDir) (gm : Matcher) (M firstPartition lastPartition : Nat) :
    List NormativePattern :=
  (window firstPartition lastPartition).flatMap (fun p =>
    (reachedRanks norm M p).filterMap (scoredPattern norm gm M firstPartition lastPartition p))

/-! ## Reference formulas for the anomaly ranker -/

/-- The cells `(partition, numAnomSub)` of the window in scan order: window
index `1..NUM_PARTITIONS`, instance number `1..numAnomalousInstances`. -/
def anomCells (NUM_PARTITIONS numAnomalousInstances : Nat) : List (Nat × Nat) :=
  (List.range' 1 NUM_PARTITIONS).flatMap
    (fun i => (List.range' 1 numAnomalousInstances).map (fun k => (i, k)))

/-- What another cell adds to the score of cell `(i, k)`: its leading score
when its file exists and the matcher reports it equivalent. -/
def matchedScore (anom : AnomDir) (gm : Matcher) (firstPartition i k : Nat)
    (c : Nat × Nat) : Option ℚ :=
  match anom (c.1 + (firstPartition - 1)) c.2 with
  | some s =>
    if gm (i + (firstPartition - 1), k) (c.1 + (firstPartition - 1), c.2) then some s
    else none
  | none => none

/-- Aggregated score as the specification words it: the own leading score plus
the leading scores of all other existing instances of the window that match. -/
def aggregatedScore (anom : AnomDir) (gm : Matcher)
    (NUM_PARTITIONS firstPartition numAnomalousInstances i k : Nat) (own : ℚ) : ℚ :=
  own +
    (((anomCells NUM_PARTITIONS numAnomalousInstances).filter
        (fun c => decide (c ≠ (i, k)))).filterMap
      (matchedScore anom gm firstPartition i k)).sum

/-- Aggregated score of the instance in cell `c`, `none` when its file
`anom_p_k` does not exist. -/
def cellScore (anom : AnomDir) (gm : Matcher)
    (NUM_PARTITIONS firstPartition numAnomalousInstances : Nat) (c : Nat × Nat) : Option ℚ :=
  (anom (c.1 + (firstPartition - 1)) c.2).map
    (aggregatedScore anom gm NUM_PARTITIONS firstPartition numAnomalousInstances c.1 c.2)

/-- Closed form of one iteration of the sweep on a cell of the window. -/
def sweepStep (anom : AnomDir) (gm : Matcher)
    (NUM_PARTITIONS firstPartition numAnomalousInstances : Nat)
    (st : AnomState) (c : Nat × Nat) : AnomState :=
  match cellScore anom gm NUM_PARTITIONS firstPartition numAnomalousInstances c with
  | none => st
  | some a =>
    ⟨if a ≤ st.minScore then a else st.minScore,
      fun i j => if i = c.1 ∧ j = c.2 then a else st.anomScore i j,
      if a ≤ st.minScore then
        ⟨c.1 + (firstPartition - 1), c.2, a⟩ :: st.mostAnomalousSubstructureList
      else st.mostAnomalousSubstructureList⟩

/-- Cell `c` is scanned before cell `d`. -/
def scannedBefore (c d : Nat × Nat) : Prop :=
  c.1 < d.1 ∨ (c.1 = d.1 ∧ c.2 < d.2)

/-! ## Reference formulas for the decider -/

/-- The metric that a single-metric approach `1..7` selects. -/
def selectedMetric (approach : Int) : Metric :=
  if approach = 1 then .connected
  else if approach = 2 then .density
  else if approach = 3 then .cluster
  else if approach = 4 then .eigen
  else if approach = 5 then .community
  else if approach = 6 then .triangle
  else .entropy

/-- Number of the seven metrics that pass the one-sided test. -/
def countTooHigh (measure : Metric → MetricStats) : Nat :=
  (metricBlocks.filter (fun km => tooHigh (measure km.2))).length

/-! ## Concrete inputs -/

/-- A directory with a gap: `norm_1_1` and `norm_2_2` exist, `norm_2_1` does
not. -/
def normGap : NormDir := fun p r =>
  if p = 1 ∧ r = 1 then some ⟨"g1", 3, 1, ["v 1 a"]⟩
  else if p = 2 ∧ r = 2 then some ⟨"g2", 4, 1, ["v 1 a"]⟩
  else none

/-- Scenario 1: identical `norm_1_1` and `norm_2_1` of size 7 with 1 instance. -/
def normScenario1 : NormDir := fun p r =>
  if (p = 1 ∨ p = 2) ∧ r = 1 then
    some ⟨"g", 7, 1, ["v 1 a", "v 2 b", "v 3 c", "v 4 d", "e 1 2 x", "e 2 3 x", "e 3 4 x"]⟩
  else none

/-- A single pattern file whose header announces size 0. -/
def normZero : NormDir := fun p r =>
  if p = 1 ∧ r = 1 then some ⟨"g", 0, 1, []⟩ else none

/-- A matcher that reports every pair equivalent. -/
def gmAll : Matcher := fun _ _ => true

/-- A matcher that reports no pair equivalent. -/
def gmNone : Matcher := fun _ _ => false

/-- Scenario 2: `anom_1_1` and `anom_2_1`, both with leading score 0.25. -/
def anomScenario2 : AnomDir := fun p k =>
  if (p = 1 ∨ p = 2) ∧ k = 1 then some (1 / 4) else none

/-- Two instances with scores 5 (scanned first) and 3. -/
def anomStale : AnomDir := fun p k =>
  if p = 1 ∧ k = 1 then some 5 else if p = 2 ∧ k = 1 then some 3 else none

/-- Two instances with scores 1 (scanned first) and 1.0000005. -/
def anomNear : AnomDir := fun p k =>
  if p = 1 ∧ k = 1 then some 1 else if p = 2 ∧ k = 1 then some (1 + 1 / 2000000) else none

/-- A directory without anomalous instance files. -/
def anomEmpty : AnomDir := fun _ _ => none

/-- Measurements in which every metric has value 10, mean 0 and standard
deviation 1, so that every one-sided test succeeds. -/
def measureHigh : Metric → MetricStats := fun _ => ⟨10, 0, 1⟩

/-- Measurements in which every number is 0, so that no test succeeds. -/
def measureFlat : Metric → MetricStats := fun _ => MetricStats.zero

/-! ## Series statistics (utility.c 960-1018) -/

/-- Quotient of a `double` by a count converted to `double`. There is no
rational result when the count is 0: the C division then yields a NaN or an
infinity. -/
def divByCount (x : ℚ) (num : Nat) : Option ℚ :=
  if num = 0 then none else some (x / (num : ℚ))

/-- Reading loop of `CalculateMeanFromGPFile` (utility.c 972-976): the
variables `sum` and `num` after the last line. -/
def meanLoop (entries : List gpNode) : ℚ × Nat :=
  entries.foldl (fun s e => (s.1 + e.value, s.2 + 1)) (0, 0)

/-- Function `CalculateMeanFromGPFile` (utility.c 960-983). A missing file
gives 0; otherwise `sum / num`. -/
def CalculateMeanFromGPFile (file : GPFile) : Option ℚ :=
  match file with
  | none => some 0
  | some entries => divByCount (meanLoop entries).1 (meanLoop entries).2

/-- Reading loop of `CalculateStandardDeviationFromGPFile` (utility.c
1008-1012): the variables `sumDeviation` and `num` after the last line. -/
def deviationLoop (mean : ℚ) (entries : List gpNode) : ℚ × Nat :=
  entries.foldl (fun s e => (s.1 + (e.value - mean) * (e.value - mean), s.2 + 1)) (0, 0)

/-- Function `CalculateStandardDeviationFromGPFile` (utility.c 996-1018).
The library function `sqrt` is a parameter. A missing file gives 0; otherwise
`sqrt (sumDeviation / num)`. -/
def CalculateStandardDeviationFromGPFile (sqrt : ℚ → ℚ) (mean : ℚ) (file : GPFile) :
    Option ℚ :=
  match file with
  | none => some 0
  | some entries =>
    (divByCount (deviationLoop mean entries).1 (deviationLoop mean entries).2).map sqrt

/-- Closed form of the mean of a series. -/
def seriesMean (entries : List gpNode) : ℚ :=
  (entries.map (fun e => e.value)).sum / (entries.length : ℚ)

/-- Closed form of the population variance of a series about `mean`: the sum
of the squared deviations divided by the number `n` of entries. -/
def seriesVariance (mean : ℚ) (entries : List gpNode) : ℚ :=
  (entries.map (fun e => (e.value - mean) ^ 2)).sum / (entries.length : ℚ)

/-! ## Graph-property reader (utility.c 877-927, 1081-1139) -/

/-- The C function `isspace` in the "C" locale: space, tab, newline, vertical
tab, form feed and carriage return. -/
def isSpace (c : Char) : Bool :=
  decide (c.toNat = 32) || (decide (9 ≤ c.toNat) && decide (c.toNat ≤ 13))

/-- A `FILE *` opened for reading: the characters not yet read and the
end-of-file indicator tested by `feof`. -/
structure GraphStream where
  rest : List Char
  eof : Bool
deriving DecidableEq

/-- Call `fscanf(f, "%s", buffer)`: white space is skipped, then the
characters up to the next white space are stored. The result is `none` (the
call returns `EOF`) when the input ends before a character is stored. The
indicator is set when the call runs into the end of the input. -/
def fscanfString (f : GraphStream) : Option (List Char) × GraphStream :=
  let s := f.rest.dropWhile isSpace
  let w := s.takeWhile (fun c => !isSpace c)
  let r := s.dropWhile (fun c => !isSpace c)
  (if w.isEmpty then none else some w, ⟨r, f.eof || r.isEmpty⟩)

/-- Value of a run of decimal digits. -/
def digitsValue (ds : List Char) : Nat :=
  ds.foldl (fun v c => 10 * v + (c.toNat - 48)) 0

/-- Call `fscanf(f, "%d", &v)`: white space is skipped, then an optional sign
and a run of digits are converted. The result is `none` when nothing is
stored: the input ends first (the call returns `EOF`), or no digit follows (a
matching failure, which leaves the characters in the stream). -/
def fscanfInt (f : GraphStream) : Option Int × GraphStream :=
  let s := f.rest.dropWhile isSpace
  match s with
  | [] => (none, ⟨[], true⟩)
  | c :: t =>
    let body := if c = '-' ∨ c = '+' then t else s
    let ds := body.takeWhile Char.isDigit
    let r := body.dropWhile Char.isDigit
    if ds.isEmpty then (none, ⟨s, f.eof⟩)
    else
      (some (if c = '-' then -(digitsValue ds : Int) else (digitsValue ds : Int)),
        ⟨r, f.eof || r.isEmpty⟩)

/-- Body of the loop of `CalculateDensity` before the next read (utility.c
905-917): the counters `numVertices` and `numEdges`. -/
def countWord (stringValue : List Char) (c : Nat × Nat) : Nat × Nat :=
  if stringValue = ['v'] then (c.1 + 1, c.2)
  else if stringValue = ['e'] ∨ stringValue = ['d'] ∨ stringValue = ['u'] then (c.1, c.2 + 1)
  else c

/-- Loop `while (!feof(...))` of `CalculateDensity` (utility.c 903-919), with
the word read last in `stringValue`. Every iteration with a clear indicator
reads at least one character, so a fuel above the number of characters is
never used up. -/
def densityLoop : Nat → GraphStream → List Char → Nat × Nat → Nat × Nat
  | 0, _, _, c => c
  | fuel + 1, f, stringValue, c =>
    if f.eof then c
    else
      densityLoop fuel (fscanfString f).2 ((fscanfString f).1.getD stringValue)
        (countWord stringValue c)

/-- Counters `numVertices` and `numEdges` of `CalculateDensity` after its
loop (utility.c 902-920), for a graph input file with the given characters.
When the first read stores nothing the buffer is not inspected, since the
indicator is set. -/
def graphCounts (text : List Char) : Nat × Nat :=
  densityLoop (text.length + 1) (fscanfString ⟨text, false⟩).2
    ((fscanfString ⟨text, false⟩).1.getD []) (0, 0)

/-- Function `CalculateDensity` (utility.c 877-927) on an existing graph
input file: `numEdges / max_edges` with `max_edges = numVertices *
numVertices` computed in `ULONG`. -/
def CalculateDensity (text : List Char) : Option ℚ :=
  divByCount ((graphCounts text).2 : ℚ)
    (((graphCounts text).1 * (graphCounts text).1) % ULONG_SIZE)

/-- The files `vertices_<n>.txt` (one number per line) and `edges_<n>.txt`
(two numbers per line) written by `CreateVerticesAndEdgesFiles`. -/
structure SideFiles where
  vertices : List Int
  edges : List (Int × Int)
deriving DecidableEq

/-- Loop of `CreateVerticesAndEdgesFiles` (utility.c 1115-1135), threading the
variables `v1` and `v2`, which keep their value when a conversion fails. -/
def sideFilesLoop : Nat → GraphStream → Int × Int → SideFiles → SideFiles
  | 0, _, _, out => out
  | fuel + 1, f, v, out =>
    match (fscanfString f).1 with
    | none => out
    | some marker =>
      if marker = ['v'] then
        let a := fscanfInt (fscanfString f).2
        let v1 := a.1.getD v.1
        sideFilesLoop fuel (fscanfString a.2).2 (v1, v.2) ⟨out.vertices ++ [v1], out.edges⟩
      else if marker = ['e'] ∨ marker = ['d'] ∨ marker = ['u'] then
        let a := fscanfInt (fscanfString f).2
        let v1 := a.1.getD v.1
        let b := fscanfInt a.2
        let v2 := b.1.getD v.2
        sideFilesLoop fuel (fscanfString b.2).2 (v1, v2)
          ⟨out.vertices, out.edges ++ [(v1, v2)]⟩
      else sideFilesLoop fuel (fscanfString f).2 v out

/-- Function `CreateVerticesAndEdgesFiles` (utility.c 1081-1139) on an
existing graph input file; `uninitialised` stands for the values that `v1`
and `v2` hold before the first conversion. -/
def CreateVerticesAndEdgesFiles (uninitialised : Int × Int) (text : List Char) : SideFiles :=
  sideFilesLoop (text.length + 1) ⟨text, false⟩ uninitialised ⟨[], []⟩

/-- The characters of a text file with the given lines, each ended by a
newline. -/
def fileOfLines (lines : List String) : List Char :=
  lines.flatMap (fun l => l.data ++ [Char.ofNat 10])

/-- The marker of an edge record. -/
inductive EdgeKind where
  | e | u | d
deriving DecidableEq

/-- The word that stands for an edge kind. -/
def EdgeKind.word : EdgeKind → List Char
  | .e => ['e']
  | .u => ['u']
  | .d => ['d']

/-- A record of a graph file: `v id label` or `e|u|d src dst label`, with the
numbers as they are written. -/
inductive GraphRecord where
  | vertex (id label : List Char)
  | edge (kind : EdgeKind) (src dst label : List Char)
deriving DecidableEq

/-- The words of a record, each with the white space character that follows
it: single spaces inside the record, a newline after it. -/
def GraphRecord.words : GraphRecord → List (List Char × Char)
  | .vertex id label => [(['v'], ' '), (id, ' '), (label, Char.ofNat 10)]
  | .edge kind src dst label =>
    [(kind.word, ' '), (src, ' '), (dst, ' '), (label, Char.ofNat 10)]

/-- The characters of a run of words, each followed by its white space
character. -/
def wordsText (ws : List (List Char × Char)) : List Char :=
  ws.flatMap (fun w => w.1 ++ [w.2])

/-- A graph file that consists of the given records, one per line. The last
line ends with a newline when `finalNewline` is set. -/
def graphFileText (records : List GraphRecord) (finalNewline : Bool) : List Char :=
  if finalNewline then wordsText (records.flatMap GraphRecord.words)
  else (wordsText (records.flatMap GraphRecord.words)).dropLast

/-- A single token: not empty and without white space. -/
def isToken (w : List Char) : Prop := w ≠ [] ∧ ∀ c ∈ w, isSpace c = false

/-- The four words that `CalculateDensity` counts. -/
def isMarker (w : List Char) : Prop := w = ['v'] ∨ w = ['e'] ∨ w = ['d'] ∨ w = ['u']

/-- The numbers and the label of a record. -/
def GraphRecord.fields : GraphRecord → List (List Char)
  | .vertex id label => [id, label]
  | .edge _ src dst label => [src, dst, label]

/-- Number of vertex records. -/
def numVertexRecords (records : List GraphRecord) : Nat :=
  (records.filter (fun r => match r with | .vertex _ _ => true | .edge _ _ _ _ => false)).length

/-- Number of edge records. -/
def numEdgeRecords (records : List GraphRecord) : Nat :=
  (records.filter (fun r => match r with | .vertex _ _ => false | .edge _ _ _ _ => true)).length

/-- A run of `(word, white space)` pairs whose words are tokens. -/
def goodWords (ws : List (List Char × Char)) : Prop :=
  ∀ w ∈ ws, isToken w.1 ∧ isSpace w.2 = true

/-- A number or label that is a single token and none of the four counted
words. -/
def isPlainField (w : List Char) : Prop := isToken w ∧ ¬ isMarker w

/-- A graph file of three lines: vertices 1 and 2 and an edge between them. -/
def graphSmall : List GraphRecord :=
  [.vertex ['1'] ['a'], .vertex ['2'] ['b'], .edge .e ['1'] ['2'] ['x']]

/-- A graph file with the single line `v 1 a`. -/
def graphPlain : List Char := fileOfLines ["v 1 a"]

/-- The file `graphPlain` with a comment line inserted after its only line. -/
def graphCommented : List Char := fileOfLines ["v 1 a", "% e 1 1 x"]

/-! ## Concrete inputs for the monotonicity claims -/

/-- Two pattern files whose sizes add up to `2 ^ 64 + 1`: `norm_1_1` of size
`2 ^ 63` and `norm_2_1` of size `2 ^ 63 + 1`, one instance each. -/
def normWrap : NormDir := fun p r =>
  if p = 1 ∧ r = 1 then some ⟨"g1", 2 ^ 63, 1, []⟩
  else if p = 2 ∧ r = 1 then some ⟨"g2", 2 ^ 63 + 1, 1, []⟩
  else none

/-- Two instances with leading scores 1 and -1. -/
def anomNegative : AnomDir := fun p k =>
  if p = 1 ∧ k = 1 then some 1 else if p = 2 ∧ k = 1 then some (-1) else none

/-! ## Controller window (main.c 61-62, 303-373) -/

/-- The variables `oldestPartition` and `currentPartition` of `main`, both of
type `ULONG`. -/
structure WindowState where
  oldestPartition : Nat
  currentPartition : Nat
deriving DecidableEq

/-- The window before the loop (main.c 61-62, 303-304): `firstPartition = 1`
and `lastPartition = NUM_PARTITIONS`, an `int` converted to `ULONG`. -/
def WindowState.start (NUM_PARTITIONS : Int) : WindowState :=
  ⟨1, intToULONG NUM_PARTITIONS⟩

/-- One iteration of the loop `while (TRUE)` (main.c 341-1141) on the window
variables: `entry` tells whether `FindOldestFile` returned a file; if so both
variables are incremented (main.c 359-360), otherwise the program sleeps. -/
def pollStep (s : WindowState) (entry : Bool) : WindowState :=
  if entry then ⟨(s.oldestPartition + 1) % ULONG_SIZE, (s.currentPartition + 1) % ULONG_SIZE⟩
  else s

/-- The window after a sequence of polls. -/
def controllerLoop (NUM_PARTITIONS : Int) (polls : List Bool) : WindowState :=
  polls.foldl pollStep (WindowState.start NUM_PARTITIONS)

/-! ## Purge of the holding directories (utility.c 852-863, main.c 359-373) -/

/-- One item of a shell pattern: the wildcard `*` or a literal character. -/
inductive GlobItem where
  | star
  | lit (c : Char)
deriving DecidableEq

/-- Matching of a file name against a shell pattern: `*` stands for any run
of characters, also the empty one. -/
def globMatch : List GlobItem → List Char → Bool
  | [], s => s.isEmpty
  | .lit c :: ps, s =>
    match s with
    | [] => false
    | d :: t => decide (c = d) && globMatch ps t
  | .star :: ps, s => s.tails.any (globMatch ps)

/-- The file-name part `*_<partition>_*` of the command built by
`sprintf(rmCommand, "rm %s*_%lu_*", directory, partition)` (utility.c 860). -/
def rmPattern (partition : Nat) : List GlobItem :=
  GlobItem.star ::
    ((['_'] ++ Nat.toDigits 10 partition ++ ['_']).map GlobItem.lit ++ [GlobItem.star])

/-- The names of a directory that the shell passes to `rm` for the pattern:
a leading `*` does not match a name that starts with a dot. -/
def rmExpands (partition : Nat) (name : List Char) : Bool :=
  decide (name.head? ≠ some '.') && globMatch (rmPattern partition) name

/-- Function `RemoveNoLongerNeededFiles` (utility.c 852-863) on the list of
the names of the regular files of `directory`: one `rm` per partition. -/
def RemoveNoLongerNeededFiles (directory : List (List Char))
    (firstPartition lastPartition : Nat) : List (List Char) :=
  (window firstPartition lastPartition).foldl
    (fun files partition => files.filter (fun name => !rmExpands partition name))
    directory

/-- The name `<kind>_<partition>_<number>` that `sprintf` builds with
`"%s_%lu_%lu"`-like formats (main.c 129, 261; plads.c 185, 365). -/
def artifactName (kind : List Char) (partition number : Nat) : List Char :=
  kind ++ ['_'] ++ Nat.toDigits 10 partition ++ ['_'] ++ Nat.toDigits 10 number

/-- The kinds of artifacts kept in the holding directories. -/
def artifactKinds : List (List Char) := ["norm".data, "anom".data, "anomInst".data]

/-- The window variables and the file names of the two holding directories. -/
structure Holding where
  window : WindowState
  anomalousFiles : List (List Char)
  normFiles : List (List Char)
deriving DecidableEq

/-- Step 5a of `main` when a file was found (main.c 359-373): both window
variables are incremented, then the files of partition `oldestPartition - 1`
(in `ULONG`) are removed from both directories. -/
def slide (h : Holding) : Holding :=
  ⟨pollStep h.window true,
    RemoveNoLongerNeededFiles h.anomalousFiles
      (((pollStep h.window true).oldestPartition + ULONG_SIZE - 1) % ULONG_SIZE)
      (((pollStep h.window true).oldestPartition + ULONG_SIZE - 1) % ULONG_SIZE),
    RemoveNoLongerNeededFiles h.normFiles
      (((pollStep h.window true).oldestPartition + ULONG_SIZE - 1) % ULONG_SIZE)
      (((pollStep h.window true).oldestPartition + ULONG_SIZE - 1) % ULONG_SIZE)⟩

/-- A holding state with window `[1,2]` and files of partitions 1, 2 and 12. -/
def holdingSmall : Holding :=
  ⟨⟨1, 2⟩, ["anom_1_1".data, "anomInst_1_1".data, "anom_2_1".data, "anom_12_1".data],
    ["norm_1_1".data, "norm_1_2".data, "norm_2_1".data]⟩

/-! ## Intake of the oldest file (`FindOldestFile`, utility.c 60-139) -/

/-- Constant `MAX_TIME_STAMP` of `plads.h`: `LONG_MAX`. -/
def MAX_TIME_STAMP : Int := 2 ^ 63 - 1

/-- One entry returned by `readdir`, with the `st_mtime` that `stat` reports
for it. -/
structure DirEntry where
  d_name : List Char
  st_mtime : Int
deriving DecidableEq

/-- Local variables of `FindOldestFile`. -/
structure OldestState where
  oldestTime : Int
  oldestEntry : Option DirEntry
  oldestFileName : List Char
  atLeastOneFile : Bool
deriving DecidableEq

/-- Body of the loop over `readdir` (utility.c 85-106) for one entry. -/
def findOldestStep (s : OldestState) (entry : DirEntry) : OldestState :=
  if entry.d_name = ['.'] ∨ entry.d_name = ['.', '.'] then s
  else if entry.st_mtime < s.oldestTime then ⟨entry.st_mtime, some entry, entry.d_name, true⟩
  else ⟨s.oldestTime, s.oldestEntry, s.oldestFileName, true⟩

/-- Function `FindOldestFile` (utility.c 60-139) on the entries of the
directory in `readdir` order; `uninitialised` stands for the contents of the
buffer `oldestFileName` at function entry. The result is the name in the
returned entry, `some none` when `NULL` is returned, and `none` when the
function writes through the null pointer `oldestEntry` (utility.c 126). -/
def FindOldestFile (uninitialised : List Char) (listing : List DirEntry) :
    Option (Option (List Char)) :=
  let s := listing.foldl findOldestStep ⟨MAX_TIME_STAMP, none, uninitialised, false⟩
  if s.atLeastOneFile then
    if s.oldestFileName.length > 1 then
      match s.oldestEntry with
      | none => none
      | some _ => some (some s.oldestFileName)
    else some (s.oldestEntry.map DirEntry.d_name)
  else some (s.oldestEntry.map DirEntry.d_name)

/-- The entries other than `.` and `..`. -/
def otherEntries (listing : List DirEntry) : List DirEntry :=
  listing.filter (fun e => !(decide (e.d_name = ['.'] ∨ e.d_name = ['.', '.'])))

/-- A directory that holds one file, last modified at `LONG_MAX`. -/
def listingLast : List DirEntry := [⟨['.'], 5⟩, ⟨['.', '.'], 5⟩, ⟨"g1.g".data, 2 ^ 63 - 1⟩]

/-- A directory with three files; the two oldest have the same time. -/
def listingTie : List DirEntry :=
  [⟨['.'], 1⟩, ⟨"c.g".data, 9⟩, ⟨"a.g".data, 7⟩, ⟨['.', '.'], 1⟩, ⟨"b.g".data, 7⟩]

/-! ## Concrete inputs for the claims on missing files -/

/-- A directory with a hole: `norm_1_1` and `norm_1_3` exist, `norm_1_2` does
not; partition 2 has no file; `norm_3_1` exists. -/
def normHole : NormDir := fun p r =>
  if p = 1 ∧ r = 1 then some ⟨"g1", 3, 1, ["v 1 a"]⟩
  else if p = 1 ∧ r = 3 then some ⟨"g1", 4, 1, ["v 1 a"]⟩
  else if p = 3 ∧ r = 1 then some ⟨"g3", 5, 1, ["v 1 a"]⟩
  else none

/-! ## Anomaly jobs (`ProcessPartitionsForAnomalyDetectionInParallel`, plads.c 582-725) -/

/-- One child process started by the parent: the values given to the miner
with `-norm` and `-partition`, and the graph input file it is run on. -/
structure AnomalyJob where
  bestSubNumber : Nat
  partitionNumber : Nat
  graphInputFileName : String
deriving DecidableEq

/-- Loop over the nodes of the list (plads.c 606-718), threading
`currentPartitionNumber`. The parameter `bestMatches` tells for which files
`norm_p_r` the command `gm bestSub.g norm_p_r` ends with status 0. The result
lists the children in the order in which the parent forks them; `fork` is
taken to succeed. -/
def spawnLoop (bestMatches : Nat × Nat → Bool) :
    List NormativePattern → Nat → List AnomalyJob
  | [], _ => []
  | node :: next, currentPartitionNumber =>
    if currentPartitionNumber ≠ node.partitionNumber ∧
        bestMatches (node.partitionNumber, node.bestSubNumber) = true then
      ⟨node.bestSubNumber, node.partitionNumber, node.graphInputFileName⟩ ::
        spawnLoop bestMatches next node.partitionNumber
    else spawnLoop bestMatches next currentPartitionNumber

/-- Function `ProcessPartitionsForAnomalyDetectionInParallel` (plads.c
582-725) for an allocated list: `currentPartitionNumber` starts at 0. -/
def ProcessPartitionsForAnomalyDetectionInParallel (bestMatches : Nat × Nat → Bool)
    (normativePatternList : List NormativePattern) : List AnomalyJob :=
  spawnLoop bestMatches normativePatternList 0

/-- Node `x` was inserted after node `y` by the scan: a later partition, or
the same partition and a higher rank. -/
def scoredAfter (x y : NormativePattern) : Prop :=
  y.partitionNumber < x.partitionNumber ∨
    (y.partitionNumber = x.partitionNumber ∧ y.bestSubNumber < x.bestSubNumber)

/-- A matcher result in which only `norm_1_1` matches `bestSub.g`. -/
def bestMatchesFirst : Nat × Nat → Bool := fun c => decide (c = (1, 1))

/-- A matcher result in which every file matches `bestSub.g`. -/
def bestMatchesAll : Nat × Nat → Bool := fun _ => true

/-- Two partitions with two ranks each. -/
def normTwoRanks : NormDir := fun p r =>
  if (p = 1 ∨ p = 2) ∧ (r = 1 ∨ r = 2) then some ⟨"g", 2, 1, ["v 1 a", "v 2 b"]⟩ else none

/-- Two partitions whose best patterns differ: `norm_1_1` of size 7 and
`norm_2_1` of size 3. -/
def normDistinct : NormDir := fun p r =>
  if p = 1 ∧ r = 1 then some ⟨"g1", 7, 1, ["v 1 a", "v 2 b", "e 1 2 x"]⟩
  else if p = 2 ∧ r = 1 then some ⟨"g2", 3, 1, ["v 1 c"]⟩
  else none

/-! ## Waiting for the children (`WaitingForProcessesToFinish`, plads.c 732-791) -/

/-- What `waitpid(pid, &status, WNOHANG|WUNTRACED)` returns: `-1`, `0`, the
given `pid`, or another value. -/
inductive WaitResult where
  | error
  | running
  | ended
  | other
deriving DecidableEq

/-- Local state of the waiting loop: `pidInfoList` from its head, the position
of `pidInfoListNode` in it, `numProcessesRunning`, the number of calls of
`waitpid` made so far, and the calls that returned the identifier they were
given, as `(call, identifier)`. -/
structure WaitState where
  pidInfoList : List Nat
  pidInfoListNode : Nat
  numProcessesRunning : Nat
  calls : Nat
  observed : List (Nat × Nat)
deriving DecidableEq

/-- The identifier `pidInfoListNode->pidInfo->PID` of the node the loop is
at. -/
def WaitState.pid (s : WaitState) : Nat := s.pidInfoList.getD s.pidInfoListNode 0

/-- One pass of the body of the waiting loop (plads.c 765-786); `none` when
`waitpid` fails and the program leaves through `exit(EXIT_FAILURE)`. After
`PidInfoListDelete`, which unlinks the first node with the identifier, the
loop reads the `next` field of the node it was at; that field is taken to
hold the value it had, so the loop goes on with the node that followed, and
with the head of the list when there was none. -/
def waitStep (waitpid : Nat → Nat → WaitResult) (s : WaitState) : Option WaitState :=
  match waitpid s.calls s.pid with
  | .error => none
  | .ended =>
    some ⟨s.pidInfoList.erase s.pid,
      if s.pidInfoListNode + 1 < s.pidInfoList.length then s.pidInfoListNode else 0,
      s.numProcessesRunning - 1, s.calls + 1,
      s.observed ++ [(s.calls, s.pid)]⟩
  | _ =>
    some ⟨s.pidInfoList,
      if s.pidInfoListNode + 1 < s.pidInfoList.length then s.pidInfoListNode + 1 else 0,
      s.numProcessesRunning, s.calls + 1, s.observed⟩

/-- The waiting loop `while ((numProcessesRunning > 0) && (pidInfoListNode !=
NULL))` (plads.c 763-787). The node pointer is `NULL` exactly when the list
is empty. The outer `none` means that the loop is still running when the fuel
is used up, the inner `none` that the program has exited. -/
def waitLoop (waitpid : Nat → Nat → WaitResult) : Nat → WaitState → Option (Option WaitState)
  | 0, s =>
    if s.numProcessesRunning = 0 ∨ s.pidInfoList = [] then some (some s) else none
  | fuel + 1, s =>
    if s.numProcessesRunning = 0 ∨ s.pidInfoList = [] then some (some s)
    else
      match waitStep waitpid s with
      | none => some none
      | some s1 => waitLoop waitpid fuel s1

/-- What is left when `WaitingForProcessesToFinish` returns: the calls of
`waitpid` that returned their identifier, the identifiers still on the list
when the loop ended, and the file `pids.txt` (`none`: removed). -/
structure WaitReturn where
  observed : List (Nat × Nat)
  remaining : List Nat
  pidsFile : Option (List Nat)
deriving DecidableEq

/-- Function `WaitingForProcessesToFinish` (plads.c 732-791). The file
`pids.txt` holds the recorded identifiers, one per line; they are inserted at
the head of the list, then the file is removed. A missing file ends the
program. -/
def WaitingForProcessesToFinish (NUM_PARTITIONS : Int) (waitpid : Nat → Nat → WaitResult)
    (fuel : Nat) (pidsFile : Option (List Nat)) : Option (Option WaitReturn) :=
  match pidsFile with
  | none => some none
  | some pids =>
    (waitLoop waitpid fuel ⟨pids.reverse, 0, intToULONG NUM_PARTITIONS, 0, []⟩).map
      (fun r => r.map (fun s => ⟨s.observed, s.pidInfoList, none⟩))

/-- Every child has ended when it is asked for. -/
def waitpidEnded : Nat → Nat → WaitResult := fun _ _ => .ended

/-- Every child is still running at the first two calls and has ended
afterwards. -/
def waitpidLater : Nat → Nat → WaitResult := fun call _ =>
  if call < 2 then .running else .ended

/-! ## Step 5b for the connectedness metric (main.c 432-456) -/

/-- The number that `fprintf` writes for a `double` with the format `%lf`
(utility.c 944): six digits after the decimal point, the nearest such number,
a tie going to the even last digit. -/
def printLf (value : ℚ) : ℚ :=
  let n : Int := ⌊value * 1000000⌋
  let frac : ℚ := value * 1000000 - n
  if frac < 1 / 2 then (n : ℚ) / 1000000
  else if 1 / 2 < frac then ((n + 1 : Int) : ℚ) / 1000000
  else if n % 2 = 0 then (n : ℚ) / 1000000
  else ((n + 1 : Int) : ℚ) / 1000000

/-- Block of the connectedness metric in step 5b (main.c 432-456) for the
measured `valueConnected`: `UpdateGPFile` rolls the value into the series, in
which it stands as `%lf` writes it, then the mean and the standard deviation
are computed from the file. The result is the three variables and the file;
`none` when a call does not complete or a division has no result. -/
def connectedBlock (sqrt : ℚ → ℚ) (NUM_PARTITIONS currentPartition : Nat)
    (valueConnected : ℚ) (file : GPFile) : Option (MetricStats × GPFile) :=
  match UpdateGPFile NUM_PARTITIONS currentPartition (printLf valueConnected) file with
  | none => none
  | some entries =>
    match CalculateMeanFromGPFile (some entries) with
    | none => none
    | some averageGPConnected =>
      match CalculateStandardDeviationFromGPFile sqrt averageGPConnected (some entries) with
      | none => none
      | some stddevGPConnected =>
        some (⟨valueConnected, averageGPConnected, stddevGPConnected⟩, some entries)

/-- The measurements seen by the decider when only the connectedness block
has run. -/
def connectedOnly (s : MetricStats) : Metric → MetricStats :=
  fun m => if m = Metric.connected then s else MetricStats.zero

/-- Steps 5b to 5d for approach 1 with threshold 1: whether the arrival of a
partition with the given connectedness triggers rediscovery. -/
def connectedTriggers (sqrt : ℚ → ℚ) (NUM_PARTITIONS currentPartition : Nat)
    (valueConnected : ℚ) (file : GPFile) : Option Bool :=
  (connectedBlock sqrt NUM_PARTITIONS currentPartition valueConnected file).map
    (fun r => rediscovers ⟨1, 1⟩ (connectedOnly r.1))

/-- Series file of scenario 4 before the fourth partition arrives, `N = 2`:
the bootstrap has appended the values of partitions 1 and 2 and the third
partition has been rolled in; all three values are 250. -/
def seriesScenario4 : GPFile :=
  UpdateGPFile 2 3 (printLf 250) (appendInitial [⟨1, printLf 250⟩, ⟨2, printLf 250⟩])

/-- Loop `while (numPartition <= lastPartition)` of
`CountNumberOfAnomalousInstances` (utility.c 610-626), threading `numPartition`,
`anomSubNumber` and `numAnomSub`, all `ULONG`. A file `anom_p_k` can be opened
exactly when the directory holds it. The result is `none` when the loop is
still running after `fuel` passes. -/
def countLoop (anom : AnomDir) (lastPartition : Nat) : Nat → Nat → Nat → Nat → Option Nat
  | 0, numPartition, _, numAnomSub =>
    if numPartition ≤ lastPartition then none else some numAnomSub
  | fuel + 1, numPartition, anomSubNumber, numAnomSub =>
    if numPartition ≤ lastPartition then
      match anom numPartition anomSubNumber with
      | some _ =>
        countLoop anom lastPartition fuel numPartition ((anomSubNumber + 1) % ULONG_SIZE)
          ((numAnomSub + 1) % ULONG_SIZE)
      | none =>
        countLoop anom lastPartition fuel ((numPartition + 1) % ULONG_SIZE) 1 numAnomSub
    else some numAnomSub

/-- Function `CountNumberOfAnomalousInstances` (utility.c 599-629), run for at
most `fuel` passes of its loop. -/
def CountNumberOfAnomalousInstances (firstPartition lastPartition : Nat) (anom : AnomDir)
    (fuel : Nat) : Option Nat :=
  countLoop anom lastPartition fuel firstPartition 1 0

/-- The number `K_p` of instance files of partition `p` before the first
missing number, for a directory that holds no file with a number above
`bound`. -/
def instancesBeforeGap (anom : AnomDir) (bound p : Nat) : Nat :=
  ((List.range' 1 (bound + 1)).takeWhile (fun k => (anom p k).isSome)).length

/-- Instance files `anom_1_1`, `anom_1_2`, `anom_1_4` and `anom_3_1`. -/
def anomGaps : AnomDir := fun p k =>
  if p = 1 ∧ (k = 1 ∨ k = 2 ∨ k = 4) then some 1
  else if p = 3 ∧ k = 1 then some 1
  else none

/-! ## Graph reader of the miner (`ReadGraph`, graphops.c 786-1075) -/

/-- Modelled from the spec: the character constants `SPACE`, `TAB`,
`NEWLINE` and `CARRIAGERETURN` of the header `gbad.h`, which is not among the
sources; `true` for the four white-space characters of the graph format. -/
def isBlankChar (c : Char) : Bool :=
  decide (c = ' ') || decide (c = Char.ofNat 9) || decide (c = Char.ofNat 13) ||
    decide (c = Char.ofNat 10)

/-- Modelled from the spec: the constant `COMMENT` of the header `gbad.h`,
which is not among the sources; a comment runs from `%` to the end of the
line. -/
def COMMENT : Char := '%'

/-- Modelled from the spec: the constant `DOUBLEQUOTE` of the header
`gbad.h`, which is not among the sources. -/
def DOUBLEQUOTE : Char := '"'

/-- Inner loop `while ((ch != NEWLINE) && (ch != (char)EOF))` of `ReadToken`:
the characters left after the end of the line has been read. -/
def skipLine : List Char → List Char
  | [] => []
  | c :: cs => if c = Char.ofNat 10 then cs else skipLine cs

/-- First loop of `ReadToken` (graphops.c 925-939): white space and comments
are skipped; the result starts with the first character of the token, or is
empty at the end of the file. The flag tells whether a comment is being
skipped. -/
def skipBlanks : Bool → List Char → List Char
  | _, [] => []
  | true, c :: cs => if c = Char.ofNat 10 then skipBlanks false cs else skipBlanks true cs
  | false, c :: cs =>
    if c = COMMENT then skipBlanks true cs
    else if isBlankChar c then skipBlanks false cs
    else c :: cs

/-- Reading of an unquoted token (graphops.c 953-960, 964-976): the token and
the characters left; the character that ends the token is consumed, and so is
the rest of its line when it is the comment character. -/
def readPlain : List Char → List Char × List Char
  | [] => ([], [])
  | c :: cs =>
    if c = COMMENT then ([], skipLine cs)
    else if isBlankChar c then ([], cs)
    else (c :: (readPlain cs).1, (readPlain cs).2)

/-- Reading of a quoted token after its opening quote (graphops.c 942-951,
964-976): the token runs to the closing quote, and one more character is
consumed after it. -/
def readQuoted : List Char → List Char × List Char
  | [] => ([], [])
  | c :: cs =>
    if c = DOUBLEQUOTE then
      ([c], match cs with
        | [] => []
        | c2 :: rest => if c2 = COMMENT then skipLine rest else rest)
    else (c :: (readQuoted cs).1, (readQuoted cs).2)

/-- Function `ReadToken` (graphops.c 919-979): the token, empty at the end of
the file, and the characters left in the file. -/
def ReadToken (fp : List Char) : List Char × List Char :=
  match skipBlanks false fp with
  | [] => ([], [])
  | c :: cs =>
    if c = DOUBLEQUOTE then (c :: (readQuoted cs).1, (readQuoted cs).2)
    else readPlain (c :: cs)

/-- The library function `strtoul(token, &endptr, 10)` followed by the test
`*endptr != '\0'` of `ReadInteger`: `none` when the test rejects the token.
An empty token converts to 0 with `endptr` at its end; a leading `-` negates
in `ULONG`; a number that does not fit gives `ULONG_MAX`. -/
def strtoulChecked (token : List Char) : Option Nat :=
  let body := match token with
    | '-' :: t => t
    | '+' :: t => t
    | t => t
  if token = [] then some 0
  else if body ≠ [] ∧ body.all Char.isDigit = true then
    if ULONG_SIZE ≤ digitsValue body then some (ULONG_SIZE - 1)
    else if token.head? = some '-' then some ((ULONG_SIZE - digitsValue body) % ULONG_SIZE)
    else some (digitsValue body)
  else none

/-- Function `ReadInteger` (graphops.c 887-902): the number and the
characters left; `none` when the program leaves through `exit(1)`. -/
def ReadInteger (fp : List Char) : Option (Nat × List Char) :=
  (strtoulChecked (ReadToken fp).1).map (fun i => (i, (ReadToken fp).2))

/-- An edge as `AddEdge` stores it: the two vertex indices, the label and the
flag `directed`. -/
structure GraphEdge where
  vertex1 : Nat
  vertex2 : Nat
  label : List Char
  directed : Bool
deriving DecidableEq

/-- The graph under construction: the labels of its vertices in the order of
their indices, and its edges. The field `numVertices` of the C structure is
the number of vertices stored. -/
structure MinerGraph where
  vertices : List (List Char)
  edges : List GraphEdge
deriving DecidableEq

/-- The field `graph->numVertices`. -/
def MinerGraph.numVertices (g : MinerGraph) : Nat := g.vertices.length

/-- Function `ReadVertex` (graphops.c 1000-1018) with `vertexOffset = 0`: the
graph and the characters left, `none` when the vertex number is rejected. The
label is kept as the token read by `ReadLabel`. -/
def ReadVertex (graph : MinerGraph) (fp : List Char) : Option (MinerGraph × List Char) :=
  match ReadInteger fp with
  | none => none
  | some (vertexID, fp1) =>
    if vertexID ≠ (graph.numVertices + 1) % ULONG_SIZE then none
    else some (⟨graph.vertices ++ [(ReadToken fp1).1], graph.edges⟩, (ReadToken fp1).2)

/-- Function `ReadEdge` (graphops.c 1040-1075) with `vertexOffset = 0`: the
graph and the characters left, `none` when a vertex number is rejected. The
indices are `ID - 1` in `ULONG`. -/
def ReadEdge (graph : MinerGraph) (fp : List Char) (directed : Bool) :
    Option (MinerGraph × List Char) :=
  match ReadInteger fp with
  | none => none
  | some (sourceVertexID, fp1) =>
    if sourceVertexID > graph.numVertices then none
    else
      match ReadInteger fp1 with
      | none => none
      | some (targetVertexID, fp2) =>
        if targetVertexID > graph.numVertices then none
        else
          some (⟨graph.vertices,
              graph.edges ++ [⟨(sourceVertexID + ULONG_SIZE - 1) % ULONG_SIZE,
                (targetVertexID + ULONG_SIZE - 1) % ULONG_SIZE, (ReadToken fp2).1, directed⟩]⟩,
            (ReadToken fp2).2)

/-- Loop of `ReadGraph` (graphops.c 809-837); every pass reads at least one
character, so a fuel above the number of characters is never used up. -/
def readGraphLoop (directed : Bool) : Nat → MinerGraph → List Char → Option MinerGraph
  | 0, graph, _ => some graph
  | fuel + 1, graph, fp =>
    if (ReadToken fp).1 = [] then some graph
    else if (ReadToken fp).1 = ['v'] then
      match ReadVertex graph (ReadToken fp).2 with
      | none => none
      | some (g, rest) => readGraphLoop directed fuel g rest
    else if (ReadToken fp).1 = ['e'] then
      match ReadEdge graph (ReadToken fp).2 directed with
      | none => none
      | some (g, rest) => readGraphLoop directed fuel g rest
    else if (ReadToken fp).1 = ['u'] then
      match ReadEdge graph (ReadToken fp).2 false with
      | none => none
      | some (g, rest) => readGraphLoop directed fuel g rest
    else if (ReadToken fp).1 = ['d'] then
      match ReadEdge graph (ReadToken fp).2 true with
      | none => none
      | some (g, rest) => readGraphLoop directed fuel g rest
    else none

/-- Function `ReadGraph` (graphops.c 786-841) on the characters of an
existing graph file: the graph, or `none` when the file is rejected with an
error message and `exit(1)`. -/
def ReadGraph (text : List Char) (directed : Bool) : Option MinerGraph :=
  readGraphLoop directed (text.length + 1) ⟨[], []⟩ text

/-- A graph file with one vertex and an edge whose source is numbered 0. -/
def graphEndpointZero : List Char := fileOfLines ["v 1 a", "e 0 1 x"]

/-- Three pattern files whose products are all 0: `norm_1_1` of size 5 with no
instance, `norm_1_2` of size 0 with 3 instances, `norm_2_1` of size 4 with no
instance. -/
def normNoInstances : NormDir := fun p r =>
  if p = 1 ∧ r = 1 then some ⟨"g1", 5, 0, ["v 1 a"]⟩
  else if p = 1 ∧ r = 2 then some ⟨"g1", 0, 3, []⟩
  else if p = 2 ∧ r = 1 then some ⟨"g2", 4, 0, ["v 1 b"]⟩
  else none

/-- A window that starts at partition 5: `anom_5_1` with score `2/5`,
`anom_5_2` and `anom_6_1` with score `1/4`. -/
def anomShifted : AnomDir := fun p k =>
  if p = 5 ∧ k = 1 then some (2 / 5)
  else if (p = 5 ∧ k = 2) ∨ (p = 6 ∧ k = 1) then some (1 / 4)
  else none

end PLADS

/-! # Theorems -/

namespace PLADS

/-! ## Normative ranker: the score of one pattern -/

theorem nextNumBestSubLoop_same (norm : NormDir) (gm : Matcher) (p r : Nat) (l : List Nat)
    (score : Nat) : nextNumBestSubLoop norm gm p r p l score = score := by
  induction l with
  | nil => rfl
  | cons a l ih => simp [nextNumBestSubLoop, ih]

theorem nextNumBestSubLoop_other (norm : NormDir) (gm : Matcher) (p r q : Nat) (h : p ≠ q)
    (l : List Nat) (score : Nat) (hs : score < ULONG_SIZE) :
    nextNumBestSubLoop norm gm p r q l score =
      (score + sizeTimesInstances norm q
        ((l.takeWhile (fun k => (norm q k).isSome)).find? (fun k => gm (p, r) (q, k)))) %
        ULONG_SIZE := by
  induction l with
  | nil => simp [nextNumBestSubLoop, sizeTimesInstances, Nat.mod_eq_of_lt hs]
  | cons a l ih =>
    rw [nextNumBestSubLoop, if_pos h]
    cases hq : norm q a with
    | none => simp [hq, sizeTimesInstances, Nat.mod_eq_of_lt hs]
    | some f =>
      by_cases hm : gm (p, r) (q, a) = true
      · simp [hq, hm, List.takeWhile_cons, List.find?_cons, sizeTimesInstances]
      · simp only [Bool.not_eq_true] at hm
        simp [hq, hm, List.takeWhile_cons, List.find?_cons, ih]

theorem nextNumBestSubLoop_step (norm : NormDir) (gm : Matcher) (M p r q : Nat) (score : Nat)
    (hs : score < ULONG_SIZE) :
    nextNumBestSubLoop norm gm p r q (ranks M) score =
      (score + (if q ≠ p then sizeTimesInstances norm q (contributingRank norm gm M p r q)
        else 0)) % ULONG_SIZE := by
  by_cases h : p = q
  · subst h
    simp [nextNumBestSubLoop_same, Nat.mod_eq_of_lt hs]
  · have h2 : q ≠ p := fun e => h e.symm
    rw [nextNumBestSubLoop_other norm gm p r q h _ _ hs, if_pos h2]
    rfl

theorem sum_map_ite_ne (g : Nat → Nat) (p : Nat) (l : List Nat) :
    (l.map (fun q => if q ≠ p then g q else 0)).sum =
      ((l.filter (fun q => decide (q ≠ p))).map g).sum := by
  induction l with
  | nil => rfl
  | cons a l ih =>
    rw [List.map_cons, List.sum_cons, ih, List.filter_cons]
    by_cases h : a = p
    · simp [h]
    · simp [h]

theorem patternScore_eq (norm : NormDir) (gm : Matcher) (M first last p r : Nat)
    (f : NormFile) :
    patternScore norm gm M first last p r f =
      scoreFormula norm (contributingRank norm gm M p r) first last p f % ULONG_SIZE := by
  have hpos : 0 < ULONG_SIZE := by simp [ULONG_SIZE]
  unfold patternScore nextPartitionLoop
  have key : ∀ (l : List Nat) (s : Nat), s < ULONG_SIZE →
      l.foldl (fun s q => nextNumBestSubLoop norm gm p r q (ranks M) s) s =
        (s + (l.map (fun q => if q ≠ p then
          sizeTimesInstances norm q (contributingRank norm gm M p r q) else 0)).sum) %
          ULONG_SIZE := by
    intro l
    induction l with
    | nil => intro s hs; simp [Nat.mod_eq_of_lt hs]
    | cons a l ih =>
      intro s hs
      rw [List.foldl_cons, nextNumBestSubLoop_step norm gm M p r a s hs,
        ih _ (Nat.mod_lt _ hpos)]
      simp [Nat.add_assoc]
  rw [key _ _ (Nat.mod_lt _ hpos), sum_map_ite_ne]
  simp [scoreFormula]

/-! ## Normative ranker: the list built by the scan -/

theorem numBestSubLoop_list (norm : NormDir) (gm : Matcher) (M first last p : Nat)
    (l : List Nat) (st : RankerState) :
    (numBestSubLoop norm gm M first last p l st).normativePatternList =
      ((l.takeWhile (fun r => (norm p r).isSome)).filterMap
        (scoredPattern norm gm M first last p)).reverse ++ st.normativePatternList := by
  induction l generalizing st with
  | nil => simp [numBestSubLoop]
  | cons a l ih =>
    cases hq : norm p a with
    | none => simp [numBestSubLoop, hq, List.takeWhile_cons]
    | some f =>
      simp only [numBestSubLoop, hq]
      rw [ih]
      split <;>
      simp [List.takeWhile_cons, hq, scoredPattern]

theorem partitionLoop_list (norm : NormDir) (gm : Matcher) (M first last : Nat)
    (st : RankerState) :
    (partitionLoop norm gm M first last st).normativePatternList =
      ((window first last).flatMap (fun p =>
        (reachedRanks norm M p).filterMap (scoredPattern norm gm M first last p))).reverse ++
        st.normativePatternList := by
  unfold partitionLoop
  generalize window first last = w
  induction w generalizing st with
  | nil => simp
  | cons a w ih =>
    rw [List.foldl_cons, ih, numBestSubLoop_list]
    simp [reachedRanks, List.flatMap_cons]

theorem mem_partitionLoop_list (norm : NormDir) (gm : Matcher) (M first last : Nat)
    (e : NormativePattern) :
    e ∈ (partitionLoop norm gm M first last (RankerState.init [])).normativePatternList ↔
      ∃ p ∈ window first last, ∃ r ∈ reachedRanks norm M p,
        scoredPattern norm gm M first last p r = some e := by
  rw [partitionLoop_list]
  simp [RankerState.init, List.mem_flatMap, List.mem_filterMap]

theorem reachedRanks_isSome (norm : NormDir) (M p r : Nat) (h : r ∈ reachedRanks norm M p) :
    ∃ f, norm p r = some f := by
  have := List.mem_takeWhile_imp h
  exact Option.isSome_iff_exists.mp this

/-- C1 (amended): every pattern scored by the scan of `FindBestNormativePattern`
is a `(p, r)` with `p` in the window and `norm_p_1 .. norm_p_r` all present, and
its score is, modulo `2 ^ 64`, `size * numInstances` of its own file plus, for
every other partition `q` of the window, `size * numInstances` of `norm_q_k`
where `k` is the smallest matching rank among the ranks of `q` that precede the
first missing file of `q`; conversely every such `(p, r)` is scored. -/
theorem FindBestNormativePattern_scores (norm : NormDir) (gm : Matcher)
    (M firstPartition lastPartition : Nat) :
    (∀ e ∈ (partitionLoop norm gm M firstPartition lastPartition
          (RankerState.init [])).normativePatternList,
        e.partitionNumber ∈ window firstPartition lastPartition ∧
        e.bestSubNumber ∈ reachedRanks norm M e.partitionNumber ∧
        ∃ f, norm e.partitionNumber e.bestSubNumber = some f ∧
          e.score =
            scoreFormula norm (contributingRank norm gm M e.partitionNumber e.bestSubNumber)
              firstPartition lastPartition e.partitionNumber f % ULONG_SIZE) ∧
    (∀ p ∈ window firstPartition lastPartition, ∀ r ∈ reachedRanks norm M p,
        ∃ e ∈ (partitionLoop norm gm M firstPartition lastPartition
          (RankerState.init [])).normativePatternList,
          e.partitionNumber = p ∧ e.bestSubNumber = r) := by
  constructor
  · intro e he
    obtain ⟨p, hp, r, hr, hs⟩ := (mem_partitionLoop_list norm gm M _ _ e).mp he
    obtain ⟨f, hf⟩ := reachedRanks_isSome norm M p r hr
    simp only [scoredPattern, hf, Option.map_some', Option.some.injEq] at hs
    subst hs
    exact ⟨hp, hr, f, hf, patternScore_eq norm gm M _ _ p r f⟩
  · intro p hp r hr
    obtain ⟨f, hf⟩ := reachedRanks_isSome norm M p r hr
    refine ⟨⟨p, r, patternScore norm gm M firstPartition lastPartition p r f,
      f.graphInputFileName⟩, ?_, rfl, rfl⟩
    exact (mem_partitionLoop_list norm gm M _ _ _).mpr ⟨p, hp, r, hr, by simp [scoredPattern, hf]⟩

/-- Witness of C1 (amended) on scenario 1: `norm_2_1` is scored with
`7 * 1 + 7 * 1`. -/
theorem FindBestNormativePattern_scores_witness :
    (⟨2, 1, 14, "g"⟩ : NormativePattern).partitionNumber ∈ window 1 2 ∧
    (⟨2, 1, 14, "g"⟩ : NormativePattern).bestSubNumber ∈ reachedRanks normScenario1 1 2 ∧
    ∃ f, normScenario1 2 1 = some f ∧
      (⟨2, 1, 14, "g"⟩ : NormativePattern).score =
        scoreFormula normScenario1 (contributingRank normScenario1 gmAll 1 2 1) 1 2 2 f %
          ULONG_SIZE :=
  (FindBestNormativePattern_scores normScenario1 gmAll 1 1 2).1 ⟨2, 1, 14, "g"⟩ (by decide)

/-- C1 (as stated) fails on a directory with a gap: with `norm_1_1` and
`norm_2_2` present, `norm_2_1` missing and a matcher that accepts every pair,
`(1, 1)` is the only scored pattern and its score is 3, while the formula with
"the smallest rank whose file exists and matches" gives `3 + 4 = 7`. -/
theorem FindBestNormativePattern_scores_gap :
    (partitionLoop normGap gmAll 2 1 2 (RankerState.init [])).normativePatternList =
        [⟨1, 1, 3, "g1"⟩] ∧
      normGap 1 1 = some ⟨"g1", 3, 1, ["v 1 a"]⟩ ∧
      scoreFormula normGap (specContributingRank normGap gmAll 2 1 1) 1 2 1
        ⟨"g1", 3, 1, ["v 1 a"]⟩ % ULONG_SIZE = 7 := by
  decide

/-- C2, evaluated: on scenario 1 (`N = 2`, `M = 1`, matching `norm_1_1` and
`norm_2_1` of size 7 with 1 instance) the function elects `(1, 1)`, returns 14
and writes the pattern without its header lines; on a window whose only
pattern has size 0 the scan finds a pattern, the maximum stays 0, no file name
is ever stored and the function does not return. -/
theorem FindBestNormativePattern_zero_score :
    FindBestNormativePattern normScenario1 gmAll 1 1 2 [] =
        some ⟨14, [⟨2, 1, 14, "g"⟩, ⟨1, 1, 14, "g"⟩], some (1, 1),
          some ["v 1 a", "v 2 b", "v 3 c", "v 4 d", "e 1 2 x", "e 2 3 x", "e 3 4 x"]⟩ ∧
      partitionLoop normZero gmAll 1 1 1 (RankerState.init []) =
        ⟨0, none, true, [⟨1, 1, 0, "g"⟩]⟩ ∧
      FindBestNormativePattern normZero gmAll 1 1 1 [] = none := by
  decide

/-! ## Normative ranker: the election -/

theorem numBestSubLoop_eq_foldl (norm : NormDir) (gm : Matcher) (M first last p : Nat)
    (l : List Nat) (st : RankerState) :
    numBestSubLoop norm gm M first last p l st =
      ((l.takeWhile (fun r => (norm p r).isSome)).filterMap
        (scoredPattern norm gm M first last p)).foldl electStep st := by
  induction l generalizing st with
  | nil => simp [numBestSubLoop]
  | cons a l ih =>
    cases hq : norm p a with
    | none => simp [numBestSubLoop, hq, List.takeWhile_cons]
    | some f =>
      simp only [numBestSubLoop, hq]
      rw [ih]
      simp only [List.takeWhile_cons, hq, Option.isSome_some, if_true, List.filterMap_cons,
        scoredPattern, Option.map_some', List.foldl_cons]
      congr 1

theorem partitionLoop_eq_foldl (norm : NormDir) (gm : Matcher) (M first last : Nat)
    (st : RankerState) :
    partitionLoop norm gm M first last st =
      (scoredPatterns norm gm M first last).foldl electStep st := by
  unfold partitionLoop scoredPatterns
  generalize window first last = w
  induction w generalizing st with
  | nil => rfl
  | cons a w ih =>
    rw [List.foldl_cons, ih, numBestSubLoop_eq_foldl, List.flatMap_cons, List.foldl_append]
    rfl

theorem electStep_maxScore_ge (st : RankerState) (e : NormativePattern) :
    st.maxScore ≤ (electStep st e).maxScore ∧ e.score ≤ (electStep st e).maxScore := by
  unfold electStep
  split
  · exact ⟨by simp only; omega, le_refl _⟩
  · exact ⟨le_refl _, by simp only; omega⟩

theorem foldl_electStep_ge (es : List NormativePattern) (st : RankerState) :
    st.maxScore ≤ (es.foldl electStep st).maxScore ∧
      ∀ e ∈ es, e.score ≤ (es.foldl electStep st).maxScore := by
  induction es generalizing st with
  | nil => exact ⟨le_refl _, fun _ h => by cases h⟩
  | cons a es ih =>
    rw [List.foldl_cons]
    have h1 := electStep_maxScore_ge st a
    have h2 := ih (electStep st a)
    refine ⟨le_trans h1.1 h2.1, ?_⟩
    intro e he
    rcases List.mem_cons.mp he with rfl | he
    · exact le_trans h1.2 h2.1
    · exact h2.2 e he

theorem foldl_electStep_elected (es : List NormativePattern) (st : RankerState) :
    ((es.foldl electStep st).maxScore = st.maxScore ∧
        (es.foldl electStep st).maxScoreFileName = st.maxScoreFileName) ∨
      ∃ l1 e l2, es = l1 ++ e :: l2 ∧ e.score = (es.foldl electStep st).maxScore ∧
        (es.foldl electStep st).maxScoreFileName = some (e.partitionNumber, e.bestSubNumber) ∧
        st.maxScore < e.score ∧ ∀ x ∈ l1, x.score < e.score := by
  induction es generalizing st with
  | nil => exact Or.inl ⟨rfl, rfl⟩
  | cons a es ih =>
    rw [List.foldl_cons]
    have hge := electStep_maxScore_ge st a
    rcases ih (electStep st a) with ⟨h1, h2⟩ | ⟨l1, e, l2, hsplit, hscore, hname, hlt, hbefore⟩
    · by_cases hgt : a.score > st.maxScore
      · right
        refine ⟨[], a, es, rfl, ?_, ?_, hgt, fun _ h => by cases h⟩
        · rw [h1]; simp [electStep, hgt]
        · rw [h2]; simp [electStep, hgt]
      · left
        constructor
        · rw [h1]; simp [electStep, hgt]
        · rw [h2]; simp [electStep, hgt]
    · right
      refine ⟨a :: l1, e, l2, by rw [hsplit]; rfl, hscore, hname, lt_of_le_of_lt hge.1 hlt, ?_⟩
      intro x hx
      rcases List.mem_cons.mp hx with rfl | hx
      · exact lt_of_le_of_lt hge.2 hlt
      · exact hbefore x hx

theorem foldl_electStep_exists (es : List NormativePattern) (st : RankerState) (h : es ≠ []) :
    (es.foldl electStep st).normativePatternExists = true := by
  induction es generalizing st with
  | nil => exact absurd rfl h
  | cons a es ih =>
    rw [List.foldl_cons]
    by_cases hes : es = []
    · subst hes
      simp only [List.foldl_nil, electStep]
      split <;> rfl
    · exact ih _ hes

theorem mem_scoredPatterns (norm : NormDir) (gm : Matcher) (M first last : Nat)
    (e : NormativePattern) (he : e ∈ scoredPatterns norm gm M first last) :
    ∃ f, norm e.partitionNumber e.bestSubNumber = some f ∧
      e.graphInputFileName = f.graphInputFileName := by
  simp only [scoredPatterns, List.mem_flatMap, List.mem_filterMap] at he
  obtain ⟨p, _, r, _, hs⟩ := he
  cases hf : norm p r with
  | none => simp [scoredPattern, hf] at hs
  | some f =>
    simp only [scoredPattern, hf, Option.map_some', Option.some.injEq] at hs
    subst hs
    exact ⟨f, hf, rfl⟩

/-- Election when some scored pattern has a positive score: the function
returns, the returned score is the maximum score, the elected pattern is the
first one in scan order that attains it, and `bestSub.g` receives its graph
lines (the file without its two header lines). -/
theorem FindBestNormativePattern_elects (norm : NormDir) (gm : Matcher)
    (M firstPartition lastPartition : Nat)
    (hpos : ∃ e ∈ scoredPatterns norm gm M firstPartition lastPartition, 0 < e.score) :
    ∃ res l1 e l2 f,
      FindBestNormativePattern norm gm M firstPartition lastPartition [] = some res ∧
      scoredPatterns norm gm M firstPartition lastPartition = l1 ++ e :: l2 ∧
      norm e.partitionNumber e.bestSubNumber = some f ∧
      res.maxScore = e.score ∧
      res.elected = some (e.partitionNumber, e.bestSubNumber) ∧
      res.bestSub = some f.graph ∧
      (∀ x ∈ l1, x.score < e.score) ∧ (∀ x ∈ l2, x.score ≤ e.score) := by
  obtain ⟨e0, he0, hpos0⟩ := hpos
  have hne : scoredPatterns norm gm M firstPartition lastPartition ≠ [] := by
    intro h
    rw [h] at he0
    cases he0
  have hge := foldl_electStep_ge (scoredPatterns norm gm M firstPartition lastPartition)
    (RankerState.init [])
  have hex := foldl_electStep_exists (scoredPatterns norm gm M firstPartition lastPartition)
    (RankerState.init []) hne
  rcases foldl_electStep_elected (scoredPatterns norm gm M firstPartition lastPartition)
    (RankerState.init []) with ⟨h1, _⟩ | ⟨l1, e, l2, hsplit, hscore, hname, _, hbefore⟩
  · have := hge.2 e0 he0
    rw [h1] at this
    simp only [RankerState.init] at this
    omega
  · have hmem : e ∈ scoredPatterns norm gm M firstPartition lastPartition := by
      rw [hsplit]
      exact List.mem_append_right _ (List.mem_cons_self _ _)
    obtain ⟨f, hf, _⟩ := mem_scoredPatterns norm gm M firstPartition lastPartition e hmem
    refine ⟨⟨((scoredPatterns norm gm M firstPartition lastPartition).foldl electStep
        (RankerState.init [])).maxScore,
      ((scoredPatterns norm gm M firstPartition lastPartition).foldl electStep
        (RankerState.init [])).normativePatternList,
      some (e.partitionNumber, e.bestSubNumber), some (f.lines.drop 2)⟩,
      l1, e, l2, f, ?_, hsplit, hf, hscore.symm, rfl, rfl, hbefore, ?_⟩
    · simp only [FindBestNormativePattern, partitionLoop_eq_foldl, hex, if_true, hname, hf]
    · intro x hx
      rw [hscore]
      apply hge.2
      rw [hsplit]
      exact List.mem_append_right _ (List.mem_cons_of_mem _ hx)

/-! ## Anomaly ranker: the aggregated score of one instance -/

theorem foldl_add_filterMap {α : Type} (g : α → Option ℚ) (l : List α) (s : ℚ) :
    l.foldl (fun acc x => match g x with | some v => acc + v | none => acc) s =
      s + (l.filterMap g).sum := by
  induction l generalizing s with
  | nil => simp
  | cons a l ih =>
    rw [List.foldl_cons, ih]
    cases h : g a with
    | none => simp [List.filterMap_cons, h]
    | some v => simp [List.filterMap_cons, h, add_assoc]

theorem nextNumAnomSubLoop_eq (anom : AnomDir) (gm : Matcher)
    (first numAnom i k q : Nat) (s : ℚ) :
    nextNumAnomSubLoop anom gm first numAnom i k q s =
      s + (((List.range' 1 numAnom).map (fun j => (q, j))).filterMap
        (fun c => if c ≠ (i, k) then matchedScore anom gm first i k c else none)).sum := by
  unfold nextNumAnomSubLoop
  rw [List.filterMap_map, ← foldl_add_filterMap]
  congr 1
  funext acc j
  by_cases h : i ≠ q ∨ k ≠ j
  · have h2 : (q, j) ≠ (i, k) := by
      intro e
      simp only [Prod.mk.injEq] at e
      rcases h with h | h
      · exact h e.1.symm
      · exact h e.2.symm
    simp only [if_pos h, Function.comp, if_pos h2, matchedScore]
    cases anom (q + (first - 1)) j with
    | none => rfl
    | some v => by_cases hm : gm (i + (first - 1), k) (q + (first - 1), j) = true <;> simp [hm]
  · have h2 : (q, j) = (i, k) := by
      simp only [not_or, not_not] at h
      simp [h.1, h.2]
    simp [if_neg h, Function.comp, h2]

theorem nextAnomPartitionLoop_eq (anom : AnomDir) (gm : Matcher)
    (N first numAnom i k : Nat) (own : ℚ) :
    nextAnomPartitionLoop anom gm N first numAnom i k own =
      aggregatedScore anom gm N first numAnom i k own := by
  unfold nextAnomPartitionLoop aggregatedScore anomCells
  generalize List.range' 1 N = ps
  have key : ∀ (s : ℚ), ps.foldl
      (fun s q => nextNumAnomSubLoop anom gm first numAnom i k q s) s =
      s + ((ps.flatMap (fun q => (List.range' 1 numAnom).map (fun j => (q, j)))).filterMap
        (fun c => if c ≠ (i, k) then matchedScore anom gm first i k c else none)).sum := by
    induction ps with
    | nil => intro s; simp
    | cons a ps ih =>
      intro s
      rw [List.foldl_cons, ih, nextNumAnomSubLoop_eq]
      simp [List.flatMap_cons, List.filterMap_append, add_assoc]
  rw [key]
  congr 2
  generalize ps.flatMap (fun q => (List.range' 1 numAnom).map (fun j => (q, j))) = cs
  induction cs with
  | nil => rfl
  | cons c cs ih =>
    simp only [ne_eq, ite_not, decide_not] at ih ⊢
    by_cases h : c = (i, k)
    · simp [List.filterMap_cons, List.filter_cons, h, ih]
    · simp [List.filterMap_cons, List.filter_cons, h, ih]

/-! ## Anomaly ranker: the sweep over the cells of the window -/

theorem foldl_single {β : Type} (g : β → β) (k : Nat) (l : List Nat) (hl : l.Nodup) (acc : β) :
    l.foldl (fun b a => if a = k then g b else b) acc = if k ∈ l then g acc else acc := by
  induction l generalizing acc with
  | nil => simp
  | cons a l ih =>
    have hnd := List.nodup_cons.mp hl
    rw [List.foldl_cons, ih hnd.2]
    by_cases h : a = k
    · subst h
      simp [hnd.1]
    · have h2 : ¬ k = a := fun e => h e.symm
      simp [h, h2]

theorem createMostAnomalousSubstructureList_single (N first numAnom i k : Nat) (m : ℚ)
    (l : List AnomalousSubstructure) :
    createMostAnomalousSubstructureList (anomSubsSoFar i k) N first numAnom m l =
      if i ∈ List.range' 1 N ∧ k ∈ List.range' 1 numAnom then ⟨i + (first - 1), k, m⟩ :: l
      else l := by
  unfold createMostAnomalousSubstructureList
  have inner : ∀ (acc : List AnomalousSubstructure) (q : Nat),
      (List.range' 1 numAnom).foldl
        (fun l2 j => if anomSubsSoFar i k q j then ⟨q + (first - 1), j, m⟩ :: l2 else l2) acc =
      if q = i then
        (if k ∈ List.range' 1 numAnom then ⟨i + (first - 1), k, m⟩ :: acc else acc)
      else acc := by
    intro acc q
    by_cases hq : q = i
    · subst hq
      rw [if_pos rfl]
      have hs := foldl_single (fun a => (⟨q + (first - 1), k, m⟩ : AnomalousSubstructure) :: a)
        k _ (List.nodup_range' 1 numAnom) acc
      rw [← hs]
      congr 1
      funext l2 j
      by_cases hj : j = k
      · simp [anomSubsSoFar, hj]
      · simp [anomSubsSoFar, hj]
    · rw [if_neg hq]
      have : (fun (l2 : List AnomalousSubstructure) (j : Nat) =>
          if anomSubsSoFar i k q j then ⟨q + (first - 1), j, m⟩ :: l2 else l2) =
          fun l2 _ => l2 := by
        funext l2 j
        simp [anomSubsSoFar, hq]
      rw [this]
      induction (List.range' 1 numAnom) generalizing acc with
      | nil => rfl
      | cons a t ih => exact ih acc
  have outer := foldl_single
    (fun acc => if k ∈ List.range' 1 numAnom then
      (⟨i + (first - 1), k, m⟩ : AnomalousSubstructure) :: acc else acc)
    i _ (List.nodup_range' 1 N) l
  have hfun : (fun (l1 : List AnomalousSubstructure) (q : Nat) =>
      (List.range' 1 numAnom).foldl
        (fun l2 j => if anomSubsSoFar i k q j then ⟨q + (first - 1), j, m⟩ :: l2 else l2) l1) =
      fun l1 q => if q = i then
        (fun acc => if k ∈ List.range' 1 numAnom then
          (⟨i + (first - 1), k, m⟩ : AnomalousSubstructure) :: acc else acc) l1
        else l1 := by
    funext l1 q
    exact inner l1 q
  rw [hfun, outer]
  by_cases h1 : i ∈ List.range' 1 N <;> by_cases h2 : k ∈ List.range' 1 numAnom <;> simp [h1, h2]

theorem anomStep_eq_sweepStep (anom : AnomDir) (gm : Matcher) (N first numAnom : Nat)
    (st : AnomState) (c : Nat × Nat) (hc : c ∈ anomCells N numAnom) :
    anomStep anom gm N first numAnom c.1 st c.2 = sweepStep anom gm N first numAnom st c := by
  have hmem : c.1 ∈ List.range' 1 N ∧ c.2 ∈ List.range' 1 numAnom := by
    simp only [anomCells, List.mem_flatMap, List.mem_map] at hc
    obtain ⟨i, hi, j, hj, rfl⟩ := hc
    exact ⟨hi, hj⟩
  unfold anomStep sweepStep cellScore
  cases h : anom (c.1 + (first - 1)) c.2 with
  | none => rfl
  | some own =>
    simp only [Option.map_some', nextAnomPartitionLoop_eq,
      createMostAnomalousSubstructureList_single, if_pos hmem]
    split <;> rfl

theorem anomSweep_eq_foldl (anom : AnomDir) (gm : Matcher) (N first numAnom : Nat)
    (st : AnomState) :
    anomSweep anom gm N first numAnom st =
      (anomCells N numAnom).foldl (fun s c => anomStep anom gm N first numAnom c.1 s c.2) st := by
  unfold anomSweep anomCells
  generalize List.range' 1 N = ps
  induction ps generalizing st with
  | nil => rfl
  | cons a ps ih =>
    rw [List.foldl_cons, ih, List.flatMap_cons, List.foldl_append, List.foldl_map]

theorem foldl_congr_mem {α β : Type} (f g : β → α → β) (l : List α)
    (h : ∀ b, ∀ a ∈ l, f b a = g b a) (b : β) : l.foldl f b = l.foldl g b := by
  induction l generalizing b with
  | nil => rfl
  | cons a l ih =>
    rw [List.foldl_cons, List.foldl_cons, h b a (List.mem_cons_self a l)]
    exact ih (fun b x hx => h b x (List.mem_cons_of_mem a hx)) _

theorem anomSweep_eq_sweepStep (anom : AnomDir) (gm : Matcher) (N first numAnom : Nat)
    (st : AnomState) :
    anomSweep anom gm N first numAnom st =
      (anomCells N numAnom).foldl (sweepStep anom gm N first numAnom) st := by
  rw [anomSweep_eq_foldl]
  exact foldl_congr_mem _ _ _ (fun b c hc => anomStep_eq_sweepStep anom gm N first numAnom b c hc) st

/-! ## Anomaly ranker: invariants of the sweep -/

section Sweep

variable (anom : AnomDir) (gm : Matcher) (N first numAnom : Nat)

theorem sweepStep_none (st : AnomState) (c : Nat × Nat)
    (h : cellScore anom gm N first numAnom c = none) :
    sweepStep anom gm N first numAnom st c = st := by
  simp [sweepStep, h]

theorem sweepStep_min_le (st : AnomState) (c : Nat × Nat) :
    (sweepStep anom gm N first numAnom st c).minScore ≤ st.minScore := by
  unfold sweepStep
  cases cellScore anom gm N first numAnom c with
  | none => exact le_refl _
  | some a =>
    show (if a ≤ st.minScore then a else st.minScore) ≤ st.minScore
    split
    · assumption
    · exact le_refl _

theorem sweepStep_min_le_cell (st : AnomState) (c : Nat × Nat) (a : ℚ)
    (h : cellScore anom gm N first numAnom c = some a) :
    (sweepStep anom gm N first numAnom st c).minScore ≤ a := by
  unfold sweepStep
  rw [h]
  show (if a ≤ st.minScore then a else st.minScore) ≤ a
  split
  · exact le_refl _
  · exact le_of_lt (lt_of_not_le ‹_›)

theorem sweepStep_min_cases (st : AnomState) (c : Nat × Nat) :
    (sweepStep anom gm N first numAnom st c).minScore = st.minScore ∨
      cellScore anom gm N first numAnom c =
        some (sweepStep anom gm N first numAnom st c).minScore := by
  unfold sweepStep
  cases h : cellScore anom gm N first numAnom c with
  | none => exact Or.inl rfl
  | some a =>
    show (if a ≤ st.minScore then a else st.minScore) = st.minScore ∨
      some a = some (if a ≤ st.minScore then a else st.minScore)
    split
    · exact Or.inr rfl
    · exact Or.inl rfl

theorem sweep_min_le_init (cs : List (Nat × Nat)) (st : AnomState) :
    (cs.foldl (sweepStep anom gm N first numAnom) st).minScore ≤ st.minScore := by
  induction cs generalizing st with
  | nil => exact le_refl _
  | cons c cs ih =>
    rw [List.foldl_cons]
    exact le_trans (ih _) (sweepStep_min_le anom gm N first numAnom st c)

theorem sweep_min_le_cell (cs : List (Nat × Nat)) (st : AnomState) (c : Nat × Nat) (a : ℚ)
    (hc : c ∈ cs) (h : cellScore anom gm N first numAnom c = some a) :
    (cs.foldl (sweepStep anom gm N first numAnom) st).minScore ≤ a := by
  induction cs generalizing st with
  | nil => cases hc
  | cons d cs ih =>
    rw [List.foldl_cons]
    rcases List.mem_cons.mp hc with rfl | hc
    · exact le_trans (sweep_min_le_init anom gm N first numAnom cs _)
        (sweepStep_min_le_cell anom gm N first numAnom st c a h)
    · exact ih _ hc

theorem sweep_min_attained (cs : List (Nat × Nat)) (st : AnomState) :
    (cs.foldl (sweepStep anom gm N first numAnom) st).minScore = st.minScore ∨
      ∃ c ∈ cs, cellScore anom gm N first numAnom c =
        some (cs.foldl (sweepStep anom gm N first numAnom) st).minScore := by
  induction cs generalizing st with
  | nil => exact Or.inl rfl
  | cons d cs ih =>
    rw [List.foldl_cons]
    rcases ih (sweepStep anom gm N first numAnom st d) with h | ⟨c, hc, h⟩
    · rcases sweepStep_min_cases anom gm N first numAnom st d with h2 | h2
      · exact Or.inl (h.trans h2)
      · exact Or.inr ⟨d, List.mem_cons_self d cs, by rw [h]; exact h2⟩
    · exact Or.inr ⟨c, List.mem_cons_of_mem d hc, h⟩

theorem sweep_no_instance (cs : List (Nat × Nat)) (st : AnomState)
    (h : ∀ c ∈ cs, cellScore anom gm N first numAnom c = none) :
    cs.foldl (sweepStep anom gm N first numAnom) st = st := by
  induction cs generalizing st with
  | nil => rfl
  | cons d cs ih =>
    rw [List.foldl_cons, sweepStep_none anom gm N first numAnom st d
      (h d (List.mem_cons_self d cs))]
    exact ih st (fun c hc => h c (List.mem_cons_of_mem d hc))

theorem sweepStep_anomScore_other (st : AnomState) (c d : Nat × Nat) (h : d ≠ c) :
    (sweepStep anom gm N first numAnom st c).anomScore d.1 d.2 = st.anomScore d.1 d.2 := by
  unfold sweepStep
  cases cellScore anom gm N first numAnom c with
  | none => rfl
  | some a =>
    have : ¬ (d.1 = c.1 ∧ d.2 = c.2) := fun e => h (Prod.ext e.1 e.2)
    show (if d.1 = c.1 ∧ d.2 = c.2 then a else st.anomScore d.1 d.2) = _
    rw [if_neg this]

theorem sweepStep_anomScore_self (st : AnomState) (c : Nat × Nat) (a : ℚ)
    (h : cellScore anom gm N first numAnom c = some a) :
    (sweepStep anom gm N first numAnom st c).anomScore c.1 c.2 = a := by
  unfold sweepStep
  rw [h]
  show (if c.1 = c.1 ∧ c.2 = c.2 then a else st.anomScore c.1 c.2) = a
  rw [if_pos ⟨rfl, rfl⟩]

theorem sweep_anomScore_not_mem (cs : List (Nat × Nat)) (st : AnomState) (d : Nat × Nat)
    (h : d ∉ cs) :
    (cs.foldl (sweepStep anom gm N first numAnom) st).anomScore d.1 d.2 =
      st.anomScore d.1 d.2 := by
  induction cs generalizing st with
  | nil => rfl
  | cons c cs ih =>
    rw [List.foldl_cons, ih _ (fun hd => h (List.mem_cons_of_mem c hd))]
    exact sweepStep_anomScore_other anom gm N first numAnom st c d
      (fun e => h (e ▸ List.mem_cons_self c cs))

theorem sweep_anomScore (cs : List (Nat × Nat)) (st : AnomState) (c : Nat × Nat) (a : ℚ)
    (hc : c ∈ cs) (h : cellScore anom gm N first numAnom c = some a) :
    (cs.foldl (sweepStep anom gm N first numAnom) st).anomScore c.1 c.2 = a := by
  induction cs generalizing st with
  | nil => cases hc
  | cons d cs ih =>
    rw [List.foldl_cons]
    by_cases hmem : c ∈ cs
    · exact ih _ hmem
    · rcases List.mem_cons.mp hc with rfl | hc2
      · rw [sweep_anomScore_not_mem anom gm N first numAnom cs _ c hmem]
        exact sweepStep_anomScore_self anom gm N first numAnom st c a h
      · exact absurd hc2 hmem

theorem sweepStep_list_sub (st : AnomState) (c : Nat × Nat) (e : AnomalousSubstructure)
    (he : e ∈ (sweepStep anom gm N first numAnom st c).mostAnomalousSubstructureList) :
    e ∈ st.mostAnomalousSubstructureList ∨
      ∃ a, cellScore anom gm N first numAnom c = some a ∧
        a ≤ st.minScore ∧ e = ⟨c.1 + (first - 1), c.2, a⟩ := by
  unfold sweepStep at he
  cases h : cellScore anom gm N first numAnom c with
  | none => rw [h] at he; exact Or.inl he
  | some a =>
    rw [h] at he
    by_cases hle : a ≤ st.minScore
    · have he2 : e ∈ (⟨c.1 + (first - 1), c.2, a⟩ : AnomalousSubstructure) ::
          st.mostAnomalousSubstructureList := by simpa [hle] using he
      rcases List.mem_cons.mp he2 with rfl | h3
      · exact Or.inr ⟨a, rfl, hle, rfl⟩
      · exact Or.inl h3
    · have he2 : e ∈ st.mostAnomalousSubstructureList := by simpa [hle] using he
      exact Or.inl he2

theorem sweepStep_list_mono (st : AnomState) (c : Nat × Nat) (e : AnomalousSubstructure)
    (he : e ∈ st.mostAnomalousSubstructureList) :
    e ∈ (sweepStep anom gm N first numAnom st c).mostAnomalousSubstructureList := by
  unfold sweepStep
  cases cellScore anom gm N first numAnom c with
  | none => exact he
  | some a =>
    show e ∈ (if a ≤ st.minScore then
      (⟨c.1 + (first - 1), c.2, a⟩ : AnomalousSubstructure) :: st.mostAnomalousSubstructureList
      else st.mostAnomalousSubstructureList)
    split
    · exact List.mem_cons_of_mem _ he
    · exact he

theorem sweepStep_list_record (st : AnomState) (c : Nat × Nat) (a : ℚ)
    (h : cellScore anom gm N first numAnom c = some a) (hle : a ≤ st.minScore) :
    (⟨c.1 + (first - 1), c.2, a⟩ : AnomalousSubstructure) ∈
      (sweepStep anom gm N first numAnom st c).mostAnomalousSubstructureList := by
  unfold sweepStep
  rw [h]
  show _ ∈ (if a ≤ st.minScore then
      (⟨c.1 + (first - 1), c.2, a⟩ : AnomalousSubstructure) :: st.mostAnomalousSubstructureList
      else st.mostAnomalousSubstructureList)
  rw [if_pos hle]
  exact List.mem_cons_self _ _

theorem sweep_list_sub (cs : List (Nat × Nat)) (st : AnomState) (e : AnomalousSubstructure)
    (he : e ∈ (cs.foldl (sweepStep anom gm N first numAnom) st).mostAnomalousSubstructureList) :
    e ∈ st.mostAnomalousSubstructureList ∨
      ∃ c ∈ cs, ∃ a, cellScore anom gm N first numAnom c = some a ∧
        e = ⟨c.1 + (first - 1), c.2, a⟩ := by
  induction cs generalizing st with
  | nil => exact Or.inl he
  | cons d cs ih =>
    rw [List.foldl_cons] at he
    rcases ih _ he with h | ⟨c, hc, a, ha, rfl⟩
    · rcases sweepStep_list_sub anom gm N first numAnom st d e h with h2 | ⟨a, ha, _, rfl⟩
      · exact Or.inl h2
      · exact Or.inr ⟨d, List.mem_cons_self d cs, a, ha, rfl⟩
    · exact Or.inr ⟨c, List.mem_cons_of_mem d hc, a, ha, rfl⟩

theorem sweep_list_mono (cs : List (Nat × Nat)) (st : AnomState) (e : AnomalousSubstructure)
    (he : e ∈ st.mostAnomalousSubstructureList) :
    e ∈ (cs.foldl (sweepStep anom gm N first numAnom) st).mostAnomalousSubstructureList := by
  induction cs generalizing st with
  | nil => exact he
  | cons d cs ih =>
    rw [List.foldl_cons]
    exact ih _ (sweepStep_list_mono anom gm N first numAnom st d e he)

theorem sweep_list_record (cs1 cs2 : List (Nat × Nat)) (st : AnomState) (c : Nat × Nat) (a : ℚ)
    (h : cellScore anom gm N first numAnom c = some a) (hle : a ≤ st.minScore)
    (hbefore : ∀ d ∈ cs1, ∀ b, cellScore anom gm N first numAnom d = some b → a ≤ b) :
    (⟨c.1 + (first - 1), c.2, a⟩ : AnomalousSubstructure) ∈
      ((cs1 ++ c :: cs2).foldl (sweepStep anom gm N first numAnom)
        st).mostAnomalousSubstructureList := by
  rw [List.foldl_append, List.foldl_cons]
  apply sweep_list_mono
  apply sweepStep_list_record anom gm N first numAnom _ c a h
  rcases sweep_min_attained anom gm N first numAnom cs1 st with h1 | ⟨d, hd, h1⟩
  · rw [h1]; exact hle
  · exact hbefore d hd _ h1

end Sweep

/-! ## Anomaly ranker: the claims -/

theorem mem_anomCells (N numAnom i k : Nat) :
    (i, k) ∈ anomCells N numAnom ↔ (1 ≤ i ∧ i ≤ N) ∧ (1 ≤ k ∧ k ≤ numAnom) := by
  simp only [anomCells, List.mem_flatMap, List.mem_map, Prod.mk.injEq, List.mem_range'_1]
  constructor
  · rintro ⟨a, ha, b, hb, rfl, rfl⟩
    omega
  · intro h
    exact ⟨i, by omega, k, by omega, rfl, rfl⟩

theorem anomCells_pairwise (N numAnom : Nat) :
    (anomCells N numAnom).Pairwise scannedBefore := by
  unfold anomCells
  rw [List.pairwise_flatMap]
  constructor
  · intro a _
    rw [List.pairwise_map]
    exact (List.pairwise_lt_range' 1 numAnom).imp (fun h => Or.inr ⟨rfl, h⟩)
  · refine (List.pairwise_lt_range' 1 N).imp ?_
    intro a b hab x hx y hy
    simp only [List.mem_map] at hx hy
    obtain ⟨_, _, rfl⟩ := hx
    obtain ⟨_, _, rfl⟩ := hy
    exact Or.inl hab

theorem mem_reportLoop (s : ℚ) (l : List AnomalousSubstructure) (q : Nat × Nat) :
    q ∈ reportLoop s l ↔
      ∃ e ∈ l, |e.score - s| < 1 / 1000000 ∧ q = (e.partitionNumber, e.anomalousNumber) := by
  induction l with
  | nil => simp [reportLoop]
  | cons e l ih =>
    unfold reportLoop
    by_cases h : |e.score - s| < 1 / 1000000
    · rw [if_pos h, List.mem_cons, ih]
      constructor
      · rintro (rfl | ⟨x, hx, hx2⟩)
        · exact ⟨e, List.mem_cons_self e l, h, rfl⟩
        · exact ⟨x, List.mem_cons_of_mem e hx, hx2⟩
      · rintro ⟨x, hx, hx2, hx3⟩
        rcases List.mem_cons.mp hx with rfl | hx
        · exact Or.inl hx3
        · exact Or.inr ⟨x, hx, hx2, hx3⟩
    · rw [if_neg h, ih]
      constructor
      · rintro ⟨x, hx, hx2⟩
        exact ⟨x, List.mem_cons_of_mem e hx, hx2⟩
      · rintro ⟨x, hx, hx2, hx3⟩
        rcases List.mem_cons.mp hx with rfl | hx
        · exact absurd hx2 h
        · exact ⟨x, hx, hx2, hx3⟩

theorem FindMostAnomalousSubstructures_eq (anom : AnomDir) (gm : Matcher)
    (N first numAnom : Nat) (l : List AnomalousSubstructure) :
    FindMostAnomalousSubstructures anom gm N first numAnom l =
      (((anomCells N numAnom).foldl (sweepStep anom gm N first numAnom)
          ⟨DBL_MAX, fun _ _ => 0, l⟩).minScore,
        ((anomCells N numAnom).foldl (sweepStep anom gm N first numAnom)
          ⟨DBL_MAX, fun _ _ => 0, l⟩).mostAnomalousSubstructureList) := by
  unfold FindMostAnomalousSubstructures
  rw [anomSweep_eq_sweepStep]

/-- C3: after the sweep of `FindMostAnomalousSubstructures`, the score stored
for an existing instance `anom_p_k` (window index `i`, `p = i + (firstPartition
- 1)`, `k <= numAnomalousInstances`) is its own leading score plus the sum of
the leading scores of all other existing instances of the window, of any
partition and any instance number, that the matcher reports equivalent to it. -/
theorem FindMostAnomalousSubstructures_aggregated (anom : AnomDir) (gm : Matcher)
    (NUM_PARTITIONS firstPartition numAnomalousInstances : Nat) (st : AnomState)
    (i k : Nat) (own : ℚ)
    (hi : 1 ≤ i ∧ i ≤ NUM_PARTITIONS) (hk : 1 ≤ k ∧ k ≤ numAnomalousInstances)
    (hown : anom (i + (firstPartition - 1)) k = some own) :
    (anomSweep anom gm NUM_PARTITIONS firstPartition numAnomalousInstances st).anomScore i k =
      own +
        (((anomCells NUM_PARTITIONS numAnomalousInstances).filter
            (fun c => decide (c ≠ (i, k)))).filterMap
          (matchedScore anom gm firstPartition i k)).sum := by
  rw [anomSweep_eq_sweepStep]
  have hc : (i, k) ∈ anomCells NUM_PARTITIONS numAnomalousInstances :=
    (mem_anomCells _ _ i k).mpr ⟨hi, hk⟩
  have hs : cellScore anom gm NUM_PARTITIONS firstPartition numAnomalousInstances (i, k) =
      some (aggregatedScore anom gm NUM_PARTITIONS firstPartition numAnomalousInstances
        i k own) := by
    simp [cellScore, hown]
  exact sweep_anomScore anom gm _ _ _ _ st (i, k) _ hc hs

/-- Witness of C3 on scenario 2: the score stored for `anom_1_1` is
`0.25 + 0.25`. -/
theorem FindMostAnomalousSubstructures_aggregated_witness :
    (anomSweep anomScenario2 gmAll 2 1 1 ⟨DBL_MAX, fun _ _ => 0, []⟩).anomScore 1 1 =
      1 / 4 + (((anomCells 2 1).filter (fun c => decide (c ≠ (1, 1)))).filterMap
        (matchedScore anomScenario2 gmAll 1 1 1)).sum :=
  FindMostAnomalousSubstructures_aggregated anomScenario2 gmAll 2 1 1
    ⟨DBL_MAX, fun _ _ => 0, []⟩ 1 1 (1 / 4) (by decide) (by decide) (by decide!)

/-- C4: provided every aggregated score is a finite `double` (at most
`DBL_MAX`), `FindMostAnomalousSubstructures` returns the minimum of the
aggregated scores of the existing instances of the window when there is one;
when no instance file exists it returns `DBL_MAX`, leaves the list empty, and
the caller prints nothing but "No anomalous substructures to report.". -/
theorem FindMostAnomalousSubstructures_min (anom : AnomDir) (gm : Matcher)
    (NUM_PARTITIONS firstPartition numAnomalousInstances : Nat)
    (hfin : ∀ c ∈ anomCells NUM_PARTITIONS numAnomalousInstances, ∀ a,
      cellScore anom gm NUM_PARTITIONS firstPartition numAnomalousInstances c = some a →
        a ≤ DBL_MAX) :
    ((∃ c ∈ anomCells NUM_PARTITIONS numAnomalousInstances,
        (anom (c.1 + (firstPartition - 1)) c.2).isSome) →
      (∃ c ∈ anomCells NUM_PARTITIONS numAnomalousInstances,
        cellScore anom gm NUM_PARTITIONS firstPartition numAnomalousInstances c =
          some (FindMostAnomalousSubstructures anom gm NUM_PARTITIONS firstPartition
            numAnomalousInstances []).1) ∧
      (∀ c ∈ anomCells NUM_PARTITIONS numAnomalousInstances, ∀ a,
        cellScore anom gm NUM_PARTITIONS firstPartition numAnomalousInstances c = some a →
          (FindMostAnomalousSubstructures anom gm NUM_PARTITIONS firstPartition
            numAnomalousInstances []).1 ≤ a)) ∧
    ((∀ c ∈ anomCells NUM_PARTITIONS numAnomalousInstances,
        anom (c.1 + (firstPartition - 1)) c.2 = none) →
      FindMostAnomalousSubstructures anom gm NUM_PARTITIONS firstPartition
          numAnomalousInstances [] = (DBL_MAX, []) ∧
        rankAndReport anom gm NUM_PARTITIONS firstPartition numAnomalousInstances =
          ⟨[], 0, true⟩) := by
  constructor
  · rintro ⟨c, hc, hsome⟩
    rw [FindMostAnomalousSubstructures_eq]
    obtain ⟨own, hown⟩ := Option.isSome_iff_exists.mp hsome
    have hcs : cellScore anom gm NUM_PARTITIONS firstPartition numAnomalousInstances c =
        some (aggregatedScore anom gm NUM_PARTITIONS firstPartition numAnomalousInstances
          c.1 c.2 own) := by
      simp [cellScore, hown]
    constructor
    · rcases sweep_min_attained anom gm NUM_PARTITIONS firstPartition numAnomalousInstances
        (anomCells NUM_PARTITIONS numAnomalousInstances) ⟨DBL_MAX, fun _ _ => 0, []⟩
        with h | h
      · refine ⟨c, hc, ?_⟩
        have h1 := sweep_min_le_cell anom gm NUM_PARTITIONS firstPartition
          numAnomalousInstances _ ⟨DBL_MAX, fun _ _ => 0, []⟩ c _ hc hcs
        have h2 := hfin c hc _ hcs
        rw [h] at h1 ⊢
        rw [hcs]
        exact congrArg some (le_antisymm h2 h1)
      · exact h
    · intro d hd a ha
      exact sweep_min_le_cell anom gm _ _ _ _ _ d a hd ha
  · intro hnone
    have hst : (anomCells NUM_PARTITIONS numAnomalousInstances).foldl
        (sweepStep anom gm NUM_PARTITIONS firstPartition numAnomalousInstances)
        ⟨DBL_MAX, fun _ _ => 0, []⟩ = ⟨DBL_MAX, fun _ _ => 0, []⟩ :=
      sweep_no_instance anom gm _ _ _ _ _ (fun c hc => by simp [cellScore, hnone c hc])
    have hr : FindMostAnomalousSubstructures anom gm NUM_PARTITIONS firstPartition
        numAnomalousInstances [] = (DBL_MAX, []) := by
      rw [FindMostAnomalousSubstructures_eq, hst]
    refine ⟨hr, ?_⟩
    simp [rankAndReport, hr, reportMostAnomalous, reportLoop]

theorem anomScenario2_finite :
    ∀ c ∈ anomCells 2 1, ∀ a, cellScore anomScenario2 gmAll 2 1 1 c = some a → a ≤ DBL_MAX := by
  intro c hc a ha
  have h1 : cellScore anomScenario2 gmAll 2 1 1 (1, 1) = some (1 / 2) := by decide!
  have h2 : cellScore anomScenario2 gmAll 2 1 1 (2, 1) = some (1 / 2) := by decide!
  have hb : (1 / 2 : ℚ) ≤ DBL_MAX := by decide!
  have hmem : c = (1, 1) ∨ c = (2, 1) := by
    have : anomCells 2 1 = [(1, 1), (2, 1)] := by decide
    rw [this] at hc
    simpa using hc
  rcases hmem with rfl | rfl
  · rw [h1] at ha
    exact (Option.some.inj ha) ▸ hb
  · rw [h2] at ha
    exact (Option.some.inj ha) ▸ hb

/-- Witness of C4: on scenario 2 the returned score is the least aggregated
score, and on a directory without instance files the result is `DBL_MAX` with
an empty list and an empty report. -/
theorem FindMostAnomalousSubstructures_min_witness :
    ((∃ c ∈ anomCells 2 1, cellScore anomScenario2 gmAll 2 1 1 c =
          some (FindMostAnomalousSubstructures anomScenario2 gmAll 2 1 1 []).1) ∧
      (∀ c ∈ anomCells 2 1, ∀ a, cellScore anomScenario2 gmAll 2 1 1 c = some a →
          (FindMostAnomalousSubstructures anomScenario2 gmAll 2 1 1 []).1 ≤ a)) ∧
    (FindMostAnomalousSubstructures anomEmpty gmAll 2 1 1 [] = (DBL_MAX, []) ∧
      rankAndReport anomEmpty gmAll 2 1 1 = ⟨[], 0, true⟩) :=
  ⟨(FindMostAnomalousSubstructures_min anomScenario2 gmAll 2 1 1 anomScenario2_finite).1
      ⟨(1, 1), by decide, by decide!⟩,
    (FindMostAnomalousSubstructures_min anomEmpty gmAll 2 1 1
      (fun _ _ _ h => by simp [cellScore, anomEmpty] at h)).2 (fun _ _ => rfl)⟩

/-- C5 (as stated) fails: with `anom_1_1` of score 5 and `anom_2_1` of score 3
that do not match, the function returns 3 and the list still holds the entry
of `(1, 1)` with its aggregated score 5, which is not within `1e-6` of 3. -/
theorem FindMostAnomalousSubstructures_stale_entry :
    FindMostAnomalousSubstructures anomStale gmNone 2 1 1 [] =
        (3, [⟨2, 1, 3⟩, ⟨1, 1, 5⟩]) ∧
      cellScore anomStale gmNone 2 1 1 (1, 1) = some 5 ∧
      ¬ |(5 : ℚ) - 3| < 1 / 1000000 := by
  decide!

/-- C5 (amended): every `(partition, number)` that the caller reports after
`FindMostAnomalousSubstructures` (the list entries that pass its test
`fabs(score - minScore) < 0.000001`) names an existing instance of the window
whose aggregated score is within `1e-6` of the returned minimum. -/
theorem rankAndReport_within_tolerance (anom : AnomDir) (gm : Matcher)
    (NUM_PARTITIONS firstPartition numAnomalousInstances : Nat) (p k : Nat)
    (h : (p, k) ∈
      (rankAndReport anom gm NUM_PARTITIONS firstPartition numAnomalousInstances).reported) :
    ∃ c ∈ anomCells NUM_PARTITIONS numAnomalousInstances, ∃ a,
      p = c.1 + (firstPartition - 1) ∧ k = c.2 ∧
      cellScore anom gm NUM_PARTITIONS firstPartition numAnomalousInstances c = some a ∧
      |a - (FindMostAnomalousSubstructures anom gm NUM_PARTITIONS firstPartition
        numAnomalousInstances []).1| < 1 / 1000000 := by
  simp only [rankAndReport, reportMostAnomalous] at h
  obtain ⟨e, he, htol, hq⟩ := (mem_reportLoop _ _ _).mp h
  rw [FindMostAnomalousSubstructures_eq] at he
  rcases sweep_list_sub anom gm _ _ _ _ _ e he with h0 | ⟨c, hc, a, ha, rfl⟩
  · cases h0
  · simp only [Prod.mk.injEq] at hq
    exact ⟨c, hc, a, hq.1, hq.2, ha, htol⟩

/-- Witness of C5 (amended): `(2, 1)` is reported for the two instances of
scores 5 and 3. -/
theorem rankAndReport_within_tolerance_witness :
    ∃ c ∈ anomCells 2 1, ∃ a,
      2 = c.1 + (1 - 1) ∧ 1 = c.2 ∧ cellScore anomStale gmNone 2 1 1 c = some a ∧
      |a - (FindMostAnomalousSubstructures anomStale gmNone 2 1 1 []).1| < 1 / 1000000 :=
  rankAndReport_within_tolerance anomStale gmNone 2 1 1 2 1 (by decide!)

/-- C6 (as stated) fails: with `anom_1_1` of score 1 and `anom_2_1` of score
1.0000005 that do not match, the returned minimum is 1, the aggregated score of
`(2, 1)` is within `1e-6` of it, and `(2, 1)` is not reported. -/
theorem rankAndReport_misses_near_minimum :
    cellScore anomNear gmNone 2 1 1 (2, 1) = some (1 + 1 / 2000000) ∧
      (FindMostAnomalousSubstructures anomNear gmNone 2 1 1 []).1 = 1 ∧
      |(1 + 1 / 2000000 : ℚ) - 1| < 1 / 1000000 ∧
      (2, 1) ∉ (rankAndReport anomNear gmNone 2 1 1).reported := by
  decide!

theorem FindMostAnomalousSubstructures_list_record (anom : AnomDir) (gm : Matcher)
    (N first numAnom : Nat) (i k : Nat) (a : ℚ)
    (hi : 1 ≤ i ∧ i ≤ N) (hk : 1 ≤ k ∧ k ≤ numAnom)
    (ha : cellScore anom gm N first numAnom (i, k) = some a)
    (hmax : a ≤ DBL_MAX)
    (hbefore : ∀ d ∈ anomCells N numAnom, scannedBefore d (i, k) →
      ∀ b, cellScore anom gm N first numAnom d = some b → a ≤ b) :
    (⟨i + (first - 1), k, a⟩ : AnomalousSubstructure) ∈
      (FindMostAnomalousSubstructures anom gm N first numAnom []).2 := by
  have hc : (i, k) ∈ anomCells N numAnom := (mem_anomCells _ _ i k).mpr ⟨hi, hk⟩
  obtain ⟨cs1, cs2, hsplit⟩ := List.append_of_mem hc
  have hpw := anomCells_pairwise N numAnom
  rw [hsplit, List.pairwise_append] at hpw
  rw [FindMostAnomalousSubstructures_eq, hsplit]
  refine sweep_list_record anom gm _ _ _ cs1 cs2 _ (i, k) a ha hmax ?_
  intro d hd b hb
  refine hbefore d ?_ (hpw.2.2 d hd (i, k) (List.mem_cons_self _ _)) b hb
  rw [hsplit]
  exact List.mem_append_left _ hd

theorem FindMostAnomalousSubstructures_minScore_le (anom : AnomDir) (gm : Matcher)
    (N first numAnom : Nat) :
    (FindMostAnomalousSubstructures anom gm N first numAnom []).1 ≤ DBL_MAX ∧
      ∀ d ∈ anomCells N numAnom, ∀ b, cellScore anom gm N first numAnom d = some b →
        (FindMostAnomalousSubstructures anom gm N first numAnom []).1 ≤ b := by
  rw [FindMostAnomalousSubstructures_eq]
  exact ⟨sweep_min_le_init anom gm _ _ _ _ _,
    fun d hd b hb => sweep_min_le_cell anom gm _ _ _ _ _ d b hd hb⟩

/-- An existing instance whose aggregated score equals the returned minimum is
reported, wherever it stands in the scan. -/
theorem rankAndReport_exact_minimum (anom : AnomDir) (gm : Matcher)
    (NUM_PARTITIONS firstPartition numAnomalousInstances : Nat) (i k : Nat)
    (hi : 1 ≤ i ∧ i ≤ NUM_PARTITIONS) (hk : 1 ≤ k ∧ k ≤ numAnomalousInstances)
    (ha : cellScore anom gm NUM_PARTITIONS firstPartition numAnomalousInstances (i, k) =
      some (FindMostAnomalousSubstructures anom gm NUM_PARTITIONS firstPartition
        numAnomalousInstances []).1) :
    (i + (firstPartition - 1), k) ∈
      (rankAndReport anom gm NUM_PARTITIONS firstPartition numAnomalousInstances).reported := by
  have hle := FindMostAnomalousSubstructures_minScore_le anom gm NUM_PARTITIONS firstPartition
    numAnomalousInstances
  have hmem := FindMostAnomalousSubstructures_list_record anom gm _ _ _ i k _ hi hk ha hle.1
    (fun d hd _ b hb => hle.2 d hd b hb)
  simp only [rankAndReport, reportMostAnomalous]
  exact (mem_reportLoop _ _ _).mpr ⟨_, hmem, by simp, rfl⟩

/-- C6 (amended): an existing instance of the window is reported when its
aggregated score is within `1e-6` of the returned minimum and is not larger
than the aggregated score of any instance scanned before it (nor than
`DBL_MAX`). An instance whose aggregated score equals the minimum satisfies
this in every scan order. -/
theorem rankAndReport_complete (anom : AnomDir) (gm : Matcher)
    (NUM_PARTITIONS firstPartition numAnomalousInstances : Nat) (i k : Nat) (a : ℚ)
    (hi : 1 ≤ i ∧ i ≤ NUM_PARTITIONS) (hk : 1 ≤ k ∧ k ≤ numAnomalousInstances)
    (ha : cellScore anom gm NUM_PARTITIONS firstPartition numAnomalousInstances (i, k) =
      some a)
    (hmax : a ≤ DBL_MAX)
    (hbefore : ∀ d ∈ anomCells NUM_PARTITIONS numAnomalousInstances, scannedBefore d (i, k) →
      ∀ b, cellScore anom gm NUM_PARTITIONS firstPartition numAnomalousInstances d = some b →
        a ≤ b)
    (htol : |a - (FindMostAnomalousSubstructures anom gm NUM_PARTITIONS firstPartition
      numAnomalousInstances []).1| < 1 / 1000000) :
    (i + (firstPartition - 1), k) ∈
      (rankAndReport anom gm NUM_PARTITIONS firstPartition numAnomalousInstances).reported := by
  have hmem := FindMostAnomalousSubstructures_list_record anom gm _ _ _ i k a hi hk ha hmax
    hbefore
  simp only [rankAndReport, reportMostAnomalous]
  exact (mem_reportLoop _ _ _).mpr ⟨_, hmem, htol, rfl⟩

/-- Witness of C6 (amended) on scenario 2: `anom_2_1`, scanned last, is
reported; both instances are reported with aggregated score 0.5. -/
theorem rankAndReport_complete_witness :
    (2 + (1 - 1), 1) ∈ (rankAndReport anomScenario2 gmAll 2 1 1).reported ∧
      FindMostAnomalousSubstructures anomScenario2 gmAll 2 1 1 [] =
        (1 / 2, [⟨2, 1, 1 / 2⟩, ⟨1, 1, 1 / 2⟩]) ∧
      rankAndReport anomScenario2 gmAll 2 1 1 = ⟨[(2, 1), (1, 1)], 2, false⟩ :=
  ⟨rankAndReport_complete anomScenario2 gmAll 2 1 1 2 1 (1 / 2) (by decide) (by decide)
      (by decide!) (by decide!)
      (by
        intro d hd _ b hb
        have h1 : cellScore anomScenario2 gmAll 2 1 1 (1, 1) = some (1 / 2) := by decide!
        have h2 : cellScore anomScenario2 gmAll 2 1 1 (2, 1) = some (1 / 2) := by decide!
        have hmem : d = (1, 1) ∨ d = (2, 1) := by
          have : anomCells 2 1 = [(1, 1), (2, 1)] := by decide
          rw [this] at hd
          simpa using hd
        rcases hmem with rfl | rfl
        · rw [h1] at hb
          exact le_of_eq (Option.some.inj hb)
        · rw [h2] at hb
          exact le_of_eq (Option.some.inj hb))
      (by decide!),
    by decide!, by decide!⟩

/-! ## Change-detection decider -/

theorem intToULONG_eq (T : Int) :
    intToULONG T = (T % 18446744073709551616).toNat := by
  simp [intToULONG, ULONG_SIZE]

theorem singleVars_eq (approach : Int) (measure : Metric → MetricStats)
    (ha : 1 ≤ approach ∧ approach ≤ 7) :
    singleVars approach measure = measure (selectedMetric approach) := by
  have h : approach = 1 ∨ approach = 2 ∨ approach = 3 ∨ approach = 4 ∨ approach = 5 ∨
      approach = 6 ∨ approach = 7 := by omega
  rcases h with h | h | h | h | h | h | h <;> subst h <;>
    simp [singleVars, metricBlocks, metricEnabled, selectedMetric]

theorem numberMetricsTooHigh_single (approach : Int) (measure : Metric → MetricStats)
    (ha : 1 ≤ approach ∧ approach ≤ 7) :
    numberMetricsTooHigh approach measure =
      if tooHigh (measure (selectedMetric approach)) then 4 else 0 := by
  have h9 : approach ≠ 9 := by omega
  have h8 : 0 < approach ∧ approach < 8 := by omega
  simp only [numberMetricsTooHigh, if_neg h9, if_pos h8, singleVars_eq approach measure ha]

theorem numberMetricsTooHigh_all (measure : Metric → MetricStats) :
    numberMetricsTooHigh 9 measure = countTooHigh measure := by
  have h : ∀ (l : List (Int × Metric)) (n : Nat),
      l.foldl (fun n km => if tooHigh (metricVars 9 measure km.1 km.2) then n + 1 else n) n =
        n + (l.filter (fun km => tooHigh (measure km.2))).length := by
    intro l
    induction l with
    | nil => intro n; rfl
    | cons a l ih =>
      intro n
      rw [List.foldl_cons, ih, List.filter_cons]
      have hv : metricVars 9 measure a.1 a.2 = measure a.2 := by
        simp [metricVars, metricEnabled]
      rw [hv]
      by_cases ht : tooHigh (measure a.2) = true
      · simp [ht]; omega
      · simp [ht]
  simp [numberMetricsTooHigh, countTooHigh, h]

theorem numberMetricsTooHigh_other (approach : Int) (measure : Metric → MetricStats)
    (ha : approach ≤ 0 ∨ approach = 8 ∨ 9 < approach) :
    numberMetricsTooHigh approach measure = 0 := by
  have h9 : approach ≠ 9 := by omega
  have h8 : ¬ (0 < approach ∧ approach < 8) := by omega
  simp only [numberMetricsTooHigh, if_neg h9, if_neg h8]

/-- C7 (as stated) fails: in single-metric mode 1 with a metric that passes
the test the controller does not rediscover when the threshold is 5, and
with a metric that does not pass the test it rediscovers when the threshold
is 0. -/
theorem rediscovers_single_metric_threshold :
    (tooHigh (measureHigh (selectedMetric 1)) = true ∧
        rediscovers ⟨1, 5⟩ measureHigh = false) ∧
      (tooHigh (measureFlat (selectedMetric 1)) = false ∧
        rediscovers ⟨1, 0⟩ measureFlat = true) := by
  decide!

/-- C7 (amended): for every `CHANGE_DETECTION_APPROACH` in `1..7` and every
`THRESHOLD_FOR_NUM_EXCEEDED_METRICS` in `1..4`, the controller rediscovers if
and only if `(value - mean) > stddev` for the selected metric; with threshold
`0` it always rediscovers. -/
theorem rediscovers_single_metric (cfg : Configuration) (measure : Metric → MetricStats)
    (ha : 1 ≤ cfg.CHANGE_DETECTION_APPROACH ∧ cfg.CHANGE_DETECTION_APPROACH ≤ 7) :
    ((1 ≤ cfg.THRESHOLD_FOR_NUM_EXCEEDED_METRICS ∧ cfg.THRESHOLD_FOR_NUM_EXCEEDED_METRICS ≤ 4) →
      (rediscovers cfg measure = true ↔
        (measure (selectedMetric cfg.CHANGE_DETECTION_APPROACH)).value -
            (measure (selectedMetric cfg.CHANGE_DETECTION_APPROACH)).mean >
          (measure (selectedMetric cfg.CHANGE_DETECTION_APPROACH)).stddev)) ∧
    (cfg.THRESHOLD_FOR_NUM_EXCEEDED_METRICS = 0 → rediscovers cfg measure = true) := by
  have h0 : cfg.CHANGE_DETECTION_APPROACH ≠ 0 := by omega
  constructor
  · intro ht
    simp only [rediscovers, numberMetricsTooHigh_single _ measure ha, intToULONG_eq,
      Bool.or_eq_true, decide_eq_true_eq, h0, or_false]
    by_cases hh : tooHigh (measure (selectedMetric cfg.CHANGE_DETECTION_APPROACH)) = true
    · have hh2 := hh
      simp only [tooHigh, decide_eq_true_eq] at hh2
      simp only [hh, if_true, hh2, iff_true]
      omega
    · have hh2 := hh
      simp only [tooHigh, decide_eq_true_eq] at hh2
      simp only [hh, hh2, iff_false]
      simp only [Bool.false_eq_true, if_false]
      omega
  · intro ht
    simp [rediscovers, intToULONG_eq, ht]

/-- Witness of C7 (amended): approach 1 with threshold 4. -/
theorem rediscovers_single_metric_witness :
    (rediscovers ⟨1, 4⟩ measureHigh = true ↔
      (measureHigh (selectedMetric 1)).value - (measureHigh (selectedMetric 1)).mean >
        (measureHigh (selectedMetric 1)).stddev) :=
  (rediscovers_single_metric ⟨1, 4⟩ measureHigh (by decide)).1 (by decide)

/-- C8, evaluated at a negative threshold: in mode 9 with threshold `-1` and
no metric passing the test, the count `0` is at least the threshold, yet the
controller does not rediscover, because the threshold is converted to
`ULONG` in the comparison. -/
theorem rediscovers_all_metrics_negative :
    countTooHigh measureFlat = 0 ∧
      (-1 : Int) ≤ (countTooHigh measureFlat : Int) ∧
      intToULONG (-1) = 18446744073709551615 ∧
      rediscovers ⟨9, -1⟩ measureFlat = false := by
  decide!

theorem rediscovers_all_metrics_nonneg (T : Int) (measure : Metric → MetricStats)
    (hT : 0 ≤ T ∧ T < 2 ^ 31) :
    rediscovers ⟨9, T⟩ measure = true ↔ T ≤ (countTooHigh measure : Int) := by
  simp only [rediscovers, numberMetricsTooHigh_all, intToULONG_eq, Bool.or_eq_true,
    decide_eq_true_eq]
  have : ¬ ((9 : Int) = 0) := by omega
  simp only [this, or_false]
  omega

/-- C9 (as stated) fails: with approach 8, 10 or -1 and threshold 1 the
controller does not rediscover. -/
theorem rediscovers_unknown_approach_skips :
    rediscovers ⟨8, 1⟩ measureHigh = false ∧
      rediscovers ⟨10, 1⟩ measureHigh = false ∧
      rediscovers ⟨-1, 1⟩ measureHigh = false := by
  decide!

/-- C9 (amended): with `CHANGE_DETECTION_APPROACH = 0` the controller always
rediscovers, whatever the measurements and the threshold; with a value outside
`{0, 1, ..., 7, 9}` no metric is tested and, for a threshold
`THRESHOLD_FOR_NUM_EXCEEDED_METRICS >= 0`, it rediscovers if and only if that
threshold is 0. Negative thresholds are not covered. -/
theorem rediscovers_unknown_approach (cfg : Configuration) (measure : Metric → MetricStats) :
    (cfg.CHANGE_DETECTION_APPROACH = 0 → rediscovers cfg measure = true) ∧
    ((cfg.CHANGE_DETECTION_APPROACH < 0 ∨ cfg.CHANGE_DETECTION_APPROACH = 8 ∨
        9 < cfg.CHANGE_DETECTION_APPROACH) →
      (0 ≤ cfg.THRESHOLD_FOR_NUM_EXCEEDED_METRICS ∧
        cfg.THRESHOLD_FOR_NUM_EXCEEDED_METRICS < 2 ^ 31) →
      (rediscovers cfg measure = true ↔ cfg.THRESHOLD_FOR_NUM_EXCEEDED_METRICS = 0)) := by
  constructor
  · intro h
    simp [rediscovers, h]
  · intro h hT
    have h0 : cfg.CHANGE_DETECTION_APPROACH ≠ 0 := by omega
    have hn := numberMetricsTooHigh_other cfg.CHANGE_DETECTION_APPROACH measure (by omega)
    simp only [rediscovers, hn, intToULONG_eq, Bool.or_eq_true, decide_eq_true_eq, h0,
      or_false]
    omega

/-- Witness of C9 (amended): approach 0 with thresholds 7 and -1; approach 8
with threshold 0; approach -1 with threshold 3. -/
theorem rediscovers_unknown_approach_witness :
    rediscovers ⟨0, 7⟩ measureFlat = true ∧
      rediscovers ⟨0, -1⟩ measureFlat = true ∧
      (rediscovers ⟨8, 0⟩ measureFlat = true ↔ (0 : Int) = 0) ∧
      (rediscovers ⟨-1, 3⟩ measureHigh = true ↔ (3 : Int) = 0) :=
  ⟨(rediscovers_unknown_approach ⟨0, 7⟩ measureFlat).1 rfl,
    (rediscovers_unknown_approach ⟨0, -1⟩ measureFlat).1 rfl,
    (rediscovers_unknown_approach ⟨8, 0⟩ measureFlat).2 (by decide) (by decide),
    (rediscovers_unknown_approach ⟨-1, 3⟩ measureHigh).2 (by decide) (by decide)⟩

/-! ## Metric series -/

theorem AddEntryToGPFile_getD (p : Nat) (v : ℚ) (f : GPFile) :
    AddEntryToGPFile p v f = some (f.getD [] ++ [⟨p, v⟩]) := rfl

theorem saveOldEntries_aux (pre rest : List gpNode) (f : GPFile) :
    ((List.range' pre.length rest.length).foldl
      (fun f j =>
        match (pre ++ rest)[j]? with
        | some e => AddEntryToGPFile e.partition e.value f
        | none => f)
      f).getD [] = f.getD [] ++ rest := by
  induction rest generalizing pre f with
  | nil => simp
  | cons r rest ih =>
    rw [List.length_cons, List.range'_succ, List.foldl_cons]
    have hget : (pre ++ r :: rest)[pre.length]? = some r := by
      rw [List.getElem?_append_right (le_refl _)]
      simp
    rw [hget]
    have hpre : pre ++ r :: rest = (pre ++ [r]) ++ rest := by simp
    have hlen : pre.length + 1 = (pre ++ [r]).length := by simp
    rw [hpre, hlen, ih (pre ++ [r])]
    simp [AddEntryToGPFile]

theorem saveOldEntries_getD (entries : List gpNode) :
    (saveOldEntries entries entries.length none).getD [] = entries.tail := by
  cases entries with
  | nil => rfl
  | cons e rest =>
    have h := saveOldEntries_aux [e] rest none
    simpa [saveOldEntries] using h

theorem UpdateGPFile_eq (N p : Nat) (v : ℚ) (s : List gpNode) (hlen : s.length ≤ N) :
    UpdateGPFile N p v (some s) = some (s.tail ++ [⟨p, v⟩]) := by
  have hn : ¬ N < s.length := by omega
  simp only [UpdateGPFile, if_neg hn, AddEntryToGPFile_getD, saveOldEntries_getD]

theorem appendInitial_aux (l : List gpNode) (f : GPFile) (h : l ≠ []) :
    l.foldl (fun f e => AddEntryToGPFile e.partition e.value f) f = some (f.getD [] ++ l) := by
  induction l generalizing f with
  | nil => exact absurd rfl h
  | cons e l ih =>
    rw [List.foldl_cons]
    by_cases hl : l = []
    · subst hl
      simp [AddEntryToGPFile]
    · rw [ih _ hl]
      simp [AddEntryToGPFile]

theorem rollAll_length (N : Nat) (rest w : List gpNode) (hw : w.length ≤ N)
    (hne : w ≠ []) :
    ∃ w2, rollAll N rest (some w) = some w2 ∧ w2.length = w.length := by
  induction rest generalizing w with
  | nil => exact ⟨w, rfl, rfl⟩
  | cons e rest ih =>
    rw [rollAll, UpdateGPFile_eq N e.partition e.value w hw]
    cases w with
    | nil => exact absurd rfl hne
    | cons w0 t =>
      have hlen : (t ++ [(⟨e.partition, e.value⟩ : gpNode)]).length = (w0 :: t).length := by
        simp
      obtain ⟨w2, h1, h2⟩ := ih (t ++ [(⟨e.partition, e.value⟩ : gpNode)])
        (by rw [hlen]; exact hw) (by simp)
      exact ⟨w2, h1, h2.trans hlen⟩

theorem appendInitial_eq (es : List gpNode) (h : es ≠ []) : appendInitial es = some es := by
  rw [appendInitial, appendInitial_aux es none h]
  simp

theorem meanLoop_eq (entries : List gpNode) :
    meanLoop entries = ((entries.map (fun e => e.value)).sum, entries.length) := by
  have h : ∀ (l : List gpNode) (s : ℚ × Nat),
      l.foldl (fun s e => (s.1 + e.value, s.2 + 1)) s =
        (s.1 + (l.map (fun e => e.value)).sum, s.2 + l.length) := by
    intro l
    induction l with
    | nil => intro s; simp
    | cons a l ih =>
      intro s
      rw [List.foldl_cons, ih]
      simp [add_assoc, Nat.add_comm, Nat.add_left_comm]
  rw [meanLoop, h]
  simp

theorem deviationLoop_eq (mean : ℚ) (entries : List gpNode) :
    deviationLoop mean entries =
      ((entries.map (fun e => (e.value - mean) ^ 2)).sum, entries.length) := by
  have h : ∀ (l : List gpNode) (s : ℚ × Nat),
      l.foldl (fun s e => (s.1 + (e.value - mean) * (e.value - mean), s.2 + 1)) s =
        (s.1 + (l.map (fun e => (e.value - mean) ^ 2)).sum, s.2 + l.length) := by
    intro l
    induction l with
    | nil => intro s; simp
    | cons a l ih =>
      intro s
      rw [List.foldl_cons, ih]
      simp [add_assoc, Nat.add_comm, Nat.add_left_comm, sq]
  rw [deviationLoop, h]
  simp

theorem CalculateMeanFromGPFile_eq (entries : List gpNode) (hne : entries ≠ []) :
    CalculateMeanFromGPFile (some entries) = some (seriesMean entries) := by
  have hlen : entries.length ≠ 0 := fun h => hne (List.length_eq_zero.mp h)
  simp [CalculateMeanFromGPFile, meanLoop_eq, divByCount, hlen, seriesMean]

theorem CalculateStandardDeviationFromGPFile_eq (sqrt : ℚ → ℚ) (mean : ℚ)
    (entries : List gpNode) (hne : entries ≠ []) :
    CalculateStandardDeviationFromGPFile sqrt mean (some entries) =
      some (sqrt (seriesVariance mean entries)) := by
  have hlen : entries.length ≠ 0 := fun h => hne (List.length_eq_zero.mp h)
  simp [CalculateStandardDeviationFromGPFile, deviationLoop_eq, divByCount, hlen,
    seriesVariance]

/-- C11 (as stated) fails: with `N = 3`, one appended value and one rolled
value, the series holds one entry after the roll, while
`min(partitionsSeen, N) = min(2, 3) = 2`. -/
theorem series_length_short_bootstrap :
    rollAll 3 [⟨4, 2⟩] (appendInitial [⟨1, 1⟩]) = some [⟨4, 2⟩] ∧
      ([⟨4, 2⟩] : List gpNode).length ≠ min (1 + 1) 3 := by
  decide!

/-- C11 (amended): for a series built by `a` appends, `1 <= a <= N`, followed
by any number of rolls, the length never exceeds `N`, every roll leaves the
length unchanged, and so after every roll the length is `a`; this is
`min(partitionsSeen, N)` when `a = N`. -/
theorem series_length (N : Nat) (es rs : List gpNode) (hne : es ≠ [])
    (hN : es.length ≤ N) :
    (∀ k, ((appendInitial (es.take k)).getD []).length ≤ N) ∧
    ∃ w, rollAll N rs (appendInitial es) = some w ∧ w.length = es.length ∧ w.length ≤ N ∧
      (es.length = N → w.length = min (es.length + rs.length) N) := by
  constructor
  · intro k
    by_cases hk : es.take k = []
    · rw [hk]
      simp [appendInitial]
    · rw [appendInitial_eq _ hk]
      simp only [Option.getD_some, List.length_take]
      omega
  · rw [appendInitial_eq es hne]
    obtain ⟨w, h1, h2⟩ := rollAll_length N rs es hN hne
    refine ⟨w, h1, h2, by omega, ?_⟩
    intro h
    omega

/-- Witness of C11 (amended): `N = 2`, two appends and two rolls. -/
theorem series_length_witness :
    ∃ w, rollAll 2 [⟨3, 7⟩, ⟨4, 9 / 2⟩] (appendInitial [⟨1, 1⟩, ⟨2, 5⟩]) = some w ∧
      w.length = ([⟨1, 1⟩, ⟨2, 5⟩] : List gpNode).length ∧ w.length ≤ 2 ∧
      (([⟨1, 1⟩, ⟨2, 5⟩] : List gpNode).length = 2 →
        w.length = min (([⟨1, 1⟩, ⟨2, 5⟩] : List gpNode).length +
          ([⟨3, 7⟩, ⟨4, 9 / 2⟩] : List gpNode).length) 2) :=
  (series_length 2 [⟨1, 1⟩, ⟨2, 5⟩] [⟨3, 7⟩, ⟨4, 9 / 2⟩] (by simp) (by decide)).2

/-- C13 (as stated) fails: for a series file that exists without any entry
the reading loops leave `num = 0`, both functions divide by it, and neither
returns 0. -/
theorem series_statistics_empty_file :
    meanLoop [] = (0, 0) ∧
      deviationLoop 0 [] = (0, 0) ∧
      CalculateMeanFromGPFile (some []) = none ∧
      CalculateStandardDeviationFromGPFile (fun x => x) 0 (some []) = none ∧
      CalculateMeanFromGPFile (some []) ≠ some 0 := by
  refine ⟨rfl, rfl, ?_, ?_, ?_⟩
  · simp [CalculateMeanFromGPFile, meanLoop, divByCount]
  · simp [CalculateStandardDeviationFromGPFile, deviationLoop, divByCount]
  · simp [CalculateMeanFromGPFile, meanLoop, divByCount]

theorem UpdateGPFile_nonempty (N p : Nat) (v : ℚ) (file : GPFile) (entries : List gpNode)
    (h : UpdateGPFile N p v file = some entries) :
    ∃ s, file = some s ∧ s.length ≤ N ∧ entries = s.tail ++ [⟨p, v⟩] := by
  cases file with
  | none => simp [UpdateGPFile] at h
  | some s =>
    by_cases hlen : N < s.length
    · simp [UpdateGPFile, hlen] at h
    · have hle : s.length ≤ N := by omega
      rw [UpdateGPFile_eq N p v s hle] at h
      exact ⟨s, rfl, hle, (Option.some.inj h).symm⟩

/-- C13 (amended): for a missing series file `CalculateMeanFromGPFile` and
`CalculateStandardDeviationFromGPFile` return 0. `UpdateGPFile` does not
complete on a missing file, and the file it leaves holds at least one entry:
on that file, which is what both functions read at each of their calls, the
count `num` is at least 1, so there is no division by zero, the mean is the
sum of the values divided by their number, and the argument of `sqrt` is the
sum of the squared deviations divided by that number. -/
theorem series_statistics_after_update (sqrt : ℚ → ℚ) (NUM_PARTITIONS partition : Nat)
    (value : ℚ) (file : GPFile) (entries : List gpNode)
    (h : UpdateGPFile NUM_PARTITIONS partition value file = some entries) :
    (CalculateMeanFromGPFile none = some 0 ∧
      ∀ mean, CalculateStandardDeviationFromGPFile sqrt mean none = some 0) ∧
    (UpdateGPFile NUM_PARTITIONS partition value none = none) ∧
    (1 ≤ (meanLoop entries).2 ∧ ∀ mean, 1 ≤ (deviationLoop mean entries).2) ∧
    CalculateMeanFromGPFile (some entries) = some (seriesMean entries) ∧
    ∀ mean, CalculateStandardDeviationFromGPFile sqrt mean (some entries) =
      some (sqrt (seriesVariance mean entries)) := by
  obtain ⟨s, _, _, rfl⟩ := UpdateGPFile_nonempty _ _ _ _ _ h
  have hne : s.tail ++ [(⟨partition, value⟩ : gpNode)] ≠ [] := by simp
  refine ⟨⟨rfl, fun _ => rfl⟩, rfl, ⟨?_, ?_⟩, CalculateMeanFromGPFile_eq _ hne,
    fun mean => CalculateStandardDeviationFromGPFile_eq sqrt mean _ hne⟩
  · rw [meanLoop_eq]
    simp
  · intro mean
    rw [deviationLoop_eq]
    simp

/-- Witness of C13 (amended): rolling the value 5 into the series 1, 3 with
`N = 2` leaves 3, 5, with mean 4 and, `sqrt` taken as the identity, 1 as the
argument of `sqrt`. -/
theorem series_statistics_after_update_witness :
    UpdateGPFile 2 3 5 (some [⟨1, 1⟩, ⟨2, 3⟩]) = some [⟨2, 3⟩, ⟨3, 5⟩] ∧
      CalculateMeanFromGPFile (some [⟨2, 3⟩, ⟨3, 5⟩]) = some (seriesMean [⟨2, 3⟩, ⟨3, 5⟩]) ∧
      CalculateMeanFromGPFile (some [⟨2, 3⟩, ⟨3, 5⟩]) = some 4 ∧
      CalculateStandardDeviationFromGPFile (fun x => x) 4 (some [⟨2, 3⟩, ⟨3, 5⟩]) =
        some ((fun x => x) (seriesVariance 4 [⟨2, 3⟩, ⟨3, 5⟩])) ∧
      CalculateStandardDeviationFromGPFile (fun x => x) 4 (some [⟨2, 3⟩, ⟨3, 5⟩]) = some 1 :=
  have h : UpdateGPFile 2 3 5 (some [⟨1, 1⟩, ⟨2, 3⟩]) = some [⟨2, 3⟩, ⟨3, 5⟩] := by decide!
  ⟨h,
    (series_statistics_after_update (fun x => x) 2 3 5 (some [⟨1, 1⟩, ⟨2, 3⟩])
      [⟨2, 3⟩, ⟨3, 5⟩] h).2.2.2.1,
    by decide!,
    (series_statistics_after_update (fun x => x) 2 3 5 (some [⟨1, 1⟩, ⟨2, 3⟩])
      [⟨2, 3⟩, ⟨3, 5⟩] h).2.2.2.2 4,
    by decide!⟩

/-! ## Graph-property reader: the words of a file -/

theorem isToken_head (w : List Char) (h : isToken w) :
    ∃ c t, w = c :: t ∧ isSpace c = false := by
  cases w with
  | nil => exact absurd rfl h.1
  | cons c t => exact ⟨c, t, rfl, h.2 c (List.mem_cons_self c t)⟩

theorem takeWhile_token (w : List Char) (hw : ∀ c ∈ w, isSpace c = false) (s : Char)
    (hs : isSpace s = true) (tail : List Char) :
    (w ++ s :: tail).takeWhile (fun c => !isSpace c) = w ∧
      (w ++ s :: tail).dropWhile (fun c => !isSpace c) = s :: tail := by
  induction w with
  | nil => simp [List.takeWhile_cons, List.dropWhile_cons, hs]
  | cons c t ih =>
    have hc := hw c (List.mem_cons_self c t)
    have ih2 := ih (fun x hx => hw x (List.mem_cons_of_mem c hx))
    simp [List.takeWhile_cons, List.dropWhile_cons, hc, ih2.1, ih2.2]

theorem takeWhile_token_end (w : List Char) (hw : ∀ c ∈ w, isSpace c = false) :
    w.takeWhile (fun c => !isSpace c) = w ∧ w.dropWhile (fun c => !isSpace c) = [] := by
  induction w with
  | nil => simp
  | cons c t ih =>
    have hc := hw c (List.mem_cons_self c t)
    have ih2 := ih (fun x hx => hw x (List.mem_cons_of_mem c hx))
    simp [List.takeWhile_cons, List.dropWhile_cons, hc, ih2.1, ih2.2]

theorem dropWhile_isSpace_token (w : List Char) (h : isToken w) (tail : List Char) :
    (w ++ tail).dropWhile isSpace = w ++ tail := by
  obtain ⟨c, t, rfl, hc⟩ := isToken_head w h
  simp [List.dropWhile_cons, hc]

theorem fscanfString_token (w : List Char) (h : isToken w) (s : Char)
    (hs : isSpace s = true) (tail : List Char) (e : Bool) :
    fscanfString ⟨w ++ s :: tail, e⟩ = (some w, ⟨s :: tail, e⟩) := by
  have h1 := dropWhile_isSpace_token w h (s :: tail)
  have h2 := takeWhile_token w h.2 s hs tail
  have hne : w.isEmpty = false := by
    cases w with
    | nil => exact absurd rfl h.1
    | cons c t => rfl
  simp [fscanfString, h1, h2.1, h2.2, hne]

theorem fscanfString_space_token (s0 : Char) (hs0 : isSpace s0 = true) (w : List Char)
    (h : isToken w) (s : Char) (hs : isSpace s = true) (tail : List Char) (e : Bool) :
    fscanfString ⟨s0 :: (w ++ s :: tail), e⟩ = (some w, ⟨s :: tail, e⟩) := by
  have h0 : fscanfString ⟨s0 :: (w ++ s :: tail), e⟩ = fscanfString ⟨w ++ s :: tail, e⟩ := by
    simp [fscanfString, List.dropWhile_cons, hs0]
  rw [h0, fscanfString_token w h s hs tail e]

theorem fscanfString_last (pre last : List Char) (hpre : ∀ c ∈ pre, isSpace c = true)
    (hlast : last = [] ∨ isToken last) (e : Bool) :
    (fscanfString ⟨pre ++ last, e⟩).2 = ⟨[], true⟩ := by
  have hdrop : (pre ++ last).dropWhile isSpace = last := by
    induction pre with
    | nil =>
      rcases hlast with rfl | h
      · rfl
      · simpa using dropWhile_isSpace_token last h []
    | cons c t ih =>
      have hc := hpre c (List.mem_cons_self c t)
      simp only [List.cons_append, List.dropWhile_cons, hc, if_true]
      exact ih (fun x hx => hpre x (List.mem_cons_of_mem c hx))
  have hend : last.dropWhile (fun c => !isSpace c) = [] := by
    rcases hlast with rfl | h
    · rfl
    · exact (takeWhile_token_end last h.2).2
  simp [fscanfString, hdrop, hend]

theorem densityLoop_words (ws : List (List Char × Char)) (hws : goodWords ws)
    (last : List Char) (hlast : last = [] ∨ isToken last) (fuel : Nat) (s : Char)
    (hs : isSpace s = true) (w : List Char) (c : Nat × Nat)
    (hfuel : (wordsText ws ++ last).length + 1 < fuel) :
    densityLoop fuel ⟨s :: (wordsText ws ++ last), false⟩ w c =
      (ws.map (fun x => x.1)).foldl (fun c x => countWord x c) (countWord w c) := by
  induction ws generalizing fuel s w c with
  | nil =>
    cases fuel with
    | zero => omega
    | succ k =>
      have h2 : (fscanfString ⟨s :: (wordsText [] ++ last), false⟩).2 = ⟨[], true⟩ := by
        have := fscanfString_last [s] last (by simpa using hs) hlast false
        simpa [wordsText] using this
      rw [densityLoop]
      simp only [Bool.false_eq_true, if_false, h2]
      cases k with
      | zero => rfl
      | succ j => simp [densityLoop]
  | cons a ws ih =>
    cases fuel with
    | zero => omega
    | succ k =>
      have ha := hws a (List.mem_cons_self a ws)
      have hrest : wordsText (a :: ws) ++ last = a.1 ++ a.2 :: (wordsText ws ++ last) := by
        simp [wordsText, List.flatMap_cons]
      have hscan := fscanfString_space_token s hs a.1 ha.1 a.2 ha.2 (wordsText ws ++ last) false
      rw [densityLoop, hrest]
      simp only [Bool.false_eq_true, if_false, hscan, Option.getD_some]
      rw [ih (fun x hx => hws x (List.mem_cons_of_mem a hx)) k a.2 ha.2]
      · rfl
      · rw [hrest] at hfuel
        simp only [List.length_append, List.length_cons] at hfuel ⊢
        omega

theorem graphCounts_words (ws : List (List Char × Char)) (hws : goodWords ws)
    (last : List Char) (hlast : last = [] ∨ isToken last) :
    graphCounts (wordsText ws ++ last) =
      (ws.map (fun x => x.1)).foldl (fun c x => countWord x c) (0, 0) := by
  cases ws with
  | nil =>
    have h2 : (fscanfString ⟨wordsText [] ++ last, false⟩).2 = ⟨[], true⟩ := by
      have := fscanfString_last [] last (by simp) hlast false
      simpa [wordsText] using this
    rw [graphCounts, h2, densityLoop]
    simp
  | cons a ws =>
    have ha := hws a (List.mem_cons_self a ws)
    have hrest : wordsText (a :: ws) ++ last = a.1 ++ a.2 :: (wordsText ws ++ last) := by
      simp [wordsText, List.flatMap_cons]
    have hscan := fscanfString_token a.1 ha.1 a.2 ha.2 (wordsText ws ++ last) false
    rw [graphCounts, hrest, hscan]
    simp only [Option.getD_some]
    rw [densityLoop_words ws (fun x hx => hws x (List.mem_cons_of_mem a hx)) last hlast _
      a.2 ha.2]
    · rfl
    · simp only [List.length_append, List.length_cons]
      have : 1 ≤ a.1.length := by
        cases h : a.1 with
        | nil => exact absurd h ha.1.1
        | cons c t => simp
      omega
/-! ## Graph-property reader: files made of records -/

theorem countWord_plain (w : List Char) (h : ¬ isMarker w) (c : Nat × Nat) :
    countWord w c = c := by
  unfold countWord
  have h1 : w ≠ ['v'] := fun e => h (Or.inl e)
  have h2 : ¬ (w = ['e'] ∨ w = ['d'] ∨ w = ['u']) := by
    rintro (e | e | e)
    · exact h (Or.inr (Or.inl e))
    · exact h (Or.inr (Or.inr (Or.inl e)))
    · exact h (Or.inr (Or.inr (Or.inr e)))
  rw [if_neg h1, if_neg h2]

theorem countWord_edge (k : EdgeKind) (c : Nat × Nat) :
    countWord k.word c = (c.1, c.2 + 1) := by
  cases k <;> simp [countWord, EdgeKind.word]

theorem isToken_edge (k : EdgeKind) : isToken k.word := by
  cases k <;> exact ⟨by simp [EdgeKind.word], by decide⟩

theorem goodWords_records (records : List GraphRecord)
    (h : ∀ r ∈ records, ∀ f ∈ r.fields, isPlainField f) :
    goodWords (records.flatMap GraphRecord.words) := by
  intro w hw
  simp only [List.mem_flatMap] at hw
  obtain ⟨r, hr, hwr⟩ := hw
  have hv : isToken ['v'] := ⟨by simp, by decide⟩
  have hsp : isSpace ' ' = true := by decide
  have hnl : isSpace (Char.ofNat 10) = true := by decide
  cases r with
  | vertex id label =>
    have hid := (h _ hr id (by simp [GraphRecord.fields])).1
    have hlabel := (h _ hr label (by simp [GraphRecord.fields])).1
    simp only [GraphRecord.words, List.mem_cons, List.mem_singleton, List.not_mem_nil,
      or_false] at hwr
    rcases hwr with rfl | rfl | rfl
    · exact ⟨hv, hsp⟩
    · exact ⟨hid, hsp⟩
    · exact ⟨hlabel, hnl⟩
  | edge k src dst label =>
    have hsrc := (h _ hr src (by simp [GraphRecord.fields])).1
    have hdst := (h _ hr dst (by simp [GraphRecord.fields])).1
    have hlabel := (h _ hr label (by simp [GraphRecord.fields])).1
    simp only [GraphRecord.words, List.mem_cons, List.mem_singleton, List.not_mem_nil,
      or_false] at hwr
    rcases hwr with rfl | rfl | rfl | rfl
    · exact ⟨isToken_edge k, hsp⟩
    · exact ⟨hsrc, hsp⟩
    · exact ⟨hdst, hsp⟩
    · exact ⟨hlabel, hnl⟩

theorem foldl_countWord_records (records : List GraphRecord)
    (h : ∀ r ∈ records, ∀ f ∈ r.fields, isPlainField f) (c : Nat × Nat) :
    ((records.flatMap GraphRecord.words).map (fun x => x.1)).foldl
        (fun c x => countWord x c) c =
      (c.1 + numVertexRecords records, c.2 + numEdgeRecords records) := by
  induction records generalizing c with
  | nil => simp [numVertexRecords, numEdgeRecords]
  | cons r rs ih =>
    have ih2 := ih (fun x hx => h x (List.mem_cons_of_mem r hx))
    rw [List.flatMap_cons, List.map_append, List.foldl_append, ih2]
    cases r with
    | vertex id label =>
      have hid := (h _ (List.mem_cons_self _ rs) id (by simp [GraphRecord.fields])).2
      have hlabel := (h _ (List.mem_cons_self _ rs) label (by simp [GraphRecord.fields])).2
      have hv : countWord ['v'] c = (c.1 + 1, c.2) := by simp [countWord]
      simp only [GraphRecord.words, List.map_cons, List.map_nil, List.foldl_cons,
        List.foldl_nil, hv, countWord_plain id hid, countWord_plain label hlabel,
        numVertexRecords, numEdgeRecords, List.filter_cons]
      simp
      omega
    | edge k src dst label =>
      have hsrc := (h _ (List.mem_cons_self _ rs) src (by simp [GraphRecord.fields])).2
      have hdst := (h _ (List.mem_cons_self _ rs) dst (by simp [GraphRecord.fields])).2
      have hlabel := (h _ (List.mem_cons_self _ rs) label (by simp [GraphRecord.fields])).2
      simp only [GraphRecord.words, List.map_cons, List.map_nil, List.foldl_cons,
        List.foldl_nil, countWord_edge, countWord_plain src hsrc, countWord_plain dst hdst,
        countWord_plain label hlabel, numVertexRecords, numEdgeRecords, List.filter_cons]
      simp
      omega

theorem records_words_last (records : List GraphRecord) (hne : records ≠ [])
    (h : ∀ r ∈ records, ∀ f ∈ r.fields, isPlainField f) :
    ∃ ws wl sl, records.flatMap GraphRecord.words = ws ++ [(wl, sl)] ∧ isPlainField wl := by
  rcases List.eq_nil_or_concat records with h0 | ⟨rs, r, rfl⟩
  · exact absurd h0 hne
  · have hr : ∀ f ∈ r.fields, isPlainField f := h r (by simp)
    cases r with
    | vertex id label =>
      refine ⟨rs.flatMap GraphRecord.words ++ [(['v'], ' '), (id, ' ')], label,
        Char.ofNat 10, ?_, hr label (by simp [GraphRecord.fields])⟩
      simp [List.flatMap_append, GraphRecord.words]
    | edge k src dst label =>
      refine ⟨rs.flatMap GraphRecord.words ++ [(k.word, ' '), (src, ' '), (dst, ' ')], label,
        Char.ofNat 10, ?_, hr label (by simp [GraphRecord.fields])⟩
      simp [List.flatMap_append, GraphRecord.words]

theorem graphCounts_records (records : List GraphRecord) (finalNewline : Bool)
    (h : ∀ r ∈ records, ∀ f ∈ r.fields, isPlainField f) :
    graphCounts (graphFileText records finalNewline) =
      (numVertexRecords records, numEdgeRecords records) := by
  have hgood := goodWords_records records h
  have hfold := foldl_countWord_records records h (0, 0)
  simp only [Nat.zero_add] at hfold
  cases finalNewline with
  | true =>
    have := graphCounts_words _ hgood [] (Or.inl rfl)
    simp only [List.append_nil] at this
    simp only [graphFileText, if_true]
    rw [this, hfold]
  | false =>
    simp only [graphFileText, Bool.false_eq_true, if_false]
    by_cases hne : records = []
    · subst hne
      decide
    · obtain ⟨ws, wl, sl, hsplit, hplain⟩ := records_words_last records hne h
      rw [hsplit] at hgood hfold
      have htext : (wordsText (ws ++ [(wl, sl)])).dropLast = wordsText ws ++ wl := by
        have : wordsText (ws ++ [(wl, sl)]) = (wordsText ws ++ wl) ++ [sl] := by
          simp [wordsText, List.flatMap_append]
        rw [this, List.dropLast_concat]
      rw [hsplit, htext, graphCounts_words ws
        (fun x hx => hgood x (List.mem_append_left _ hx)) wl (Or.inr hplain.1)]
      rw [← hfold, List.map_append, List.foldl_append]
      simp [countWord_plain wl hplain.2]

/-- C14 (as stated) fails: the file with the single record `v 1 e`, a vertex
whose label is the token `e`, has `V = 1` and `E = 0`, but the label is
counted as an edge and the density is `1 / 1` instead of `0 / 1`. -/
theorem CalculateDensity_counts_labels :
    graphFileText [.vertex ['1'] ['e']] true = "v 1 e\n".data ∧
      numVertexRecords [.vertex ['1'] ['e']] = 1 ∧
      numEdgeRecords [.vertex ['1'] ['e']] = 0 ∧
      graphCounts (graphFileText [.vertex ['1'] ['e']] true) = (1, 1) ∧
      CalculateDensity (graphFileText [.vertex ['1'] ['e']] true) = some 1 := by
  decide!

/-- C14 (amended): for a graph file that consists only of `V >= 1` vertex
records `v id label` and `E` edge records `e|u|d src dst label`, where every
number and label is a single token other than `v`, `e`, `d`, `u` and
`V * V < 2 ^ 64`, `CalculateDensity` returns exactly `E / V ^ 2`, whether or
not the last line ends with a newline. -/
theorem CalculateDensity_records (records : List GraphRecord) (finalNewline : Bool)
    (hfields : ∀ r ∈ records, ∀ f ∈ r.fields, isPlainField f)
    (hV : 1 ≤ numVertexRecords records)
    (hfit : numVertexRecords records * numVertexRecords records < ULONG_SIZE) :
    CalculateDensity (graphFileText records finalNewline) =
      some ((numEdgeRecords records : ℚ) / (numVertexRecords records : ℚ) ^ 2) := by
  have hpos : numVertexRecords records * numVertexRecords records ≠ 0 := by
    have : 0 < numVertexRecords records * numVertexRecords records := Nat.mul_pos hV hV
    omega
  rw [CalculateDensity, graphCounts_records records finalNewline hfields]
  simp only [Nat.mod_eq_of_lt hfit, divByCount, if_neg hpos]
  congr 1
  push_cast
  ring

theorem CalculateDensity_records_witness :
    (∀ r ∈ graphSmall, ∀ f ∈ r.fields, isPlainField f) ∧
      1 ≤ numVertexRecords graphSmall ∧
      numVertexRecords graphSmall * numVertexRecords graphSmall < ULONG_SIZE ∧
      CalculateDensity (graphFileText graphSmall false) =
        some ((numEdgeRecords graphSmall : ℚ) / (numVertexRecords graphSmall : ℚ) ^ 2) :=
  have h : ∀ r ∈ graphSmall, ∀ f ∈ r.fields, isPlainField f := by
    simp [graphSmall, GraphRecord.fields, isPlainField, isToken, isMarker, isSpace]
  ⟨h, by decide, by decide, CalculateDensity_records graphSmall false h (by decide) (by decide)⟩

/-- C15: the reader does not skip comments. Inserting the comment line
`% e 1 1 x` after the line `v 1 a` changes the counts used by
`CalculateDensity` from `(1, 0)` to `(1, 1)` and adds the edge `1 1` to the
edge file written by `CreateVerticesAndEdgesFiles`. -/
theorem graph_reader_reads_comments :
    graphPlain = "v 1 a\n".data ∧ graphCommented = "v 1 a\n% e 1 1 x\n".data ∧
      graphCounts graphPlain = (1, 0) ∧ graphCounts graphCommented = (1, 1) ∧
      CreateVerticesAndEdgesFiles (0, 0) graphPlain = ⟨[1], []⟩ ∧
      CreateVerticesAndEdgesFiles (0, 0) graphCommented = ⟨[1], [(1, 1)]⟩ := by
  decide

/-! ## Normative ranker: extending the window -/

theorem window_succ (a b : Nat) (h : a ≤ b + 1) : window a (b + 1) = window a b ++ [b + 1] := by
  unfold window
  have h1 : b + 1 + 1 - a = (b + 1 - a) + 1 := by omega
  rw [h1, List.range'_concat]
  congr 2
  omega

theorem mem_window (a b p : Nat) : p ∈ window a b ↔ a ≤ p ∧ p ≤ b := by
  unfold window
  rw [List.mem_range'_1]
  omega

theorem contributingRank_congr (norm norm' : NormDir) (gm : Matcher) (M p r q : Nat)
    (h : ∀ k, norm' q k = norm q k) :
    contributingRank norm' gm M p r q = contributingRank norm gm M p r q ∧
      sizeTimesInstances norm' q (contributingRank norm' gm M p r q) =
        sizeTimesInstances norm q (contributingRank norm gm M p r q) := by
  have h1 : reachedRanks norm' M q = reachedRanks norm M q := by
    simp only [reachedRanks, h]
  have h2 : contributingRank norm' gm M p r q = contributingRank norm gm M p r q := by
    simp only [contributingRank, h1]
  refine ⟨h2, ?_⟩
  rw [h2]
  cases contributingRank norm gm M p r q with
  | none => rfl
  | some k => simp only [sizeTimesInstances, h]

theorem scoreFormula_window_succ (norm norm' : NormDir) (gm : Matcher) (M a b p r : Nat)
    (f : NormFile) (hab : a ≤ b + 1) (hsame : ∀ q ∈ window a b, ∀ k, norm' q k = norm q k) :
    scoreFormula norm (contributingRank norm gm M p r) a b p f ≤
      scoreFormula norm' (contributingRank norm' gm M p r) a (b + 1) p f := by
  unfold scoreFormula
  rw [window_succ a b hab, List.filter_append, List.map_append, List.sum_append]
  have hcongr : ((window a b).filter (fun q => decide (q ≠ p))).map
      (fun q => sizeTimesInstances norm' q (contributingRank norm' gm M p r q)) =
      ((window a b).filter (fun q => decide (q ≠ p))).map
      (fun q => sizeTimesInstances norm q (contributingRank norm gm M p r q)) := by
    apply List.map_congr_left
    intro q hq
    exact (contributingRank_congr norm norm' gm M p r q
      (hsame q (List.mem_of_mem_filter hq))).2
  rw [hcongr]
  omega

theorem mem_scoredPatterns_iff (norm : NormDir) (gm : Matcher) (M first last : Nat)
    (e : NormativePattern) :
    e ∈ scoredPatterns norm gm M first last ↔
      ∃ p ∈ window first last, ∃ r ∈ reachedRanks norm M p,
        scoredPattern norm gm M first last p r = some e := by
  simp [scoredPatterns, List.mem_flatMap, List.mem_filterMap]

theorem scoredPatterns_window_succ (norm norm' : NormDir) (gm : Matcher) (M a b : Nat)
    (hsame : ∀ p ∈ window a b, ∀ r, norm' p r = norm p r)
    (hfit : ∀ p ∈ window a (b + 1), ∀ r f, norm' p r = some f →
      scoreFormula norm' (contributingRank norm' gm M p r) a (b + 1) p f < ULONG_SIZE)
    (e : NormativePattern) (he : e ∈ scoredPatterns norm gm M a b) :
    ∃ e' ∈ scoredPatterns norm' gm M a (b + 1), e.score ≤ e'.score := by
  rw [mem_scoredPatterns_iff] at he
  obtain ⟨p, hp, r, hr, hs⟩ := he
  have hpw := (mem_window a b p).mp hp
  have hp' : p ∈ window a (b + 1) := (mem_window a (b + 1) p).mpr ⟨hpw.1, by omega⟩
  obtain ⟨f, hf⟩ := reachedRanks_isSome norm M p r hr
  have hf' : norm' p r = some f := by rw [hsame p hp, hf]
  have hr' : r ∈ reachedRanks norm' M p := by
    have : reachedRanks norm' M p = reachedRanks norm M p := by
      simp only [reachedRanks, hsame p hp]
    rw [this]
    exact hr
  refine ⟨⟨p, r, patternScore norm' gm M a (b + 1) p r f, f.graphInputFileName⟩, ?_, ?_⟩
  · rw [mem_scoredPatterns_iff]
    exact ⟨p, hp', r, hr', by simp [scoredPattern, hf']⟩
  · simp only [scoredPattern, hf, Option.map_some', Option.some.injEq] at hs
    subst hs
    simp only
    rw [patternScore_eq, patternScore_eq, Nat.mod_eq_of_lt (hfit p hp' r f hf')]
    exact le_trans (Nat.mod_le _ _)
      (scoreFormula_window_succ norm norm' gm M a b p r f (by omega) hsame)

theorem FindBestNormativePattern_maxScore (norm : NormDir) (gm : Matcher) (M a b : Nat)
    (l : List NormativePattern) (res : RankerResult)
    (h : FindBestNormativePattern norm gm M a b l = some res) :
    res.maxScore =
      ((scoredPatterns norm gm M a b).foldl electStep (RankerState.init l)).maxScore := by
  simp only [FindBestNormativePattern, partitionLoop_eq_foldl] at h
  split at h
  · split at h
    · cases h
    · split at h
      · cases h
      · cases h
        rfl
  · cases h
    rfl

theorem foldl_electStep_window_succ (norm norm' : NormDir) (gm : Matcher) (M a b : Nat)
    (l l' : List NormativePattern)
    (hsame : ∀ p ∈ window a b, ∀ r, norm' p r = norm p r)
    (hfit : ∀ p ∈ window a (b + 1), ∀ r f, norm' p r = some f →
      scoreFormula norm' (contributingRank norm' gm M p r) a (b + 1) p f < ULONG_SIZE) :
    ((scoredPatterns norm gm M a b).foldl electStep (RankerState.init l)).maxScore ≤
      ((scoredPatterns norm' gm M a (b + 1)).foldl electStep (RankerState.init l')).maxScore := by
  rcases foldl_electStep_elected (scoredPatterns norm gm M a b) (RankerState.init l) with
    ⟨h1, _⟩ | ⟨l1, e, l2, hsplit, hscore, _, _, _⟩
  · rw [h1]
    exact Nat.zero_le _
  · have he : e ∈ scoredPatterns norm gm M a b := by
      rw [hsplit]
      exact List.mem_append_right _ (List.mem_cons_self _ _)
    obtain ⟨e', he', hle⟩ := scoredPatterns_window_succ norm norm' gm M a b hsame hfit e he
    rw [← hscore]
    exact le_trans hle
      ((foldl_electStep_ge (scoredPatterns norm' gm M a (b + 1)) (RankerState.init l')).2 e' he')

/-- C16 (as stated) fails: with `norm_1_1` of size `2 ^ 63` and `norm_2_1` of
size `2 ^ 63 + 1` that match, the window `[1,1]` returns `2 ^ 63`, and the
window `[1,2]` returns `1`, the sum `2 ^ 64 + 1` in `ULONG`. -/
theorem FindBestNormativePattern_window_wraps :
    (FindBestNormativePattern normWrap gmAll 1 1 1 []).map RankerResult.maxScore =
        some (2 ^ 63) ∧
      (FindBestNormativePattern normWrap gmAll 1 1 2 []).map RankerResult.maxScore =
        some 1 := by
  decide

/-- C16 (amended): let the files of the partitions `a..b` be the same in two
directories and let no score of the window `[a,b+1]` reach `2 ^ 64`. If
`FindBestNormativePattern` returns on `[a,b]`, every score it returns on
`[a,b+1]` is at least the score returned on `[a,b]`, and when the score
returned on `[a,b]` is positive it does return on `[a,b+1]`. -/
theorem FindBestNormativePattern_window_monotone (norm norm' : NormDir) (gm : Matcher)
    (M a b : Nat) (l l' : List NormativePattern)
    (hsame : ∀ p ∈ window a b, ∀ r, norm' p r = norm p r)
    (hfit : ∀ p ∈ window a (b + 1), ∀ r f, norm' p r = some f →
      scoreFormula norm' (contributingRank norm' gm M p r) a (b + 1) p f < ULONG_SIZE)
    (res : RankerResult) (hres : FindBestNormativePattern norm gm M a b l = some res) :
    (∀ res', FindBestNormativePattern norm' gm M a (b + 1) l' = some res' →
        res.maxScore ≤ res'.maxScore) ∧
      (0 < res.maxScore →
        ∃ res', FindBestNormativePattern norm' gm M a (b + 1) l' = some res') := by
  have hmono := foldl_electStep_window_succ norm norm' gm M a b l l' hsame hfit
  have hmax := FindBestNormativePattern_maxScore norm gm M a b l res hres
  constructor
  · intro res' hres'
    rw [hmax, FindBestNormativePattern_maxScore norm' gm M a (b + 1) l' res' hres']
    exact hmono
  · intro hpos
    rw [hmax] at hpos
    rcases foldl_electStep_elected (scoredPatterns norm' gm M a (b + 1)) (RankerState.init l')
      with ⟨h1, _⟩ | ⟨l1, e, l2, hsplit, _, hname, _, _⟩
    · rw [h1] at hmono
      have h0 : (RankerState.init l').maxScore = 0 := rfl
      omega
    · have hmem : e ∈ scoredPatterns norm' gm M a (b + 1) := by
        rw [hsplit]
        exact List.mem_append_right _ (List.mem_cons_self _ _)
      have hne : scoredPatterns norm' gm M a (b + 1) ≠ [] := by
        intro h
        rw [h] at hmem
        cases hmem
      obtain ⟨f, hf, _⟩ := mem_scoredPatterns norm' gm M a (b + 1) e hmem
      have hex := foldl_electStep_exists (scoredPatterns norm' gm M a (b + 1))
        (RankerState.init l') hne
      simp only [FindBestNormativePattern, partitionLoop_eq_foldl, hex, if_true, hname, hf]
      exact ⟨_, rfl⟩

theorem FindBestNormativePattern_window_monotone_witness :
    (∀ p ∈ window 1 2, ∀ r f, normScenario1 p r = some f →
        scoreFormula normScenario1 (contributingRank normScenario1 gmAll 1 p r) 1 2 p f <
          ULONG_SIZE) ∧
      FindBestNormativePattern normScenario1 gmAll 1 1 1 [] =
        some ⟨7, [⟨1, 1, 7, "g"⟩], some (1, 1),
          some ["v 1 a", "v 2 b", "v 3 c", "v 4 d", "e 1 2 x", "e 2 3 x", "e 3 4 x"]⟩ ∧
      (∀ res', FindBestNormativePattern normScenario1 gmAll 1 1 2 [] = some res' →
        7 ≤ res'.maxScore) ∧
      (0 < 7 → ∃ res', FindBestNormativePattern normScenario1 gmAll 1 1 2 [] = some res') :=
  have hfit : ∀ p ∈ window 1 2, ∀ r f, normScenario1 p r = some f →
      scoreFormula normScenario1 (contributingRank normScenario1 gmAll 1 p r) 1 2 p f <
        ULONG_SIZE := by
    intro p hp r f hf
    have hp2 : p = 1 ∨ p = 2 := by
      have := (mem_window 1 2 p).mp hp
      omega
    have hr : r = 1 := by
      by_contra hne
      simp [normScenario1, hne] at hf
    subst hr
    rcases hp2 with rfl | rfl
    · have : f = ⟨"g", 7, 1,
          ["v 1 a", "v 2 b", "v 3 c", "v 4 d", "e 1 2 x", "e 2 3 x", "e 3 4 x"]⟩ := by
        simp [normScenario1] at hf
        exact hf.symm
      subst this
      decide
    · have : f = ⟨"g", 7, 1,
          ["v 1 a", "v 2 b", "v 3 c", "v 4 d", "e 1 2 x", "e 2 3 x", "e 3 4 x"]⟩ := by
        simp [normScenario1] at hf
        exact hf.symm
      subst this
      decide
  have hres : FindBestNormativePattern normScenario1 gmAll 1 1 1 [] =
      some ⟨7, [⟨1, 1, 7, "g"⟩], some (1, 1),
        some ["v 1 a", "v 2 b", "v 3 c", "v 4 d", "e 1 2 x", "e 2 3 x", "e 3 4 x"]⟩ := by
    decide
  ⟨hfit, hres,
    FindBestNormativePattern_window_monotone normScenario1 normScenario1 gmAll 1 1 1 [] []
      (fun _ _ _ => rfl) hfit _ hres⟩
/-! ## Anomaly ranker: extending the window -/

theorem sublist_flatMap {α β : Type} (f g : α → List β) (l1 l2 : List α)
    (hl : l1.Sublist l2) (hfg : ∀ a, (f a).Sublist (g a)) :
    (l1.flatMap f).Sublist (l2.flatMap g) := by
  induction hl with
  | slnil => exact List.Sublist.refl _
  | cons a _ ih =>
    rw [List.flatMap_cons]
    exact List.Sublist.trans ih (List.sublist_append_right _ _)
  | cons₂ a _ ih =>
    rw [List.flatMap_cons, List.flatMap_cons]
    exact List.Sublist.append (hfg a) ih

theorem anomCells_sublist (N numAnom numAnom' : Nat) (h : numAnom ≤ numAnom') :
    (anomCells N numAnom).Sublist (anomCells (N + 1) numAnom') := by
  unfold anomCells
  apply sublist_flatMap
  · exact List.range'_sublist_right.mpr (Nat.le_succ N)
  · intro a
    exact List.Sublist.map _ (List.range'_sublist_right.mpr h)

theorem aggregatedScore_window_succ (anom anom' : AnomDir) (gm : Matcher)
    (N first numAnom numAnom' i k : Nat) (own : ℚ) (hnum : numAnom ≤ numAnom')
    (hsame : ∀ q, 1 ≤ q → q ≤ N → ∀ j, anom' (q + (first - 1)) j = anom (q + (first - 1)) j)
    (hnonneg : ∀ q j s, (1 ≤ q ∧ q ≤ N + 1) → (1 ≤ j ∧ j ≤ numAnom') →
      anom' (q + (first - 1)) j = some s → 0 ≤ s) :
    aggregatedScore anom gm N first numAnom i k own ≤
      aggregatedScore anom' gm (N + 1) first numAnom' i k own := by
  unfold aggregatedScore
  have hcongr : ((anomCells N numAnom).filter (fun c => decide (c ≠ (i, k)))).filterMap
      (matchedScore anom gm first i k) =
      ((anomCells N numAnom).filter (fun c => decide (c ≠ (i, k)))).filterMap
      (matchedScore anom' gm first i k) := by
    apply List.filterMap_congr
    intro c hc
    have hmem := (mem_anomCells N numAnom c.1 c.2).mp (List.mem_of_mem_filter hc)
    simp only [matchedScore, hsame c.1 hmem.1.1 hmem.1.2]
  rw [hcongr]
  have hsub : (((anomCells N numAnom).filter (fun c => decide (c ≠ (i, k)))).filterMap
      (matchedScore anom' gm first i k)).Sublist
      (((anomCells (N + 1) numAnom').filter (fun c => decide (c ≠ (i, k)))).filterMap
      (matchedScore anom' gm first i k)) :=
    List.Sublist.filterMap _ (List.Sublist.filter _ (anomCells_sublist N numAnom numAnom' hnum))
  have hle := List.Sublist.sum_le_sum hsub (by
    intro s hs
    obtain ⟨c, hcm, hc⟩ := List.mem_filterMap.mp hs
    have hcell := (mem_anomCells (N + 1) numAnom' c.1 c.2).mp (List.mem_of_mem_filter hcm)
    unfold matchedScore at hc
    cases hq : anom' (c.1 + (first - 1)) c.2 with
    | none => simp [hq] at hc
    | some v =>
      simp only [hq] at hc
      split at hc
      · cases hc
        exact hnonneg c.1 c.2 s hcell.1 hcell.2 hq
      · cases hc)
  linarith

/-- C17 (as stated) fails: with leading scores 1 in `anom_1_1` and -1 in
`anom_2_1` that match, the aggregated score of `(1, 1)` is 1 over the window
`[1,1]` and 0 over the window `[1,2]`. -/
theorem FindMostAnomalousSubstructures_window_decreases :
    (anomSweep anomNegative gmAll 1 1 1 ⟨DBL_MAX, fun _ _ => 0, []⟩).anomScore 1 1 = 1 ∧
      (anomSweep anomNegative gmAll 2 1 1 ⟨DBL_MAX, fun _ _ => 0, []⟩).anomScore 1 1 = 0 := by
  decide!

/-- C17 (amended): when no leading score of the extended window is negative,
the aggregated score that `FindMostAnomalousSubstructures` computes for an
existing instance `(i, k)` over the window extended by one partition (same
files for the old partitions, same matcher, at least as many instance numbers
scanned) is at least its aggregated score over the original window. -/
theorem FindMostAnomalousSubstructures_window_monotone (anom anom' : AnomDir) (gm : Matcher)
    (NUM_PARTITIONS firstPartition numAnomalousInstances numAnomalousInstances' : Nat)
    (st st' : AnomState) (i k : Nat) (own : ℚ)
    (hi : 1 ≤ i ∧ i ≤ NUM_PARTITIONS) (hk : 1 ≤ k ∧ k ≤ numAnomalousInstances)
    (hnum : numAnomalousInstances ≤ numAnomalousInstances')
    (hown : anom (i + (firstPartition - 1)) k = some own)
    (hsame : ∀ q, 1 ≤ q → q ≤ NUM_PARTITIONS → ∀ j,
      anom' (q + (firstPartition - 1)) j = anom (q + (firstPartition - 1)) j)
    (hnonneg : ∀ q j s, (1 ≤ q ∧ q ≤ NUM_PARTITIONS + 1) →
      (1 ≤ j ∧ j ≤ numAnomalousInstances') →
      anom' (q + (firstPartition - 1)) j = some s → 0 ≤ s) :
    (anomSweep anom gm NUM_PARTITIONS firstPartition numAnomalousInstances st).anomScore i k ≤
      (anomSweep anom' gm (NUM_PARTITIONS + 1) firstPartition numAnomalousInstances'
        st').anomScore i k := by
  have hown' : anom' (i + (firstPartition - 1)) k = some own := by
    rw [hsame i hi.1 hi.2, hown]
  rw [anomSweep_eq_sweepStep, anomSweep_eq_sweepStep,
    sweep_anomScore anom gm _ _ _ _ st (i, k) _
      ((mem_anomCells _ _ i k).mpr ⟨hi, hk⟩)
      (show cellScore anom gm NUM_PARTITIONS firstPartition numAnomalousInstances (i, k) =
        some (aggregatedScore anom gm NUM_PARTITIONS firstPartition numAnomalousInstances
          i k own) by simp [cellScore, hown]),
    sweep_anomScore anom' gm _ _ _ _ st' (i, k) _
      ((mem_anomCells _ _ i k).mpr ⟨⟨hi.1, by omega⟩, ⟨hk.1, by omega⟩⟩)
      (show cellScore anom' gm (NUM_PARTITIONS + 1) firstPartition numAnomalousInstances'
          (i, k) =
        some (aggregatedScore anom' gm (NUM_PARTITIONS + 1) firstPartition
          numAnomalousInstances' i k own) by simp [cellScore, hown'])]
  exact aggregatedScore_window_succ anom anom' gm NUM_PARTITIONS firstPartition
    numAnomalousInstances numAnomalousInstances' i k own hnum hsame hnonneg

theorem FindMostAnomalousSubstructures_window_monotone_witness :
    anomScenario2 (1 + (1 - 1)) 1 = some (1 / 4) ∧
      (∀ q j s, (1 ≤ q ∧ q ≤ 1 + 1) → (1 ≤ j ∧ j ≤ 1) →
        anomScenario2 (q + (1 - 1)) j = some s → 0 ≤ s) ∧
      (anomSweep anomScenario2 gmAll 1 1 1 ⟨DBL_MAX, fun _ _ => 0, []⟩).anomScore 1 1 ≤
        (anomSweep anomScenario2 gmAll (1 + 1) 1 1 ⟨DBL_MAX, fun _ _ => 0, []⟩).anomScore 1 1 :=
  have hown : anomScenario2 (1 + (1 - 1)) 1 = some (1 / 4) := by decide!
  have hnonneg : ∀ q j s, (1 ≤ q ∧ q ≤ 1 + 1) → (1 ≤ j ∧ j ≤ 1) →
      anomScenario2 (q + (1 - 1)) j = some s → 0 ≤ s := by
    intro q j s _ _ hs
    unfold anomScenario2 at hs
    split at hs
    · cases hs
      norm_num
    · cases hs
  ⟨hown, hnonneg,
    FindMostAnomalousSubstructures_window_monotone anomScenario2 anomScenario2 gmAll 1 1 1 1
      ⟨DBL_MAX, fun _ _ => 0, []⟩ ⟨DBL_MAX, fun _ _ => 0, []⟩ 1 1 (1 / 4)
      (by decide) (by decide) (le_refl _) hown (fun _ _ _ _ => rfl) hnonneg⟩

/-! ## Controller window -/

theorem foldl_pollStep (polls : List Bool) (s : WindowState)
    (ho : s.oldestPartition + polls.count true < ULONG_SIZE)
    (hc : s.currentPartition + polls.count true < ULONG_SIZE) :
    polls.foldl pollStep s =
      ⟨s.oldestPartition + polls.count true, s.currentPartition + polls.count true⟩ := by
  induction polls generalizing s with
  | nil => rfl
  | cons e polls ih =>
    rw [List.foldl_cons]
    cases e with
    | false =>
      simp only [List.count_cons, Bool.false_eq_true, if_false, beq_iff_eq, Nat.add_zero]
        at ho hc ⊢
      exact ih s ho hc
    | true =>
      simp only [List.count_cons, beq_self_eq_true, if_true] at ho hc ⊢
      have h1 : (s.oldestPartition + 1) % ULONG_SIZE = s.oldestPartition + 1 :=
        Nat.mod_eq_of_lt (by omega)
      have h2 : (s.currentPartition + 1) % ULONG_SIZE = s.currentPartition + 1 :=
        Nat.mod_eq_of_lt (by omega)
      rw [ih (pollStep s true) (by simp only [pollStep, if_true, h1]; omega)
        (by simp only [pollStep, if_true, h2]; omega)]
      simp only [pollStep, if_true, h1, h2]
      congr 1 <;> omega

/-- C18: for `N >= 1` the window starts as `[1, N]`; in the state reached by any sequence
of polls, followed by one more poll, `current - oldest + 1 <= N` holds before
and after that poll, a poll that claims a file increases `oldest` and
`current` by exactly one and a poll that finds no file leaves both unchanged.
The counters are `ULONG`; the statement is for runs in which `current` stays
below `2 ^ 64`. -/
theorem controller_window (N : Int) (polls : List Bool) (entry : Bool) (hN : 1 ≤ N)
    (hfit : N + (polls ++ [entry]).count true < 2 ^ 64) :
    controllerLoop N [] = ⟨1, N.toNat⟩ ∧
      ((controllerLoop N polls).currentPartition : Int) -
        (controllerLoop N polls).oldestPartition + 1 ≤ N ∧
      ((controllerLoop N (polls ++ [entry])).currentPartition : Int) -
        (controllerLoop N (polls ++ [entry])).oldestPartition + 1 ≤ N ∧
      controllerLoop N (polls ++ [entry]) =
        (if entry then
          ⟨(controllerLoop N polls).oldestPartition + 1,
            (controllerLoop N polls).currentPartition + 1⟩
        else controllerLoop N polls) := by
  have hstart : WindowState.start N = ⟨1, N.toNat⟩ := by
    simp only [WindowState.start, intToULONG, ULONG_SIZE]
    congr 1
    omega
  have hnext : controllerLoop N (polls ++ [entry]) =
      pollStep (controllerLoop N polls) entry := by
    simp [controllerLoop, List.foldl_append]
  have hcount : (polls ++ [entry]).count true = polls.count true + (if entry then 1 else 0) := by
    cases entry <;> simp
  have hk : N.toNat + (polls.count true + (if entry then 1 else 0)) < 2 ^ 64 := by
    rw [hcount] at hfit
    generalize polls.count true + (if entry then 1 else 0) = k at hfit ⊢
    omega
  have hk0 : N.toNat + polls.count true < 2 ^ 64 := by
    split at hk <;> omega
  have hloop : controllerLoop N polls = ⟨1 + polls.count true, N.toNat + polls.count true⟩ := by
    unfold controllerLoop
    rw [hstart]
    exact foldl_pollStep polls ⟨1, N.toNat⟩
      (by simp only [ULONG_SIZE]; omega) (by simp only [ULONG_SIZE]; omega)
  clear hfit hcount
  refine ⟨by simp [controllerLoop, hstart], ?_, ?_, ?_⟩
  · rw [hloop]
    simp only
    omega
  · rw [hnext, hloop]
    cases entry with
    | false =>
      simp only [pollStep, Bool.false_eq_true, if_false]
      omega
    | true =>
      simp only [if_true] at hk
      have h1 : (1 + polls.count true + 1) % ULONG_SIZE = 1 + polls.count true + 1 :=
        Nat.mod_eq_of_lt (by simp only [ULONG_SIZE]; omega)
      have h2 : (N.toNat + polls.count true + 1) % ULONG_SIZE =
          N.toNat + polls.count true + 1 :=
        Nat.mod_eq_of_lt (by simp only [ULONG_SIZE]; omega)
      simp only [pollStep, if_true, h1, h2]
      omega
  · rw [hnext, hloop]
    cases entry with
    | false => simp [pollStep]
    | true =>
      simp only [if_true] at hk
      have h1 : (1 + polls.count true + 1) % ULONG_SIZE = 1 + polls.count true + 1 :=
        Nat.mod_eq_of_lt (by simp only [ULONG_SIZE]; omega)
      have h2 : (N.toNat + polls.count true + 1) % ULONG_SIZE =
          N.toNat + polls.count true + 1 :=
        Nat.mod_eq_of_lt (by simp only [ULONG_SIZE]; omega)
      simp only [pollStep, if_true, h1, h2]

theorem controller_window_witness :
    (1 : Int) ≤ 2 ∧ (2 : Int) + ([true, false] ++ [true]).count true < 2 ^ 64 ∧
      controllerLoop 2 [] = ⟨1, (2 : Int).toNat⟩ ∧
      ((controllerLoop 2 [true, false]).currentPartition : Int) -
        (controllerLoop 2 [true, false]).oldestPartition + 1 ≤ 2 ∧
      ((controllerLoop 2 ([true, false] ++ [true])).currentPartition : Int) -
        (controllerLoop 2 ([true, false] ++ [true])).oldestPartition + 1 ≤ 2 ∧
      controllerLoop 2 ([true, false] ++ [true]) =
        (if true then
          ⟨(controllerLoop 2 [true, false]).oldestPartition + 1,
            (controllerLoop 2 [true, false]).currentPartition + 1⟩
        else controllerLoop 2 [true, false]) :=
  ⟨by decide, by decide, controller_window 2 [true, false] true (by decide) (by decide)⟩

/-! ## Purge of the holding directories -/

theorem digitsValue_concat (l : List Char) (d : Char) :
    digitsValue (l ++ [d]) = 10 * digitsValue l + (d.toNat - 48) := by
  simp [digitsValue, List.foldl_append]

theorem digitChar_lt_ten (k : Nat) (h : k < 10) :
    (Nat.digitChar k).toNat - 48 = k ∧ Nat.digitChar k ≠ '_' := by
  interval_cases k <;> decide

theorem toDigitsCore_spec (fuel : Nat) : ∀ (n : Nat) (ds : List Char), n < fuel →
    ∃ l, Nat.toDigitsCore 10 fuel n ds = l ++ ds ∧ digitsValue l = n ∧ ∀ c ∈ l, c ≠ '_' := by
  induction fuel with
  | zero => intro n ds h; omega
  | succ f ih =>
    intro n ds h
    have hd := digitChar_lt_ten (n % 10) (Nat.mod_lt _ (by decide))
    by_cases h0 : n / 10 = 0
    · refine ⟨[Nat.digitChar (n % 10)], by simp [Nat.toDigitsCore, h0], ?_, ?_⟩
      · simp only [digitsValue, List.foldl_cons, List.foldl_nil, hd.1]
        omega
      · intro c hc
        rw [List.mem_singleton] at hc
        rw [hc]
        exact hd.2
    · obtain ⟨l, hl, hv, hc⟩ := ih (n / 10) (Nat.digitChar (n % 10) :: ds) (by omega)
      refine ⟨l ++ [Nat.digitChar (n % 10)], ?_, ?_, ?_⟩
      · simp [Nat.toDigitsCore, h0, hl]
      · rw [digitsValue_concat, hv, hd.1]
        omega
      · intro c hcm
        rcases List.mem_append.mp hcm with hcm | hcm
        · exact hc c hcm
        · rw [List.mem_singleton] at hcm
          rw [hcm]
          exact hd.2

theorem toDigits_spec (n : Nat) :
    digitsValue (Nat.toDigits 10 n) = n ∧ ∀ c ∈ Nat.toDigits 10 n, c ≠ '_' := by
  obtain ⟨l, hl, hv, hc⟩ := toDigitsCore_spec (n + 1) n [] (Nat.lt_succ_self n)
  rw [List.append_nil] at hl
  unfold Nat.toDigits
  rw [hl]
  exact ⟨hv, hc⟩

theorem toDigits_injective (p q : Nat) (h : Nat.toDigits 10 p = Nat.toDigits 10 q) : p = q := by
  rw [← (toDigits_spec p).1, ← (toDigits_spec q).1, h]

theorem split_at_first {α : Type} (a : α) (l1 l2 r1 r2 : List α) (h1 : a ∉ l1) (h2 : a ∉ l2)
    (h : l1 ++ a :: r1 = l2 ++ a :: r2) : l1 = l2 ∧ r1 = r2 := by
  induction l1 generalizing l2 with
  | nil =>
    cases l2 with
    | nil => simpa using h
    | cons b l2 =>
      simp only [List.nil_append, List.cons_append, List.cons.injEq] at h
      exact absurd (h.1 ▸ List.mem_cons_self _ _) h2
  | cons c l1 ih =>
    cases l2 with
    | nil =>
      simp only [List.nil_append, List.cons_append, List.cons.injEq] at h
      exact absurd (h.1 ▸ List.mem_cons_self _ _) h1
    | cons b l2 =>
      simp only [List.cons_append, List.cons.injEq] at h
      obtain ⟨e1, e2⟩ := ih l2 (fun hm => h1 (List.mem_cons_of_mem _ hm))
        (fun hm => h2 (List.mem_cons_of_mem _ hm)) h.2
      exact ⟨by rw [h.1, e1], e2⟩

theorem globMatch_lits (w : List Char) (ps : List GlobItem) (s : List Char) :
    globMatch (w.map GlobItem.lit ++ ps) s = true ↔ ∃ t, s = w ++ t ∧ globMatch ps t = true := by
  induction w generalizing s with
  | nil => simp
  | cons c w ih =>
    cases s with
    | nil => simp [globMatch]
    | cons d t0 =>
      have hstep : globMatch (GlobItem.lit c :: (w.map GlobItem.lit ++ ps)) (d :: t0) =
          (decide (c = d) && globMatch (w.map GlobItem.lit ++ ps) t0) := rfl
      rw [List.map_cons, List.cons_append, hstep, Bool.and_eq_true, decide_eq_true_eq, ih]
      constructor
      · rintro ⟨hcd, t, ht0, ht⟩
        exact ⟨t, by rw [hcd, ht0]; rfl, ht⟩
      · rintro ⟨t, hs, ht⟩
        simp only [List.cons_append, List.cons.injEq] at hs
        exact ⟨hs.1.symm, t, hs.2, ht⟩

theorem globMatch_star (ps : List GlobItem) (s : List Char) :
    globMatch (GlobItem.star :: ps) s = true ↔ ∃ x t, s = x ++ t ∧ globMatch ps t = true := by
  simp only [globMatch, List.any_eq_true, List.mem_tails]
  constructor
  · rintro ⟨t, ⟨x, rfl⟩, ht⟩
    exact ⟨x, t, rfl, ht⟩
  · rintro ⟨x, t, rfl, ht⟩
    exact ⟨t, ⟨x, rfl⟩, ht⟩

theorem globMatch_rmPattern (P : Nat) (s : List Char) :
    globMatch (rmPattern P) s = true ↔
      ∃ x y, s = x ++ '_' :: (Nat.toDigits 10 P ++ '_' :: y) := by
  unfold rmPattern
  rw [globMatch_star]
  constructor
  · rintro ⟨x, t, rfl, ht⟩
    obtain ⟨y, rfl, _⟩ := (globMatch_lits _ _ _).mp ht
    exact ⟨x, y, by simp⟩
  · rintro ⟨x, y, rfl⟩
    refine ⟨x, '_' :: (Nat.toDigits 10 P ++ '_' :: y), rfl, ?_⟩
    rw [globMatch_lits]
    refine ⟨y, by simp, ?_⟩
    rw [globMatch_star]
    exact ⟨y, [], by simp, rfl⟩

theorem artifactName_eq (kind : List Char) (p k : Nat) :
    artifactName kind p k = kind ++ '_' :: (Nat.toDigits 10 p ++ '_' :: Nat.toDigits 10 k) := by
  simp [artifactName]

theorem artifactKinds_plain (kind : List Char) (h : kind ∈ artifactKinds) :
    '_' ∉ kind ∧ kind.head? ≠ some '.' ∧ kind ≠ [] := by
  simp only [artifactKinds, List.mem_cons, List.mem_singleton, List.not_mem_nil, or_false] at h
  rcases h with rfl | rfl | rfl <;> decide

theorem rmExpands_artifact (kind : List Char) (h : kind ∈ artifactKinds) (P p k : Nat) :
    rmExpands P (artifactName kind p k) = true ↔ p = P := by
  obtain ⟨hk1, hk2, hk3⟩ := artifactKinds_plain kind h
  have hhead : (artifactName kind p k).head? ≠ some '.' := by
    rw [artifactName_eq]
    cases kind with
    | nil => exact absurd rfl hk3
    | cons c cs => simpa using hk2
  simp only [rmExpands, hhead, ne_eq, not_false_eq_true, decide_True, Bool.true_and,
    globMatch_rmPattern]
  constructor
  · rintro ⟨x, y, hxy⟩
    rw [artifactName_eq] at hxy
    have hx : '_' ∉ x := by
      intro hx
      obtain ⟨x1, x2, rfl⟩ := List.append_of_mem hx
      by_cases hx1 : '_' ∈ x1
      · obtain ⟨x3, x4, rfl⟩ := List.append_of_mem hx1
        have hc := congrArg (List.count '_') hxy
        simp only [List.count_append, List.count_cons_self, List.count_eq_zero_of_not_mem hk1,
          List.count_eq_zero_of_not_mem (fun hm => (toDigits_spec p).2 _ hm rfl),
          List.count_eq_zero_of_not_mem (fun hm => (toDigits_spec k).2 _ hm rfl)] at hc
        omega
      · have hc := congrArg (List.count '_') hxy
        simp only [List.count_append, List.count_cons_self, List.count_eq_zero_of_not_mem hk1,
          List.count_eq_zero_of_not_mem (fun hm => (toDigits_spec p).2 _ hm rfl),
          List.count_eq_zero_of_not_mem (fun hm => (toDigits_spec k).2 _ hm rfl)] at hc
        omega
    obtain ⟨_, h2⟩ := split_at_first '_' kind x _ _ hk1 hx hxy
    obtain ⟨h3, _⟩ := split_at_first '_' _ _ _ _
      (fun hm => (toDigits_spec p).2 _ hm rfl) (fun hm => (toDigits_spec P).2 _ hm rfl) h2
    exact toDigits_injective p P h3
  · rintro rfl
    exact ⟨kind, Nat.toDigits 10 k, artifactName_eq kind p k⟩

theorem RemoveNoLongerNeededFiles_single (directory : List (List Char)) (P : Nat) :
    RemoveNoLongerNeededFiles directory P P =
      directory.filter (fun name => !rmExpands P name) := by
  have hw : window P P = [P] := by
    unfold window
    have : P + 1 - P = 1 := by omega
    rw [this]
    rfl
  simp [RemoveNoLongerNeededFiles, hw]

/-- C19: `RemoveNoLongerNeededFiles(dir, P, P)` removes every file named
`norm_P_k`, `anom_P_k` or `anomInst_P_k` and keeps exactly the files of these
kinds of every partition `p != P` that were there; the call made on both
holding directories when a new partition enters has `P` equal to the value
of `oldest` before the increment, the partition that leaves the window. -/
theorem RemoveNoLongerNeededFiles_purges (h : Holding) (directory : List (List Char))
    (kind : List Char) (P p k : Nat) (hkind : kind ∈ artifactKinds)
    (ho : h.window.oldestPartition < ULONG_SIZE) :
    artifactName kind P k ∉ RemoveNoLongerNeededFiles directory P P ∧
      (p ≠ P → (artifactName kind p k ∈ RemoveNoLongerNeededFiles directory P P ↔
        artifactName kind p k ∈ directory)) ∧
      (slide h).anomalousFiles =
        RemoveNoLongerNeededFiles h.anomalousFiles h.window.oldestPartition
          h.window.oldestPartition ∧
      (slide h).normFiles =
        RemoveNoLongerNeededFiles h.normFiles h.window.oldestPartition
          h.window.oldestPartition := by
  have hP : ((pollStep h.window true).oldestPartition + ULONG_SIZE - 1) % ULONG_SIZE =
      h.window.oldestPartition := by
    simp only [pollStep, if_true, ULONG_SIZE] at ho ⊢
    omega
  refine ⟨?_, ?_, ?_, ?_⟩
  · rw [RemoveNoLongerNeededFiles_single, List.mem_filter]
    rintro ⟨_, hn⟩
    rw [(rmExpands_artifact kind hkind P P k).mpr rfl] at hn
    exact absurd hn (by decide)
  · intro hne
    rw [RemoveNoLongerNeededFiles_single, List.mem_filter]
    have hfalse : rmExpands P (artifactName kind p k) = false := by
      cases hx : rmExpands P (artifactName kind p k) with
      | false => rfl
      | true => exact absurd ((rmExpands_artifact kind hkind P p k).mp hx) hne
    rw [hfalse]
    simp
  · simp only [slide, hP]
  · simp only [slide, hP]

theorem RemoveNoLongerNeededFiles_purges_witness :
    "norm".data ∈ artifactKinds ∧ holdingSmall.window.oldestPartition < ULONG_SIZE ∧
      artifactName "norm".data 1 1 ∉ RemoveNoLongerNeededFiles holdingSmall.normFiles 1 1 ∧
      ((2 : Nat) ≠ 1 →
        (artifactName "norm".data 2 1 ∈ RemoveNoLongerNeededFiles holdingSmall.normFiles 1 1 ↔
          artifactName "norm".data 2 1 ∈ holdingSmall.normFiles)) ∧
      (slide holdingSmall).anomalousFiles =
        RemoveNoLongerNeededFiles holdingSmall.anomalousFiles
          holdingSmall.window.oldestPartition holdingSmall.window.oldestPartition ∧
      (slide holdingSmall).normFiles =
        RemoveNoLongerNeededFiles holdingSmall.normFiles
          holdingSmall.window.oldestPartition holdingSmall.window.oldestPartition :=
  ⟨by decide, by decide,
    RemoveNoLongerNeededFiles_purges holdingSmall holdingSmall.normFiles "norm".data 1 2 1
      (by decide) (by decide)⟩

/-! ## Intake of the oldest file -/

theorem foldl_findOldestStep_other (listing : List DirEntry) (s : OldestState) :
    listing.foldl findOldestStep s = (otherEntries listing).foldl findOldestStep s := by
  induction listing generalizing s with
  | nil => rfl
  | cons e l ih =>
    by_cases h : e.d_name = ['.'] ∨ e.d_name = ['.', '.']
    · have hs : findOldestStep s e = s := by simp [findOldestStep, h]
      have hf : otherEntries (e :: l) = otherEntries l := by
        simp only [otherEntries, List.filter_cons]
        rw [if_neg]
        simp [h]
      rw [List.foldl_cons, hs, ih, hf]
    · have hf : otherEntries (e :: l) = e :: otherEntries l := by
        simp only [otherEntries, List.filter_cons]
        rw [if_pos]
        simp [h]
      rw [List.foldl_cons, ih, hf, List.foldl_cons]

theorem mem_otherEntries (listing : List DirEntry) (e : DirEntry) :
    e ∈ otherEntries listing ↔ e ∈ listing ∧ e.d_name ≠ ['.'] ∧ e.d_name ≠ ['.', '.'] := by
  simp [otherEntries, List.mem_filter, not_or]

theorem foldl_findOldestStep_cases (cs : List DirEntry)
    (hcs : ∀ e ∈ cs, e.d_name ≠ ['.'] ∧ e.d_name ≠ ['.', '.']) (s : OldestState) :
    ((cs.foldl findOldestStep s).oldestTime = s.oldestTime ∧
        (cs.foldl findOldestStep s).oldestEntry = s.oldestEntry ∧
        (cs.foldl findOldestStep s).oldestFileName = s.oldestFileName ∧
        ∀ x ∈ cs, s.oldestTime ≤ x.st_mtime) ∨
      ∃ l1 e l2, cs = l1 ++ e :: l2 ∧
        (cs.foldl findOldestStep s).oldestEntry = some e ∧
        (cs.foldl findOldestStep s).oldestFileName = e.d_name ∧
        (cs.foldl findOldestStep s).oldestTime = e.st_mtime ∧
        e.st_mtime < s.oldestTime ∧
        (∀ x ∈ l1, e.st_mtime < x.st_mtime) ∧ (∀ x ∈ l2, e.st_mtime ≤ x.st_mtime) := by
  induction cs generalizing s with
  | nil => exact Or.inl ⟨rfl, rfl, rfl, fun _ h => by cases h⟩
  | cons a cs ih =>
    have ha := hcs a (List.mem_cons_self _ _)
    have hna : ¬ (a.d_name = ['.'] ∨ a.d_name = ['.', '.']) := by
      rintro (h | h)
      · exact ha.1 h
      · exact ha.2 h
    have hcs2 : ∀ e ∈ cs, e.d_name ≠ ['.'] ∧ e.d_name ≠ ['.', '.'] :=
      fun e he => hcs e (List.mem_cons_of_mem _ he)
    rw [List.foldl_cons]
    by_cases hlt : a.st_mtime < s.oldestTime
    · have hstep : findOldestStep s a = ⟨a.st_mtime, some a, a.d_name, true⟩ := by
        simp [findOldestStep, hna, hlt]
      rw [hstep]
      rcases ih hcs2 ⟨a.st_mtime, some a, a.d_name, true⟩ with
        ⟨h1, h2, h3, h4⟩ | ⟨l1, e, l2, hsplit, h1, h2, h3, h4, h5, h6⟩
      · exact Or.inr ⟨[], a, cs, rfl, h2, h3, h1, hlt,
          fun _ h => absurd h (List.not_mem_nil _), h4⟩
      · refine Or.inr ⟨a :: l1, e, l2, by rw [hsplit]; rfl, h1, h2, h3,
          lt_trans h4 hlt, ?_, h6⟩
        intro x hx
        rcases List.mem_cons.mp hx with rfl | hx
        · exact h4
        · exact h5 x hx
    · have hstep : findOldestStep s a = ⟨s.oldestTime, s.oldestEntry, s.oldestFileName, true⟩ := by
        simp [findOldestStep, hna, hlt]
      rw [hstep]
      rcases ih hcs2 ⟨s.oldestTime, s.oldestEntry, s.oldestFileName, true⟩ with
        ⟨h1, h2, h3, h4⟩ | ⟨l1, e, l2, hsplit, h1, h2, h3, h4, h5, h6⟩
      · refine Or.inl ⟨h1, h2, h3, ?_⟩
        intro x hx
        rcases List.mem_cons.mp hx with rfl | hx
        · exact not_lt.mp hlt
        · exact h4 x hx
      · refine Or.inr ⟨a :: l1, e, l2, by rw [hsplit]; rfl, h1, h2, h3, h4, ?_, h6⟩
        intro x hx
        rcases List.mem_cons.mp hx with rfl | hx
        · exact lt_of_lt_of_le h4 (not_lt.mp hlt)
        · exact h5 x hx

theorem foldl_findOldestStep_atLeastOne (cs : List DirEntry)
    (hcs : ∀ e ∈ cs, e.d_name ≠ ['.'] ∧ e.d_name ≠ ['.', '.']) (s : OldestState) :
    (cs.foldl findOldestStep s).atLeastOneFile =
      (s.atLeastOneFile || !cs.isEmpty) := by
  induction cs generalizing s with
  | nil => simp
  | cons a cs ih =>
    have ha := hcs a (List.mem_cons_self _ _)
    rw [List.foldl_cons, ih (fun e he => hcs e (List.mem_cons_of_mem _ he))]
    have : (findOldestStep s a).atLeastOneFile = true := by
      unfold findOldestStep
      rw [if_neg (by rintro (h | h); exact ha.1 h; exact ha.2 h)]
      split <;> rfl
    simp [this]

/-- What `FindOldestFile` returns: `NULL` when the directory has no entry
other than `.` and `..`; and when some other entry was modified before
`MAX_TIME_STAMP`, the first one in `readdir` order among the entries with the
smallest time. -/
theorem FindOldestFile_first_oldest (uninitialised : List Char) (listing : List DirEntry) :
    (otherEntries listing = [] → FindOldestFile uninitialised listing = some none) ∧
      ((∃ x ∈ otherEntries listing, x.st_mtime < MAX_TIME_STAMP) →
        ∃ l1 e l2, otherEntries listing = l1 ++ e :: l2 ∧
          FindOldestFile uninitialised listing = some (some e.d_name) ∧
          (∀ x ∈ l1, e.st_mtime < x.st_mtime) ∧ (∀ x ∈ l2, e.st_mtime ≤ x.st_mtime)) := by
  have hcs : ∀ e ∈ otherEntries listing, e.d_name ≠ ['.'] ∧ e.d_name ≠ ['.', '.'] :=
    fun e he => ((mem_otherEntries listing e).mp he).2
  constructor
  · intro h
    unfold FindOldestFile
    rw [foldl_findOldestStep_other, h]
    rfl
  · rintro ⟨x, hx, hxlt⟩
    have hone := foldl_findOldestStep_atLeastOne (otherEntries listing) hcs
      ⟨MAX_TIME_STAMP, none, uninitialised, false⟩
    have hne : (otherEntries listing).isEmpty = false := by
      cases h : otherEntries listing with
      | nil => rw [h] at hx; cases hx
      | cons _ _ => rfl
    rw [hne] at hone
    rcases foldl_findOldestStep_cases (otherEntries listing) hcs
      ⟨MAX_TIME_STAMP, none, uninitialised, false⟩ with
      ⟨_, _, _, h4⟩ | ⟨l1, e, l2, hsplit, h1, h2, _, _, h5, h6⟩
    · exact absurd hxlt (not_lt.mpr (h4 x hx))
    · refine ⟨l1, e, l2, hsplit, ?_, h5, h6⟩
      unfold FindOldestFile
      rw [foldl_findOldestStep_other]
      simp only [hone, h1, h2, Bool.false_or, Bool.not_false, if_true, Option.map_some']
      split <;> rfl

/-- C20: on a directory whose only file was last modified at `LONG_MAX`, the
comparison `st_mtime < oldestTime` never succeeds: `oldestEntry` stays `NULL`
although a file exists, and the function returns `NULL` or, when the
uninitialised buffer `oldestFileName` holds more than one character, writes
through the null pointer. On a directory with a tie it returns the first of
the oldest entries. -/
theorem FindOldestFile_sentinel (uninitialised : List Char) :
    otherEntries listingLast = [⟨"g1.g".data, MAX_TIME_STAMP⟩] ∧
      FindOldestFile uninitialised listingLast =
        (if uninitialised.length > 1 then none else some none) ∧
      FindOldestFile uninitialised listingTie = some (some "a.g".data) := by
  refine ⟨by decide, ?_, ?_⟩
  · have h : listingLast.foldl findOldestStep ⟨MAX_TIME_STAMP, none, uninitialised, false⟩ =
        ⟨MAX_TIME_STAMP, none, uninitialised, true⟩ := by
      simp [listingLast, findOldestStep, MAX_TIME_STAMP]
    simp only [FindOldestFile, h, if_true]
    by_cases hu : uninitialised.length > 1 <;> simp [hu]
  · have h : listingTie.foldl findOldestStep ⟨MAX_TIME_STAMP, none, uninitialised, false⟩ =
        ⟨7, some ⟨"a.g".data, 7⟩, "a.g".data, true⟩ := by
      simp [listingTie, findOldestStep, MAX_TIME_STAMP]
    simp only [FindOldestFile, h]
    simp

/-! ## Normative ranker: missing files -/

theorem mem_takeWhile_range' (p : Nat → Bool) (n s x : Nat) :
    x ∈ (List.range' s n).takeWhile p ↔
      s ≤ x ∧ x < s + n ∧ ∀ j, s ≤ j → j ≤ x → p j = true := by
  induction n generalizing s with
  | zero =>
    simp only [List.range'_zero, List.takeWhile_nil, List.not_mem_nil, false_iff]
    omega
  | succ n ih =>
    rw [List.range'_succ, List.takeWhile_cons]
    by_cases hs : p s = true
    · rw [if_pos hs, List.mem_cons, ih]
      constructor
      · rintro (rfl | ⟨h1, h2, h3⟩)
        · refine ⟨le_refl _, by omega, ?_⟩
          intro j hj1 hj2
          have : j = x := by omega
          rw [this]
          exact hs
        · refine ⟨by omega, by omega, ?_⟩
          intro j hj1 hj2
          by_cases hj : j = s
          · rw [hj]
            exact hs
          · exact h3 j (by omega) hj2
      · rintro ⟨h1, h2, h3⟩
        by_cases hx : x = s
        · exact Or.inl hx
        · exact Or.inr ⟨by omega, by omega, fun j hj1 hj2 => h3 j (by omega) hj2⟩
    · rw [if_neg hs]
      simp only [List.not_mem_nil, false_iff, not_and, not_forall]
      intro h1 _
      exact ⟨s, le_refl _, h1, hs⟩

theorem mem_reachedRanks (norm : NormDir) (M p r : Nat) :
    r ∈ reachedRanks norm M p ↔
      1 ≤ r ∧ r ≤ M ∧ ∀ j, 1 ≤ j → j ≤ r → (norm p j).isSome = true := by
  unfold reachedRanks ranks
  rw [mem_takeWhile_range']
  constructor
  · rintro ⟨h1, h2, h3⟩
    exact ⟨h1, by omega, h3⟩
  · rintro ⟨h1, h2, h3⟩
    exact ⟨h1, by omega, h3⟩

theorem scored_iff (norm : NormDir) (gm : Matcher) (M first last p r : Nat) :
    (∃ e ∈ (partitionLoop norm gm M first last (RankerState.init [])).normativePatternList,
        e.partitionNumber = p ∧ e.bestSubNumber = r) ↔
      p ∈ window first last ∧ r ∈ reachedRanks norm M p := by
  constructor
  · rintro ⟨e, he, rfl, rfl⟩
    obtain ⟨p, hp, r, hr, hs⟩ := (mem_partitionLoop_list norm gm M _ _ e).mp he
    obtain ⟨f, hf⟩ := reachedRanks_isSome norm M p r hr
    simp only [scoredPattern, hf, Option.map_some', Option.some.injEq] at hs
    subst hs
    exact ⟨hp, hr⟩
  · rintro ⟨hp, hr⟩
    obtain ⟨f, hf⟩ := reachedRanks_isSome norm M p r hr
    refine ⟨⟨p, r, patternScore norm gm M first last p r f, f.graphInputFileName⟩, ?_, rfl, rfl⟩
    exact (mem_partitionLoop_list norm gm M _ _ _).mpr ⟨p, hp, r, hr, by simp [scoredPattern, hf]⟩

/-- C21 (as stated) fails: with `norm_1_1` and `norm_1_3` present and
`norm_1_2` missing (`M = 3`, window `[1,3]`, partition 2 without files,
`norm_3_1` present), the scan scores `(1, 1)` and `(3, 1)` only: the existing
`norm_1_3` behind the missing rank is not scored. -/
theorem FindBestNormativePattern_stops_at_hole :
    (normHole 1 3).isSome = true ∧
      (partitionLoop normHole gmNone 3 1 3 (RankerState.init [])).normativePatternList =
        [⟨3, 1, 5, "g3"⟩, ⟨1, 1, 3, "g1"⟩] := by
  decide

/-- C21 (amended): when `norm_p_r` does not exist for a rank `r` in `1..M`,
the scan leaves the rank loop of partition `p`: no rank of `p` from `r` on is
scored, also when its file exists. In general `(q, k)` is scored exactly when
`q` is in the window, `k` is in `1..M` and `norm_q_1 .. norm_q_k` all exist;
so a partition without `norm_q_1` is not scored and whether a rank of another
partition is scored does not depend on the files of `p`. -/
theorem FindBestNormativePattern_missing_rank (norm : NormDir) (gm : Matcher)
    (M firstPartition lastPartition p r : Nat) (hr : 1 ≤ r) (hmiss : norm p r = none) :
    (∀ e ∈ (partitionLoop norm gm M firstPartition lastPartition
          (RankerState.init [])).normativePatternList,
        e.partitionNumber = p → e.bestSubNumber < r) ∧
      (∀ q k,
        (∃ e ∈ (partitionLoop norm gm M firstPartition lastPartition
            (RankerState.init [])).normativePatternList,
          e.partitionNumber = q ∧ e.bestSubNumber = k) ↔
        (q ∈ window firstPartition lastPartition ∧ 1 ≤ k ∧ k ≤ M ∧
          ∀ j, 1 ≤ j → j ≤ k → (norm q j).isSome = true)) := by
  have hiff : ∀ q k,
      (∃ e ∈ (partitionLoop norm gm M firstPartition lastPartition
          (RankerState.init [])).normativePatternList,
        e.partitionNumber = q ∧ e.bestSubNumber = k) ↔
      (q ∈ window firstPartition lastPartition ∧ 1 ≤ k ∧ k ≤ M ∧
        ∀ j, 1 ≤ j → j ≤ k → (norm q j).isSome = true) := by
    intro q k
    rw [scored_iff, mem_reachedRanks]
  refine ⟨?_, hiff⟩
  intro e he hp
  by_contra hlt
  have h := (hiff e.partitionNumber e.bestSubNumber).mp ⟨e, he, rfl, rfl⟩
  have hsome := h.2.2.2 r hr (by omega)
  rw [hp, hmiss] at hsome
  cases hsome

theorem FindBestNormativePattern_missing_rank_witness :
    (1 : Nat) ≤ 2 ∧ normHole 1 2 = none ∧
      (∀ e ∈ (partitionLoop normHole gmNone 3 1 3 (RankerState.init [])).normativePatternList,
        e.partitionNumber = 1 → e.bestSubNumber < 2) ∧
      (∀ q k,
        (∃ e ∈ (partitionLoop normHole gmNone 3 1 3 (RankerState.init [])).normativePatternList,
          e.partitionNumber = q ∧ e.bestSubNumber = k) ↔
        (q ∈ window 1 3 ∧ 1 ≤ k ∧ k ≤ 3 ∧
          ∀ j, 1 ≤ j → j ≤ k → (normHole q j).isSome = true)) :=
  ⟨by decide, by decide,
    FindBestNormativePattern_missing_rank normHole gmNone 3 1 3 1 2 (by decide) (by decide)⟩

/-! ## Anomaly jobs -/

theorem spawnLoop_spec (bm : Nat × Nat → Bool) (l : List NormativePattern)
    (hl : l.Pairwise scoredAfter) :
    ∀ cur, ((∀ x ∈ l, x.partitionNumber ≤ cur) ∨ (∀ x ∈ l, x.partitionNumber ≠ cur)) →
      (∀ j ∈ spawnLoop bm l cur,
        j.partitionNumber ≠ cur ∧ bm (j.partitionNumber, j.bestSubNumber) = true ∧
        (∃ x ∈ l, x.partitionNumber = j.partitionNumber ∧
          x.bestSubNumber = j.bestSubNumber ∧ x.graphInputFileName = j.graphInputFileName) ∧
        (∀ x ∈ l, x.partitionNumber = j.partitionNumber →
          bm (x.partitionNumber, x.bestSubNumber) = true →
          x.bestSubNumber ≤ j.bestSubNumber)) ∧
      (∀ x ∈ l, x.partitionNumber ≠ cur → bm (x.partitionNumber, x.bestSubNumber) = true →
        ∃ j ∈ spawnLoop bm l cur, j.partitionNumber = x.partitionNumber) ∧
      (spawnLoop bm l cur).Pairwise (fun j1 j2 => j2.partitionNumber < j1.partitionNumber) := by
  induction l with
  | nil =>
    intro cur _
    refine ⟨?_, ?_, ?_⟩
    · intro j hj
      simp [spawnLoop] at hj
    · intro x hx
      cases hx
    · simp [spawnLoop]
  | cons x t ih =>
    intro cur hcur
    have hxt : ∀ y ∈ t, scoredAfter x y := fun y hy => List.rel_of_pairwise_cons hl hy
    have ht : t.Pairwise scoredAfter := List.Pairwise.of_cons hl
    have hle : ∀ y ∈ t, y.partitionNumber ≤ x.partitionNumber := by
      intro y hy
      rcases hxt y hy with h | h
      · exact Nat.le_of_lt h
      · exact Nat.le_of_eq h.1
    by_cases hc : cur ≠ x.partitionNumber ∧ bm (x.partitionNumber, x.bestSubNumber) = true
    · have hs : spawnLoop bm (x :: t) cur =
          ⟨x.bestSubNumber, x.partitionNumber, x.graphInputFileName⟩ ::
            spawnLoop bm t x.partitionNumber := by
        simp only [spawnLoop, if_pos hc]
      obtain ⟨hA, hB, hC⟩ := ih ht x.partitionNumber (Or.inl hle)
      have hjlt : ∀ j ∈ spawnLoop bm t x.partitionNumber,
          j.partitionNumber < x.partitionNumber := by
        intro j hj
        obtain ⟨h1, _, ⟨y, hy, hyp, _, _⟩, _⟩ := hA j hj
        have := hle y hy
        omega
      rw [hs]
      refine ⟨?_, ?_, ?_⟩
      · intro j hj
        rcases List.mem_cons.mp hj with rfl | hj
        · refine ⟨fun h => hc.1 h.symm, hc.2, ⟨x, List.mem_cons_self _ _, rfl, rfl, rfl⟩, ?_⟩
          intro y hy hyp _
          rcases List.mem_cons.mp hy with rfl | hy
          · exact le_refl _
          · rcases hxt y hy with h | h
            · simp only at hyp
              omega
            · exact Nat.le_of_lt h.2
        · obtain ⟨h1, h2, ⟨y, hy, hyp, hyr, hyn⟩, h4⟩ := hA j hj
          refine ⟨?_, h2, ⟨y, List.mem_cons_of_mem _ hy, hyp, hyr, hyn⟩, ?_⟩
          · rcases hcur with hcur | hcur
            · have := hcur x (List.mem_cons_self _ _)
              have := hjlt j hj
              omega
            · rw [← hyp]
              exact hcur y (List.mem_cons_of_mem _ hy)
          · intro z hz hzp hzm
            rcases List.mem_cons.mp hz with rfl | hz
            · exact absurd hzp.symm h1
            · exact h4 z hz hzp hzm
      · intro y hy hyc hym
        by_cases hyx : y.partitionNumber = x.partitionNumber
        · exact ⟨_, List.mem_cons_self _ _, hyx.symm⟩
        · rcases List.mem_cons.mp hy with rfl | hy
          · exact absurd rfl hyx
          · obtain ⟨j, hj, hjp⟩ := hB y hy hyx hym
            exact ⟨j, List.mem_cons_of_mem _ hj, hjp⟩
      · exact List.Pairwise.cons (fun j hj => hjlt j hj) hC
    · have hs : spawnLoop bm (x :: t) cur = spawnLoop bm t cur := by
        simp only [spawnLoop, if_neg hc]
      have hcur2 : (∀ y ∈ t, y.partitionNumber ≤ cur) ∨ (∀ y ∈ t, y.partitionNumber ≠ cur) := by
        rcases hcur with h | h
        · exact Or.inl (fun y hy => h y (List.mem_cons_of_mem _ hy))
        · exact Or.inr (fun y hy => h y (List.mem_cons_of_mem _ hy))
      obtain ⟨hA, hB, hC⟩ := ih ht cur hcur2
      rw [hs]
      refine ⟨?_, ?_, hC⟩
      · intro j hj
        obtain ⟨h1, h2, ⟨y, hy, hyp, hyr, hyn⟩, h4⟩ := hA j hj
        refine ⟨h1, h2, ⟨y, List.mem_cons_of_mem _ hy, hyp, hyr, hyn⟩, ?_⟩
        intro z hz hzp hzm
        rcases List.mem_cons.mp hz with rfl | hz
        · exact absurd ⟨fun h => h1 (h ▸ hzp.symm), hzm⟩ hc
        · exact h4 z hz hzp hzm
      · intro y hy hyc hym
        rcases List.mem_cons.mp hy with rfl | hy
        · exact absurd ⟨fun h => hyc h.symm, hym⟩ hc
        · exact hB y hy hyc hym

theorem scoredPattern_fields (norm : NormDir) (gm : Matcher) (M first last p r : Nat)
    (e : NormativePattern) (h : scoredPattern norm gm M first last p r = some e) :
    e.partitionNumber = p ∧ e.bestSubNumber = r := by
  cases hf : norm p r with
  | none => simp [scoredPattern, hf] at h
  | some f =>
    simp only [scoredPattern, hf, Option.map_some', Option.some.injEq] at h
    subst h
    exact ⟨rfl, rfl⟩

theorem scoredPatterns_pairwise (norm : NormDir) (gm : Matcher) (M first last : Nat) :
    (scoredPatterns norm gm M first last).Pairwise (fun x y => scoredAfter y x) := by
  unfold scoredPatterns
  rw [List.pairwise_flatMap]
  constructor
  · intro p _
    rw [List.pairwise_filterMap]
    have hsub : (reachedRanks norm M p).Sublist (ranks M) := List.takeWhile_sublist _
    refine ((List.pairwise_lt_range' 1 M).sublist hsub).imp ?_
    intro r1 r2 hlt e1 he1 e2 he2
    have h1 := scoredPattern_fields norm gm M first last p r1 e1 he1
    have h2 := scoredPattern_fields norm gm M first last p r2 e2 he2
    exact Or.inr ⟨by rw [h1.1, h2.1], by rw [h1.2, h2.2]; exact hlt⟩
  · refine (List.pairwise_lt_range' first (last + 1 - first)).imp ?_
    intro p1 p2 hlt e1 he1 e2 he2
    obtain ⟨r1, _, hr1⟩ := List.mem_filterMap.mp he1
    obtain ⟨r2, _, hr2⟩ := List.mem_filterMap.mp he2
    have h1 := scoredPattern_fields norm gm M first last p1 r1 e1 hr1
    have h2 := scoredPattern_fields norm gm M first last p2 r2 e2 hr2
    exact Or.inl (by rw [h1.1, h2.1]; exact hlt)

theorem partitionLoop_list_init (norm : NormDir) (gm : Matcher) (M first last : Nat) :
    (partitionLoop norm gm M first last (RankerState.init [])).normativePatternList =
      (scoredPatterns norm gm M first last).reverse := by
  rw [partitionLoop_list]
  simp [scoredPatterns, RankerState.init]

theorem partitionLoop_list_pairwise (norm : NormDir) (gm : Matcher) (M first last : Nat) :
    ((partitionLoop norm gm M first last (RankerState.init [])).normativePatternList).Pairwise
      scoredAfter := by
  rw [partitionLoop_list_init, List.pairwise_reverse]
  exact scoredPatterns_pairwise norm gm M first last

theorem partitionLoop_list_partition (norm : NormDir) (gm : Matcher) (M first last : Nat)
    (x : NormativePattern)
    (hx : x ∈ (partitionLoop norm gm M first last (RankerState.init [])).normativePatternList) :
    x.partitionNumber ∈ window first last ∧
      x.bestSubNumber ∈ reachedRanks norm M x.partitionNumber :=
  (scored_iff norm gm M first last x.partitionNumber x.bestSubNumber).mp ⟨x, hx, rfl, rfl⟩

theorem jobs_spec (norm : NormDir) (gm : Matcher) (M first last : Nat)
    (bm : Nat × Nat → Bool) (hfirst : 1 ≤ first) :
    (∀ j ∈ ProcessPartitionsForAnomalyDetectionInParallel bm
          (partitionLoop norm gm M first last (RankerState.init [])).normativePatternList,
        bm (j.partitionNumber, j.bestSubNumber) = true ∧
        (∃ x ∈ (partitionLoop norm gm M first last (RankerState.init [])).normativePatternList,
          x.partitionNumber = j.partitionNumber ∧
          x.bestSubNumber = j.bestSubNumber ∧ x.graphInputFileName = j.graphInputFileName) ∧
        (∀ x ∈ (partitionLoop norm gm M first last (RankerState.init [])).normativePatternList,
          x.partitionNumber = j.partitionNumber →
          bm (x.partitionNumber, x.bestSubNumber) = true →
          x.bestSubNumber ≤ j.bestSubNumber)) ∧
      (∀ x ∈ (partitionLoop norm gm M first last (RankerState.init [])).normativePatternList,
        bm (x.partitionNumber, x.bestSubNumber) = true →
        ∃ j ∈ ProcessPartitionsForAnomalyDetectionInParallel bm
          (partitionLoop norm gm M first last (RankerState.init [])).normativePatternList,
          j.partitionNumber = x.partitionNumber) ∧
      (ProcessPartitionsForAnomalyDetectionInParallel bm
        (partitionLoop norm gm M first last (RankerState.init [])).normativePatternList).Pairwise
        (fun j1 j2 => j2.partitionNumber < j1.partitionNumber) := by
  have hne : ∀ x ∈ (partitionLoop norm gm M first last (RankerState.init [])).normativePatternList,
      x.partitionNumber ≠ 0 := by
    intro x hx
    have := (mem_window first last _).mp (partitionLoop_list_partition norm gm M first last x hx).1
    omega
  obtain ⟨hA, hB, hC⟩ := spawnLoop_spec bm _ (partitionLoop_list_pairwise norm gm M first last)
    0 (Or.inr hne)
  refine ⟨?_, ?_, hC⟩
  · intro j hj
    obtain ⟨_, h2, h3, h4⟩ := hA j hj
    exact ⟨h2, h3, h4⟩
  · intro x hx hm
    exact hB x hx (hne x hx) hm

/-- C22 (as stated) fails: on the window `[1,2]` with `norm_1_1` elected and
`norm_2_1` not matching `bestSub.g`, the list holds both patterns but only one
job is started, for partition 1; partition 2 gets none. -/
theorem ProcessPartitions_skips_partition :
    (partitionLoop normDistinct gmNone 1 1 2 (RankerState.init [])).normativePatternList =
        [⟨2, 1, 3, "g2"⟩, ⟨1, 1, 7, "g1"⟩] ∧
      (FindBestNormativePattern normDistinct gmNone 1 1 2 []).map RankerResult.elected =
        some (some (1, 1)) ∧
      ProcessPartitionsForAnomalyDetectionInParallel bestMatchesFirst
        (partitionLoop normDistinct gmNone 1 1 2 (RankerState.init [])).normativePatternList =
        [⟨1, 1, "g1"⟩] := by
  decide

/-- C22 (amended): on the list built by the ranker for a window `[first,
last]` with `first >= 1`, every job carries a partition of the window and a
scored rank of that partition whose pattern matches `bestSub.g`; a partition
of the window that has a scored pattern matching `bestSub.g` gets exactly one
job; every other partition gets none; and when every partition of the window
has a scored pattern that matches, exactly one job is started per partition
(`last + 1 - first` jobs), from the last partition down to the first. -/
theorem ProcessPartitions_every_partition (norm : NormDir) (gm : Matcher)
    (M firstPartition lastPartition : Nat) (bestMatches : Nat × Nat → Bool)
    (hfirst : 1 ≤ firstPartition) :
    (∀ j ∈ ProcessPartitionsForAnomalyDetectionInParallel bestMatches
          (partitionLoop norm gm M firstPartition lastPartition
            (RankerState.init [])).normativePatternList,
        j.partitionNumber ∈ window firstPartition lastPartition ∧
        j.bestSubNumber ∈ reachedRanks norm M j.partitionNumber ∧
        bestMatches (j.partitionNumber, j.bestSubNumber) = true) ∧
      (∀ p ∈ window firstPartition lastPartition,
        (∃ r ∈ reachedRanks norm M p, bestMatches (p, r) = true) →
        ((ProcessPartitionsForAnomalyDetectionInParallel bestMatches
          (partitionLoop norm gm M firstPartition lastPartition
            (RankerState.init [])).normativePatternList).map
              AnomalyJob.partitionNumber).count p = 1) ∧
      (∀ p, ¬ (p ∈ window firstPartition lastPartition ∧
          ∃ r ∈ reachedRanks norm M p, bestMatches (p, r) = true) →
        ((ProcessPartitionsForAnomalyDetectionInParallel bestMatches
          (partitionLoop norm gm M firstPartition lastPartition
            (RankerState.init [])).normativePatternList).map
              AnomalyJob.partitionNumber).count p = 0) ∧
      ((∀ p ∈ window firstPartition lastPartition,
          ∃ r ∈ reachedRanks norm M p, bestMatches (p, r) = true) →
        (ProcessPartitionsForAnomalyDetectionInParallel bestMatches
            (partitionLoop norm gm M firstPartition lastPartition
              (RankerState.init [])).normativePatternList).map AnomalyJob.partitionNumber =
          (window firstPartition lastPartition).reverse ∧
        (ProcessPartitionsForAnomalyDetectionInParallel bestMatches
            (partitionLoop norm gm M firstPartition lastPartition
              (RankerState.init [])).normativePatternList).length =
          lastPartition + 1 - firstPartition) := by
  obtain ⟨hA, hB, hC⟩ := jobs_spec norm gm M firstPartition lastPartition bestMatches hfirst
  have hjob : ∀ j ∈ ProcessPartitionsForAnomalyDetectionInParallel bestMatches
        (partitionLoop norm gm M firstPartition lastPartition
          (RankerState.init [])).normativePatternList,
      j.partitionNumber ∈ window firstPartition lastPartition ∧
      j.bestSubNumber ∈ reachedRanks norm M j.partitionNumber ∧
      bestMatches (j.partitionNumber, j.bestSubNumber) = true := by
    intro j hj
    obtain ⟨h1, ⟨x, hx, hxp, hxr, _⟩, _⟩ := hA j hj
    have := partitionLoop_list_partition norm gm M firstPartition lastPartition x hx
    rw [hxp, hxr] at this
    exact ⟨this.1, this.2, h1⟩
  have hs1 : ((ProcessPartitionsForAnomalyDetectionInParallel bestMatches
      (partitionLoop norm gm M firstPartition lastPartition
        (RankerState.init [])).normativePatternList).map
        AnomalyJob.partitionNumber).Pairwise (fun a b => a > b) := by
    rw [List.pairwise_map]
    exact hC
  have hn1 : ((ProcessPartitionsForAnomalyDetectionInParallel bestMatches
      (partitionLoop norm gm M firstPartition lastPartition
        (RankerState.init [])).normativePatternList).map
        AnomalyJob.partitionNumber).Nodup := hs1.imp (fun h => Nat.ne_of_gt h)
  have hmem : ∀ p, p ∈ (ProcessPartitionsForAnomalyDetectionInParallel bestMatches
      (partitionLoop norm gm M firstPartition lastPartition
        (RankerState.init [])).normativePatternList).map AnomalyJob.partitionNumber ↔
      (p ∈ window firstPartition lastPartition ∧
        ∃ r ∈ reachedRanks norm M p, bestMatches (p, r) = true) := by
    intro p
    rw [List.mem_map]
    constructor
    · rintro ⟨j, hj, rfl⟩
      exact ⟨(hjob j hj).1, j.bestSubNumber, (hjob j hj).2.1, (hjob j hj).2.2⟩
    · rintro ⟨hp, r, hr, hm⟩
      obtain ⟨x, hx, hxp, hxr⟩ :=
        (scored_iff norm gm M firstPartition lastPartition p r).mpr ⟨hp, hr⟩
      obtain ⟨j, hj, hjp⟩ := hB x hx (by rw [hxp, hxr]; exact hm)
      exact ⟨j, hj, by rw [hjp, hxp]⟩
  refine ⟨hjob, ?_, ?_, ?_⟩
  · intro p hp hm
    exact List.count_eq_one_of_mem hn1 ((hmem p).mpr ⟨hp, hm⟩)
  · intro p hp
    exact List.count_eq_zero_of_not_mem (fun h => hp ((hmem p).mp h))
  · intro hall
    have hs2 : ((window firstPartition lastPartition).reverse).Pairwise (fun a b => a > b) := by
      rw [List.pairwise_reverse]
      exact List.pairwise_lt_range' _ _
    have hn2 := hs2.imp (fun h => Nat.ne_of_gt h)
    have hmap : (ProcessPartitionsForAnomalyDetectionInParallel bestMatches
        (partitionLoop norm gm M firstPartition lastPartition
          (RankerState.init [])).normativePatternList).map AnomalyJob.partitionNumber =
        (window firstPartition lastPartition).reverse := by
      refine List.eq_of_perm_of_sorted ((List.perm_ext_iff_of_nodup hn1 hn2).mpr ?_) hs1 hs2
      intro p
      rw [hmem p, List.mem_reverse]
      exact ⟨fun h => h.1, fun hp => ⟨hp, hall p hp⟩⟩
    refine ⟨hmap, ?_⟩
    have := congrArg List.length hmap
    rw [List.length_map, List.length_reverse] at this
    rw [this]
    simp [window]

/-- Witness of C22 (amended): on the window `[1,2]` with only `norm_1_1`
matching `bestSub.g`, partition 1 gets one job and partition 2 none; on a
window `[1,2]` in which every pattern matches, two jobs are started, for
partitions 2 and 1. -/
theorem ProcessPartitions_every_partition_witness :
    (1 : Nat) ≤ 1 ∧
      ((ProcessPartitionsForAnomalyDetectionInParallel bestMatchesFirst
          (partitionLoop normDistinct gmNone 1 1 2
            (RankerState.init [])).normativePatternList).map
              AnomalyJob.partitionNumber).count 1 = 1 ∧
      ((ProcessPartitionsForAnomalyDetectionInParallel bestMatchesFirst
          (partitionLoop normDistinct gmNone 1 1 2
            (RankerState.init [])).normativePatternList).map
              AnomalyJob.partitionNumber).count 2 = 0 ∧
      (ProcessPartitionsForAnomalyDetectionInParallel bestMatchesAll
          (partitionLoop normTwoRanks gmAll 2 1 2
            (RankerState.init [])).normativePatternList).map AnomalyJob.partitionNumber =
        (window 1 2).reverse ∧
      (ProcessPartitionsForAnomalyDetectionInParallel bestMatchesAll
          (partitionLoop normTwoRanks gmAll 2 1 2
            (RankerState.init [])).normativePatternList).length = 2 + 1 - 1 :=
  ⟨by decide,
    (ProcessPartitions_every_partition normDistinct gmNone 1 1 2 bestMatchesFirst
      (by decide)).2.1 1 (by decide) (by decide),
    (ProcessPartitions_every_partition normDistinct gmNone 1 1 2 bestMatchesFirst
      (by decide)).2.2.1 2 (by decide),
    (ProcessPartitions_every_partition normTwoRanks gmAll 2 1 2 bestMatchesAll
      (by decide)).2.2.2 (by decide)⟩

/-- C28: on the list built by `FindBestNormativePattern` for a window that
starts at a partition `>= 1`, the jobs have strictly decreasing partition
numbers, so there is at most one job per partition; a partition gets a job
exactly when at least one pattern `norm_p_r` on the list matches `bestSub.g`;
and the job is started for the highest rank among the matching patterns of
its partition on the list. -/
theorem ProcessPartitions_highest_rank (norm : NormDir) (gm : Matcher)
    (M firstPartition lastPartition : Nat) (bestMatches : Nat × Nat → Bool)
    (hfirst : 1 ≤ firstPartition) :
    ((ProcessPartitionsForAnomalyDetectionInParallel bestMatches
        (partitionLoop norm gm M firstPartition lastPartition
          (RankerState.init [])).normativePatternList).map AnomalyJob.partitionNumber).Nodup ∧
      (ProcessPartitionsForAnomalyDetectionInParallel bestMatches
        (partitionLoop norm gm M firstPartition lastPartition
          (RankerState.init [])).normativePatternList).Pairwise
        (fun j1 j2 => j2.partitionNumber < j1.partitionNumber) ∧
      (∀ p,
        (∃ j ∈ ProcessPartitionsForAnomalyDetectionInParallel bestMatches
            (partitionLoop norm gm M firstPartition lastPartition
              (RankerState.init [])).normativePatternList, j.partitionNumber = p) ↔
        (∃ x ∈ (partitionLoop norm gm M firstPartition lastPartition
            (RankerState.init [])).normativePatternList,
          x.partitionNumber = p ∧ bestMatches (x.partitionNumber, x.bestSubNumber) = true)) ∧
      (∀ j ∈ ProcessPartitionsForAnomalyDetectionInParallel bestMatches
          (partitionLoop norm gm M firstPartition lastPartition
            (RankerState.init [])).normativePatternList,
        bestMatches (j.partitionNumber, j.bestSubNumber) = true ∧
        (∃ x ∈ (partitionLoop norm gm M firstPartition lastPartition
            (RankerState.init [])).normativePatternList,
          x.partitionNumber = j.partitionNumber ∧ x.bestSubNumber = j.bestSubNumber ∧
          x.graphInputFileName = j.graphInputFileName) ∧
        (∀ x ∈ (partitionLoop norm gm M firstPartition lastPartition
            (RankerState.init [])).normativePatternList,
          x.partitionNumber = j.partitionNumber →
          bestMatches (x.partitionNumber, x.bestSubNumber) = true →
          x.bestSubNumber ≤ j.bestSubNumber)) := by
  obtain ⟨hA, hB, hC⟩ := jobs_spec norm gm M firstPartition lastPartition bestMatches hfirst
  refine ⟨?_, hC, ?_, hA⟩
  · have : ((ProcessPartitionsForAnomalyDetectionInParallel bestMatches
        (partitionLoop norm gm M firstPartition lastPartition
          (RankerState.init [])).normativePatternList).map
          AnomalyJob.partitionNumber).Pairwise (fun a b => a > b) := by
      rw [List.pairwise_map]
      exact hC
    exact this.imp (fun h => Nat.ne_of_gt h)
  · intro p
    constructor
    · rintro ⟨j, hj, rfl⟩
      obtain ⟨h1, ⟨x, hx, hxp, hxr, _⟩, _⟩ := hA j hj
      exact ⟨x, hx, hxp, by rw [hxp, hxr]; exact h1⟩
    · rintro ⟨x, hx, rfl, hm⟩
      exact hB x hx hm

theorem ProcessPartitions_highest_rank_witness :
    (1 : Nat) ≤ 1 ∧
      ProcessPartitionsForAnomalyDetectionInParallel bestMatchesAll
        (partitionLoop normTwoRanks gmAll 2 1 2 (RankerState.init [])).normativePatternList =
        [⟨2, 2, "g"⟩, ⟨2, 1, "g"⟩] ∧
      ((ProcessPartitionsForAnomalyDetectionInParallel bestMatchesAll
        (partitionLoop normTwoRanks gmAll 2 1 2
          (RankerState.init [])).normativePatternList).map AnomalyJob.partitionNumber).Nodup :=
  ⟨by decide, by decide,
    (ProcessPartitions_highest_rank normTwoRanks gmAll 2 1 2 bestMatchesAll (by decide)).1⟩

/-! ## Waiting for the children -/

theorem pid_mem (s : WaitState) (h : s.pidInfoListNode < s.pidInfoList.length) :
    s.pid ∈ s.pidInfoList := by
  unfold WaitState.pid
  rw [List.getD_eq_getElem s.pidInfoList 0 h]
  exact List.getElem_mem h

theorem waitStep_spec (waitpid : Nat → Nat → WaitResult) (s s1 : WaitState)
    (hcur : s.pidInfoListNode < s.pidInfoList.length) (hnum : 0 < s.numProcessesRunning)
    (h : waitStep waitpid s = some s1) :
    (s1.pidInfoList = [] ∨ s1.pidInfoListNode < s1.pidInfoList.length) ∧
      (s1.observed.map Prod.snd ++ s1.pidInfoList).Perm
        (s.observed.map Prod.snd ++ s.pidInfoList) ∧
      s1.numProcessesRunning + s1.observed.length =
        s.numProcessesRunning + s.observed.length ∧
      (∀ o ∈ s1.observed, o ∈ s.observed ∨ waitpid o.1 o.2 = WaitResult.ended) ∧
      (∀ o ∈ s.observed, o ∈ s1.observed) ∧
      s1.pidInfoList.length ≤ s.pidInfoList.length ∧
      (waitpid s.calls s.pid = WaitResult.ended →
        s1.pidInfoList.length + 1 = s.pidInfoList.length) := by
  have hmem := pid_mem s hcur
  unfold waitStep at h
  cases hw : waitpid s.calls s.pid with
  | error => simp [hw] at h
  | ended =>
    simp only [hw, Option.some.injEq] at h
    subst h
    have hlen := List.length_erase_of_mem hmem
    refine ⟨?_, ?_, ?_, ?_, ?_, ?_, ?_⟩
    · simp only
      by_cases hc : s.pidInfoListNode + 1 < s.pidInfoList.length
      · right
        rw [if_pos hc, hlen]
        omega
      · rw [if_neg hc]
        cases he : s.pidInfoList.erase s.pid with
        | nil => exact Or.inl rfl
        | cons a t => exact Or.inr (by simp)
    · simp only [List.map_append, List.map_cons, List.map_nil, List.append_assoc,
        List.singleton_append]
      exact List.Perm.append_left _ (List.perm_cons_erase hmem).symm
    · simp only [List.length_append, List.length_singleton]
      omega
    · intro o ho
      simp only [List.mem_append, List.mem_singleton] at ho
      rcases ho with ho | rfl
      · exact Or.inl ho
      · exact Or.inr hw
    · intro o ho
      exact List.mem_append_left _ ho
    · simp only [hlen]
      omega
    · intro _
      simp only [hlen]
      omega
  | running =>
    simp only [hw, Option.some.injEq] at h
    subst h
    refine ⟨?_, List.Perm.refl _, rfl, fun o ho => Or.inl ho, fun o ho => ho, le_refl _, ?_⟩
    · right
      simp only
      split <;> omega
    · intro hc
      cases hc
  | other =>
    simp only [hw, Option.some.injEq] at h
    subst h
    refine ⟨?_, List.Perm.refl _, rfl, fun o ho => Or.inl ho, fun o ho => ho, le_refl _, ?_⟩
    · right
      simp only
      split <;> omega
    · intro hc
      cases hc

theorem waitLoop_spec (waitpid : Nat → Nat → WaitResult) (fuel : Nat) :
    ∀ (s r : WaitState),
      (s.pidInfoList = [] ∨ s.pidInfoListNode < s.pidInfoList.length) →
      waitLoop waitpid fuel s = some (some r) →
      (r.numProcessesRunning = 0 ∨ r.pidInfoList = []) ∧
        (r.observed.map Prod.snd ++ r.pidInfoList).Perm
          (s.observed.map Prod.snd ++ s.pidInfoList) ∧
        r.numProcessesRunning + r.observed.length =
          s.numProcessesRunning + s.observed.length ∧
        (∀ o ∈ r.observed, o ∈ s.observed ∨ waitpid o.1 o.2 = WaitResult.ended) := by
  induction fuel with
  | zero =>
    intro s r _ h
    unfold waitLoop at h
    split at h
    · rename_i hc
      simp only [Option.some.injEq] at h
      subst h
      exact ⟨hc, List.Perm.refl _, rfl, fun o ho => Or.inl ho⟩
    · cases h
  | succ fuel ih =>
    intro s r hcur h
    unfold waitLoop at h
    split at h
    · rename_i hc
      simp only [Option.some.injEq] at h
      subst h
      exact ⟨hc, List.Perm.refl _, rfl, fun o ho => Or.inl ho⟩
    · rename_i hc
      simp only [not_or] at hc
      have hcur2 : s.pidInfoListNode < s.pidInfoList.length := by
        rcases hcur with h0 | h0
        · exact absurd h0 hc.2
        · exact h0
      cases hs : waitStep waitpid s with
      | none => simp [hs] at h
      | some s1 =>
        simp only [hs] at h
        obtain ⟨h1, h2, h3, h4, _, _, _⟩ :=
          waitStep_spec waitpid s s1 hcur2 (Nat.pos_of_ne_zero hc.1) hs
        obtain ⟨g1, g2, g3, g4⟩ := ih s1 r h1 h
        refine ⟨g1, g2.trans h2, by omega, ?_⟩
        intro o ho
        rcases g4 o ho with ho1 | ho1
        · exact h4 o ho1
        · exact Or.inr ho1

theorem waitLoop_all_ended (waitpid : Nat → Nat → WaitResult)
    (hall : ∀ call pid, waitpid call pid = WaitResult.ended) (fuel : Nat) :
    ∀ (s : WaitState),
      (s.pidInfoList = [] ∨ s.pidInfoListNode < s.pidInfoList.length) →
      s.pidInfoList.length ≤ fuel →
      ∃ r, waitLoop waitpid fuel s = some (some r) := by
  induction fuel with
  | zero =>
    intro s _ hlen
    have : s.pidInfoList = [] := List.length_eq_zero.mp (by omega)
    exact ⟨s, by simp [waitLoop, this]⟩
  | succ fuel ih =>
    intro s hcur hlen
    unfold waitLoop
    split
    · exact ⟨s, rfl⟩
    · rename_i hc
      simp only [not_or] at hc
      have hcur2 : s.pidInfoListNode < s.pidInfoList.length := by
        rcases hcur with h0 | h0
        · exact absurd h0 hc.2
        · exact h0
      cases hs : waitStep waitpid s with
      | none =>
        simp [waitStep, hall] at hs
      | some s1 =>
        obtain ⟨h1, _, _, _, _, _, h7⟩ :=
          waitStep_spec waitpid s s1 hcur2 (Nat.pos_of_ne_zero hc.1) hs
        have := h7 (hall _ _)
        exact ih s1 h1 (by omega)

/-- C23 (as stated) fails: with `NUM_PARTITIONS = 1` and two recorded
identifiers 10 and 20, the loop ends as soon as one child has been observed,
and the function returns although `waitpid` never returned 10. -/
theorem WaitingForProcessesToFinish_returns_early :
    WaitingForProcessesToFinish 1 waitpidEnded 5 (some [10, 20]) =
      some (some ⟨[(0, 20)], [10], none⟩) := by
  decide

/-- C23 (amended): when at most `NUM_PARTITIONS` identifiers are recorded in
`pids.txt`, whenever `WaitingForProcessesToFinish` returns, `waitpid` has
returned every recorded identifier at some call, the list is empty and
`pids.txt` has been removed; and when every child has ended the function does
return, after at most one pass per identifier. -/
theorem WaitingForProcessesToFinish_all_observed (NUM_PARTITIONS : Int) (pids : List Nat)
    (hk : pids.length ≤ intToULONG NUM_PARTITIONS) :
    (∀ (waitpid : Nat → Nat → WaitResult) (fuel : Nat) (r : WaitReturn),
        WaitingForProcessesToFinish NUM_PARTITIONS waitpid fuel (some pids) = some (some r) →
        (∀ pid ∈ pids, ∃ call, (call, pid) ∈ r.observed ∧
          waitpid call pid = WaitResult.ended) ∧
        r.remaining = [] ∧ r.pidsFile = none) ∧
      (∀ (waitpid : Nat → Nat → WaitResult),
        (∀ call pid, waitpid call pid = WaitResult.ended) →
        ∃ r, WaitingForProcessesToFinish NUM_PARTITIONS waitpid pids.length (some pids) =
          some (some r)) := by
  have hcur : (pids.reverse = [] ∨ 0 < pids.reverse.length) := by
    cases h : pids.reverse with
    | nil => exact Or.inl rfl
    | cons a t => exact Or.inr (by simp)
  constructor
  · intro waitpid fuel r hret
    simp only [WaitingForProcessesToFinish, Option.map_eq_some'] at hret
    obtain ⟨x, hx, hxr⟩ := hret
    cases x with
    | none => simp at hxr
    | some s =>
      simp only [Option.map_some', Option.some.injEq] at hxr
      obtain ⟨a, rfl, rfl⟩ := hxr
      obtain ⟨g1, g2, g3, g4⟩ := waitLoop_spec waitpid fuel _ s hcur hx
      simp only [List.map_nil, List.nil_append, List.length_nil, Nat.add_zero] at g2 g3
      have hlen := g2.length_eq
      simp only [List.length_append, List.length_map, List.length_reverse] at hlen
      have hempty : s.pidInfoList = [] := by
        rcases g1 with g1 | g1
        · exact List.length_eq_zero.mp (by omega)
        · exact g1
      refine ⟨?_, hempty, rfl⟩
      intro pid hpid
      rw [hempty, List.append_nil] at g2
      have hmem : pid ∈ s.observed.map Prod.snd :=
        g2.symm.subset (List.mem_reverse.mpr hpid)
      obtain ⟨o, ho, rfl⟩ := List.mem_map.mp hmem
      refine ⟨o.1, ho, ?_⟩
      rcases g4 o ho with h | h
      · cases h
      · exact h
  · intro waitpid hall
    obtain ⟨r, hr⟩ := waitLoop_all_ended waitpid hall pids.length
      ⟨pids.reverse, 0, intToULONG NUM_PARTITIONS, 0, []⟩ hcur (by simp)
    exact ⟨⟨r.observed, r.pidInfoList, none⟩, by simp [WaitingForProcessesToFinish, hr]⟩

theorem WaitingForProcessesToFinish_all_observed_witness :
    [10, 20].length ≤ intToULONG 2 ∧
      WaitingForProcessesToFinish 2 waitpidLater 9 (some [10, 20]) =
        some (some ⟨[(2, 20), (3, 10)], [], none⟩) ∧
      ((∀ pid ∈ [10, 20], ∃ call, (call, pid) ∈ [(2, 20), (3, 10)] ∧
          waitpidLater call pid = WaitResult.ended) ∧
        ([] : List Nat) = [] ∧ (none : Option (List Nat)) = none) :=
  ⟨by decide, by decide,
    (WaitingForProcessesToFinish_all_observed 2 [10, 20] (by decide)).1 waitpidLater 9
      ⟨[(2, 20), (3, 10)], [], none⟩ (by decide)⟩

/-! ## Step 5b for the connectedness metric -/

theorem rediscovers_connectedOnly (s : MetricStats) :
    rediscovers ⟨1, 1⟩ (connectedOnly s) = tooHigh s := by
  have h1 : intToULONG 1 = 1 := by
    rw [intToULONG_eq]
    rfl
  have hn := numberMetricsTooHigh_single 1 (connectedOnly s) (by decide)
  have hsel : connectedOnly s (selectedMetric 1) = s := by
    simp [connectedOnly, selectedMetric]
  rw [hsel] at hn
  simp only [rediscovers, hn, h1]
  cases tooHigh s <;> simp

theorem connectedBlock_eq (sqrt : ℚ → ℚ) (N q : Nat) (v : ℚ) (s : List gpNode)
    (hlen : s.length ≤ N) :
    connectedBlock sqrt N q v (some s) =
      some (⟨v, seriesMean (s.tail ++ [⟨q, printLf v⟩]),
          sqrt (seriesVariance (seriesMean (s.tail ++ [⟨q, printLf v⟩]))
            (s.tail ++ [⟨q, printLf v⟩]))⟩,
        some (s.tail ++ [⟨q, printLf v⟩])) := by
  have hne : s.tail ++ [⟨q, printLf v⟩] ≠ [] := by simp
  simp only [connectedBlock, UpdateGPFile_eq N q (printLf v) s hlen,
    CalculateMeanFromGPFile_eq _ hne, CalculateStandardDeviationFromGPFile_eq sqrt _ _ hne]

/-- With `N = 2` and a new value that `%lf` writes without rounding, the
series after the roll holds the previous value and the new one, the new value
exceeds the mean by exactly the standard deviation at most, and the strict
test of the decider does not succeed. -/
theorem connectedTriggers_two_exact (sqrt : ℚ → ℚ) (e0 e1 : gpNode) (q : Nat) (v : ℚ)
    (hexact : printLf v = v)
    (hsqrt : 0 ≤ sqrt (seriesVariance (seriesMean [e1, ⟨q, v⟩]) [e1, ⟨q, v⟩]) ∧
      sqrt (seriesVariance (seriesMean [e1, ⟨q, v⟩]) [e1, ⟨q, v⟩]) ^ 2 =
        seriesVariance (seriesMean [e1, ⟨q, v⟩]) [e1, ⟨q, v⟩]) :
    connectedTriggers sqrt 2 q v (some [e0, e1]) = some false := by
  have hb := connectedBlock_eq sqrt 2 q v [e0, e1] (by simp)
  simp only [List.tail_cons, List.singleton_append, hexact] at hb
  simp only [connectedTriggers, hb, Option.map_some', rediscovers_connectedOnly,
    Option.some.injEq]
  have hm : seriesMean [e1, ⟨q, v⟩] = (e1.value + v) / 2 := by
    simp [seriesMean]
  have hv : seriesVariance (seriesMean [e1, ⟨q, v⟩]) [e1, ⟨q, v⟩] = ((v - e1.value) / 2) ^ 2 := by
    rw [hm]
    simp [seriesVariance]
    ring
  rw [hv] at hsqrt
  rw [hv, hm]
  simp only [tooHigh, decide_eq_false_iff_not, not_lt]
  nlinarith [hsqrt.1, hsqrt.2]

theorem takeWhile_range'_length (p : Nat → Bool) (n s : Nat) :
    ((List.range' s n).takeWhile p).length ≤ n ∧
      (∀ j, s ≤ j → j < s + ((List.range' s n).takeWhile p).length → p j = true) ∧
      (((List.range' s n).takeWhile p).length < n →
        p (s + ((List.range' s n).takeWhile p).length) = false) := by
  induction n generalizing s with
  | zero =>
    refine ⟨by simp, ?_, by simp⟩
    intro j hj1 hj2
    simp at hj2
    omega
  | succ n ih =>
    rw [List.range'_succ, List.takeWhile_cons]
    by_cases hs : p s = true
    · rw [if_pos hs, List.length_cons]
      obtain ⟨h1, h2, h3⟩ := ih (s + 1)
      refine ⟨by omega, ?_, ?_⟩
      · intro j hj1 hj2
        by_cases hj : j = s
        · rw [hj]
          exact hs
        · exact h2 j (by omega) (by omega)
      · intro hlt
        have := h3 (by omega)
        rw [← this]
        congr 1
        omega
    · rw [if_neg hs]
      refine ⟨by simp, ?_, ?_⟩
      · intro j hj1 hj2
        simp at hj2
        omega
      · intro _
        simpa using hs

theorem instancesBeforeGap_spec (anom : AnomDir) (bound p : Nat)
    (hfin : ∀ k, bound < k → anom p k = none) :
    instancesBeforeGap anom bound p ≤ bound ∧
      (∀ k, 1 ≤ k → k ≤ instancesBeforeGap anom bound p → (anom p k).isSome = true) ∧
      anom p (instancesBeforeGap anom bound p + 1) = none := by
  obtain ⟨h1, h2, h3⟩ := takeWhile_range'_length (fun k => (anom p k).isSome) (bound + 1) 1
  have hle : instancesBeforeGap anom bound p ≤ bound := by
    by_contra hgt
    have heq : instancesBeforeGap anom bound p = bound + 1 := by
      unfold instancesBeforeGap at hgt ⊢
      omega
    have := h2 (bound + 1) (by omega) (by unfold instancesBeforeGap at heq; omega)
    simp only [hfin (bound + 1) (by omega)] at this
    cases this
  refine ⟨hle, ?_, ?_⟩
  · intro k hk1 hk2
    exact h2 k hk1 (by unfold instancesBeforeGap at hk2; omega)
  · have := h3 (by unfold instancesBeforeGap at hle; omega)
    have h4 : 1 + ((List.range' 1 (bound + 1)).takeWhile (fun k => (anom p k).isSome)).length =
        instancesBeforeGap anom bound p + 1 := by
      unfold instancesBeforeGap
      omega
    rw [h4] at this
    cases h : anom p (instancesBeforeGap anom bound p + 1) with
    | none => rfl
    | some v => simp [h] at this

theorem countLoop_partition (anom : AnomDir) (last bound p : Nat)
    (hfin : ∀ k, bound < k → anom p k = none) (hp : p ≤ last)
    (hlast : last + 1 < ULONG_SIZE) (hbound : bound + 1 < ULONG_SIZE) :
    ∀ (d fuel j n : Nat), j + d = instancesBeforeGap anom bound p → n + d < ULONG_SIZE →
      countLoop anom last (fuel + d + 1) p (1 + j) n =
        countLoop anom last fuel (p + 1) 1 (n + d) := by
  obtain ⟨hle, hex, hgap⟩ := instancesBeforeGap_spec anom bound p hfin
  intro d
  induction d with
  | zero =>
    intro fuel j n hj hn
    have hk : 1 + j = instancesBeforeGap anom bound p + 1 := by omega
    have hmod : (p + 1) % ULONG_SIZE = p + 1 := Nat.mod_eq_of_lt (by omega)
    simp only [Nat.add_zero, countLoop, if_pos hp, hk, hgap, hmod]
  | succ d ih =>
    intro fuel j n hj hn
    obtain ⟨v, hv⟩ := Option.isSome_iff_exists.mp (hex (1 + j) (by omega) (by omega))
    have hmod1 : (1 + j + 1) % ULONG_SIZE = 1 + (j + 1) := by
      rw [Nat.mod_eq_of_lt (by omega)]
      omega
    have hmod2 : (n + 1) % ULONG_SIZE = n + 1 := Nat.mod_eq_of_lt (by omega)
    have hstep : countLoop anom last (fuel + (d + 1) + 1) p (1 + j) n =
        countLoop anom last (fuel + d + 1) p (1 + (j + 1)) (n + 1) := by
      have hf : fuel + (d + 1) + 1 = (fuel + d + 1) + 1 := by omega
      rw [hf]
      simp only [countLoop, if_pos hp, hv, hmod1, hmod2]
    rw [hstep, ih fuel (j + 1) (n + 1) (by omega) (by omega)]
    congr 1
    omega

theorem countLoop_window (anom : AnomDir) (last bound : Nat)
    (hfin : ∀ p k, bound < k → anom p k = none)
    (hlast : last + 1 < ULONG_SIZE) (hbound : bound + 1 < ULONG_SIZE) :
    ∀ (m p n fuel : Nat), p + m = last + 1 →
      n + ((List.range' p m).map (instancesBeforeGap anom bound)).sum < ULONG_SIZE →
      ((List.range' p m).map (fun q => instancesBeforeGap anom bound q + 1)).sum ≤ fuel →
      countLoop anom last fuel p 1 n =
        some (n + ((List.range' p m).map (instancesBeforeGap anom bound)).sum) := by
  intro m
  induction m with
  | zero =>
    intro p n fuel hp _ _
    have hgt : ¬ p ≤ last := by omega
    cases fuel with
    | zero => simp [countLoop, hgt]
    | succ f => simp [countLoop, hgt]
  | succ m ih =>
    intro p n fuel hp hn hfuel
    rw [List.range'_succ, List.map_cons, List.sum_cons] at hn hfuel
    rw [List.range'_succ, List.map_cons, List.sum_cons]
    obtain ⟨f, rfl⟩ : ∃ f, fuel = f + instancesBeforeGap anom bound p + 1 :=
      ⟨fuel - (instancesBeforeGap anom bound p + 1), by omega⟩
    have h := countLoop_partition anom last bound p (hfin p) (by omega) hlast hbound
      (instancesBeforeGap anom bound p) f 0 n (by omega) (by omega)
    rw [Nat.add_zero] at h
    rw [h, ih (p + 1) (n + instancesBeforeGap anom bound p) f (by omega) (by omega) (by omega)]
    congr 1
    omega

/-- C26: for a directory that holds no instance file with a number above
`bound`, and as long as the counters stay below `2 ^ 64`,
`CountNumberOfAnomalousInstances(first, last, dir)` returns, after one pass
per counted file and one more per partition, the sum over the partitions
`p` of `[first, last]` of `K_p`, the number of files `anom_p_1, anom_p_2, ...`
before the first missing number of `p`. -/
theorem CountNumberOfAnomalousInstances_sum (anom : AnomDir)
    (firstPartition lastPartition bound fuel : Nat)
    (hfin : ∀ p k, bound < k → anom p k = none)
    (hwindow : firstPartition ≤ lastPartition)
    (hlast : lastPartition + 1 < ULONG_SIZE) (hbound : bound + 1 < ULONG_SIZE)
    (htotal : ((window firstPartition lastPartition).map
      (instancesBeforeGap anom bound)).sum < ULONG_SIZE)
    (hfuel : ((window firstPartition lastPartition).map
      (fun p => instancesBeforeGap anom bound p + 1)).sum ≤ fuel) :
    CountNumberOfAnomalousInstances firstPartition lastPartition anom fuel =
        some (((window firstPartition lastPartition).map
          (instancesBeforeGap anom bound)).sum) ∧
      (∀ p, (∀ k, 1 ≤ k → k ≤ instancesBeforeGap anom bound p → (anom p k).isSome = true) ∧
        anom p (instancesBeforeGap anom bound p + 1) = none) := by
  constructor
  · have h := countLoop_window anom lastPartition bound hfin hlast hbound
      (lastPartition + 1 - firstPartition) firstPartition 0 fuel (by omega)
      (by rw [Nat.zero_add]; exact htotal) hfuel
    rw [Nat.zero_add] at h
    exact h
  · intro p
    exact (instancesBeforeGap_spec anom bound p (hfin p)).2

theorem CountNumberOfAnomalousInstances_sum_witness :
    (∀ p k, 4 < k → anomGaps p k = none) ∧
      CountNumberOfAnomalousInstances 1 3 anomGaps 6 =
        some (((window 1 3).map (instancesBeforeGap anomGaps 4)).sum) ∧
      ((window 1 3).map (instancesBeforeGap anomGaps 4)).sum = 3 :=
  have hfin : ∀ p k, 4 < k → anomGaps p k = none := by
    intro p k hk
    have h1 : ¬ (p = 1 ∧ (k = 1 ∨ k = 2 ∨ k = 4)) := by omega
    have h2 : ¬ (p = 3 ∧ k = 1) := by omega
    simp only [anomGaps, if_neg h1, if_neg h2]
  ⟨hfin,
    (CountNumberOfAnomalousInstances_sum anomGaps 1 3 4 6 hfin (by decide) (by decide)
      (by decide) (by decide) (by decide)).1,
    by decide⟩

/-! ## Graph reader of the miner -/

/-- What `ReadVertex` accepts: the number read is `numVertices + 1`, and the
vertex is added behind the vertices read before. -/
theorem ReadVertex_accepts (graph g : MinerGraph) (fp rest : List Char)
    (h : ReadVertex graph fp = some (g, rest)) :
    ∃ fp1, ReadInteger fp = some ((graph.numVertices + 1) % ULONG_SIZE, fp1) ∧
      g = ⟨graph.vertices ++ [(ReadToken fp1).1], graph.edges⟩ := by
  unfold ReadVertex at h
  cases hi : ReadInteger fp with
  | none => simp [hi] at h
  | some r =>
    obtain ⟨vertexID, fp1⟩ := r
    simp only [hi] at h
    split at h
    · cases h
    · rename_i hid
      simp only [ne_eq, not_not] at hid
      simp only [Option.some.injEq, Prod.mk.injEq] at h
      exact ⟨fp1, by rw [hid], h.1.symm⟩

/-- What `ReadEdge` accepts: both numbers read are at most `numVertices`,
the number 0 included, and the indices stored are the numbers minus one in
`ULONG`. -/
theorem ReadEdge_accepts (graph g : MinerGraph) (fp rest : List Char) (directed : Bool)
    (h : ReadEdge graph fp directed = some (g, rest)) :
    ∃ s t fp1 fp2, ReadInteger fp = some (s, fp1) ∧ ReadInteger fp1 = some (t, fp2) ∧
      s ≤ graph.numVertices ∧ t ≤ graph.numVertices ∧
      g = ⟨graph.vertices, graph.edges ++ [⟨(s + ULONG_SIZE - 1) % ULONG_SIZE,
        (t + ULONG_SIZE - 1) % ULONG_SIZE, (ReadToken fp2).1, directed⟩]⟩ := by
  unfold ReadEdge at h
  cases hi : ReadInteger fp with
  | none => simp [hi] at h
  | some r =>
    obtain ⟨s, fp1⟩ := r
    simp only [hi] at h
    split at h
    · cases h
    · rename_i hs
      cases hj : ReadInteger fp1 with
      | none => simp [hj] at h
      | some r2 =>
        obtain ⟨t, fp2⟩ := r2
        simp only [hj] at h
        split at h
        · cases h
        · rename_i ht
          simp only [Option.some.injEq, Prod.mk.injEq] at h
          exact ⟨s, t, fp1, fp2, rfl, hj, Nat.le_of_not_gt hs, Nat.le_of_not_gt ht, h.1.symm⟩

/-- C27: the file with the lines `v 1 a` and `e 0 1 x` is accepted:
`ReadEdge` tests the source number 0 only against `numVertices` and stores
the index `0 - 1 = 2 ^ 64 - 1`, which is not below `numVertices = 1`. A
vertex numbered 2 in the first record and an edge to the undeclared vertex 2
are rejected. -/
theorem ReadGraph_accepts_endpoint_zero :
    graphEndpointZero = "v 1 a\ne 0 1 x\n".data ∧
      ReadGraph graphEndpointZero true =
        some ⟨[['a']], [⟨18446744073709551615, 0, ['x'], true⟩]⟩ ∧
      ¬ (18446744073709551615 < (⟨[['a']], []⟩ : MinerGraph).numVertices) ∧
      ReadGraph (fileOfLines ["v 2 a"]) true = none ∧
      ReadGraph (fileOfLines ["v 1 a", "e 1 2 x"]) true = none := by
  decide

/-! ## Normative ranker: the elected file name -/

theorem foldl_electStep_all_zero (es : List NormativePattern) (st : RankerState)
    (hz : ∀ e ∈ es, e.score = 0) :
    (es.foldl electStep st).maxScoreFileName = st.maxScoreFileName := by
  induction es generalizing st with
  | nil => rfl
  | cons a es ih =>
    rw [List.foldl_cons, ih _ (fun e he => hz e (List.mem_cons_of_mem _ he))]
    have ha : a.score = 0 := hz a (List.mem_cons_self _ _)
    simp [electStep, ha]

/-- When the scan scores at least one pattern and every score is 0, no file
name is ever stored and the function does not return. -/
theorem FindBestNormativePattern_all_zero (norm : NormDir) (gm : Matcher)
    (M firstPartition lastPartition : Nat)
    (hne : scoredPatterns norm gm M firstPartition lastPartition ≠ [])
    (hz : ∀ e ∈ scoredPatterns norm gm M firstPartition lastPartition, e.score = 0) :
    FindBestNormativePattern norm gm M firstPartition lastPartition [] = none := by
  have hex := foldl_electStep_exists (scoredPatterns norm gm M firstPartition lastPartition)
    (RankerState.init []) hne
  have hname := foldl_electStep_all_zero
    (scoredPatterns norm gm M firstPartition lastPartition) (RankerState.init []) hz
  simp only [FindBestNormativePattern, partitionLoop_eq_foldl, hex, if_true, hname]
  rfl

/-- Whenever the function returns with an elected file, that file is one of
the scored files, its score is the returned maximum, and `bestSub.g` receives
its graph lines. -/
theorem FindBestNormativePattern_copies_scored (norm : NormDir) (gm : Matcher)
    (M firstPartition lastPartition : Nat) (res : RankerResult) (p r : Nat)
    (h : FindBestNormativePattern norm gm M firstPartition lastPartition [] = some res)
    (hel : res.elected = some (p, r)) :
    ∃ e ∈ scoredPatterns norm gm M firstPartition lastPartition, ∃ f,
      e.partitionNumber = p ∧ e.bestSubNumber = r ∧ e.score = res.maxScore ∧
        norm p r = some f ∧ res.bestSub = some f.graph := by
  have hmax := FindBestNormativePattern_maxScore norm gm M firstPartition lastPartition [] res h
  simp only [FindBestNormativePattern, partitionLoop_eq_foldl] at h
  rcases foldl_electStep_elected (scoredPatterns norm gm M firstPartition lastPartition)
    (RankerState.init []) with ⟨_, h2⟩ | ⟨l1, e, l2, hsplit, hscore, hname, _, _⟩
  · rw [h2] at h
    simp only [RankerState.init] at h
    split at h
    · cases h
    · cases h
      cases hel
  · rw [hname] at h
    split at h
    · simp only at h
      cases hf : norm e.partitionNumber e.bestSubNumber with
      | none => simp [hf] at h
      | some f =>
        simp only [hf, Option.some.injEq] at h
        subst h
        simp only [Option.some.injEq, Prod.mk.injEq] at hel
        obtain ⟨hp, hr⟩ := hel
        refine ⟨e, ?_, f, hp, hr, ?_, ?_, rfl⟩
        · rw [hsplit]
          exact List.mem_append_right _ (List.mem_cons_self _ _)
        · rw [hscore]
        · rw [← hp, ← hr]
          exact hf
    · cases h
      cases hel

/-- C29, evaluated: with `norm_1_1` (size 5, no instance), `norm_1_2` (size 0,
3 instances) and `norm_2_1` (size 4, no instance) the scan scores all three
files with 0, a normative pattern is found, the maximum stays 0 and no file
name is stored, so the function opens the unset name and does not return: no
file is elected and nothing is copied to `bestSub.g`. -/
theorem FindBestNormativePattern_name_unset :
    (scoredPatterns normNoInstances gmNone 2 1 2).map
        (fun e => (e.partitionNumber, e.bestSubNumber, e.score)) =
        [(1, 1, 0), (1, 2, 0), (2, 1, 0)] ∧
      (partitionLoop normNoInstances gmNone 2 1 2 (RankerState.init [])).normativePatternExists
        = true ∧
      (partitionLoop normNoInstances gmNone 2 1 2 (RankerState.init [])).maxScore = 0 ∧
      (partitionLoop normNoInstances gmNone 2 1 2 (RankerState.init [])).maxScoreFileName
        = none ∧
      FindBestNormativePattern normNoInstances gmNone 2 1 2 [] = none := by
  decide

/-! ## Anomaly ranker: the returned list -/

theorem FindMostAnomalousSubstructures_list_sub (anom : AnomDir) (gm : Matcher)
    (N first numAnom : Nat) (e : AnomalousSubstructure)
    (he : e ∈ (FindMostAnomalousSubstructures anom gm N first numAnom []).2) :
    ∃ i k, (1 ≤ i ∧ i ≤ N) ∧ (1 ≤ k ∧ k ≤ numAnom) ∧
      e.partitionNumber = i + (first - 1) ∧ e.anomalousNumber = k ∧
      cellScore anom gm N first numAnom (i, k) = some e.score := by
  rw [FindMostAnomalousSubstructures_eq] at he
  rcases sweep_list_sub anom gm N first numAnom _ _ e he with h | ⟨c, hc, a, ha, rfl⟩
  · cases h
  · obtain ⟨i, k⟩ := c
    exact ⟨i, k, ((mem_anomCells N numAnom i k).mp hc).1, ((mem_anomCells N numAnom i k).mp hc).2,
      rfl, rfl, ha⟩

/-- C30: every existing instance of the window (window index `i`, instance
number `k`) whose aggregated score equals the returned `minScore` has the
entry `(i + (firstPartition - 1), k, minScore)` in the list returned by
`FindMostAnomalousSubstructures`; and every entry of the returned list names
an existing instance of the window by its absolute partition ordinal and its
instance number and carries the aggregated score of that instance. -/
theorem FindMostAnomalousSubstructures_list_exact (anom : AnomDir) (gm : Matcher)
    (NUM_PARTITIONS firstPartition numAnomalousInstances : Nat) :
    (∀ i k, (1 ≤ i ∧ i ≤ NUM_PARTITIONS) → (1 ≤ k ∧ k ≤ numAnomalousInstances) →
      cellScore anom gm NUM_PARTITIONS firstPartition numAnomalousInstances (i, k) =
        some (FindMostAnomalousSubstructures anom gm NUM_PARTITIONS firstPartition
          numAnomalousInstances []).1 →
      (⟨i + (firstPartition - 1), k,
          (FindMostAnomalousSubstructures anom gm NUM_PARTITIONS firstPartition
            numAnomalousInstances []).1⟩ : AnomalousSubstructure) ∈
        (FindMostAnomalousSubstructures anom gm NUM_PARTITIONS firstPartition
          numAnomalousInstances []).2) ∧
    (∀ e ∈ (FindMostAnomalousSubstructures anom gm NUM_PARTITIONS firstPartition
        numAnomalousInstances []).2,
      ∃ i k, (1 ≤ i ∧ i ≤ NUM_PARTITIONS) ∧ (1 ≤ k ∧ k ≤ numAnomalousInstances) ∧
        e.partitionNumber = i + (firstPartition - 1) ∧ e.anomalousNumber = k ∧
        cellScore anom gm NUM_PARTITIONS firstPartition numAnomalousInstances (i, k) =
          some e.score) := by
  constructor
  · intro i k hi hk ha
    have hle := FindMostAnomalousSubstructures_minScore_le anom gm NUM_PARTITIONS firstPartition
      numAnomalousInstances
    exact FindMostAnomalousSubstructures_list_record anom gm _ _ _ i k _ hi hk ha hle.1
      (fun d hd _ b hb => hle.2 d hd b hb)
  · intro e he
    exact FindMostAnomalousSubstructures_list_sub anom gm _ _ _ e he

/-- Witness of C30 on a window starting at partition 5 with instance scores
`2/5` (`anom_5_1`), `1/4` (`anom_5_2`) and `1/4` (`anom_6_1`) and no
equivalent pair: the returned minimum is `1/4`, both instances of score `1/4`
are on the list with their absolute partition ordinals 5 and 6, and the first
entry of the list, `(6, 1, 1/4)`, carries the aggregated score of
`anom_6_1`. -/
theorem FindMostAnomalousSubstructures_list_exact_witness :
    (FindMostAnomalousSubstructures anomShifted gmNone 2 5 2 []).1 = 1 / 4 ∧
      (⟨5, 2, (FindMostAnomalousSubstructures anomShifted gmNone 2 5 2 []).1⟩ :
          AnomalousSubstructure) ∈ (FindMostAnomalousSubstructures anomShifted gmNone 2 5 2 []).2 ∧
      (⟨6, 1, (FindMostAnomalousSubstructures anomShifted gmNone 2 5 2 []).1⟩ :
          AnomalousSubstructure) ∈ (FindMostAnomalousSubstructures anomShifted gmNone 2 5 2 []).2 ∧
      ∃ i k, (1 ≤ i ∧ i ≤ 2) ∧ (1 ≤ k ∧ k ≤ 2) ∧
        (⟨6, 1, 1 / 4⟩ : AnomalousSubstructure).partitionNumber = i + (5 - 1) ∧
        (⟨6, 1, 1 / 4⟩ : AnomalousSubstructure).anomalousNumber = k ∧
        cellScore anomShifted gmNone 2 5 2 (i, k) =
          some (⟨6, 1, 1 / 4⟩ : AnomalousSubstructure).score :=
  ⟨by decide!,
    (FindMostAnomalousSubstructures_list_exact anomShifted gmNone 2 5 2).1 1 2
      (by decide) (by decide) (by decide!),
    (FindMostAnomalousSubstructures_list_exact anomShifted gmNone 2 5 2).1 2 1
      (by decide) (by decide) (by decide!),
    (FindMostAnomalousSubstructures_list_exact anomShifted gmNone 2 5 2).2 ⟨6, 1, 1 / 4⟩
      (by decide!)⟩

end PLADS
